import Mathlib

/-!
Verification of the thread-reconstruction core of the nestcheck
nested-sampling data-processing module (data_processing.py).

Floating-point log-likelihood and birth-contour values are modelled as
integers extended with a bottom element: the source compares these values
only by order and by exact equality, `⊥` plays the role of `-np.inf`.
Fallible code (Python assertions and index errors) is modelled with
`Option`/`Except`.  The Python `while` loop that follows replacement
chains is modelled with an explicit fuel argument that is always
initialised large enough that it cannot run out before the loop's own
exit or failure conditions trigger.
-/

namespace Nestcheck

/-- Model of a numpy floating-point value appearing in a nested sampling
run: an integer or `-np.inf` (modelled by `⊥`). -/
abbrev F := WithBot ℤ

/-! ### Generic list helpers: stable sorting, index search, partial sums -/

/-- Stable ascending sort by a key function; models sorting a numpy
array with `np.argsort` on one column. -/
def sortByKey {α κ : Type} [LinearOrder κ] (key : α → κ) (l : List α) : List α :=
  List.insertionSort (fun a b => key a ≤ key b) l

/-- Ascending list of the indices of the entries of `l` satisfying `p`;
models `np.where(...)[0]`. -/
def indicesWhere {α : Type} (p : α → Bool) : List α → List Nat
  | [] => []
  | a :: l =>
    if p a then 0 :: (indicesWhere p l).map (fun i => i + 1)
    else (indicesWhere p l).map (fun i => i + 1)

/-- Sorted list of the distinct values of `l`; models `np.unique`. -/
def uniqueSorted {α : Type} [LinearOrder α] [DecidableEq α] (l : List α) : List α :=
  sortByKey id l.dedup

/-- Partial sums of `l` starting from accumulator `acc`. -/
def cumsumFrom (acc : ℤ) : List ℤ → List ℤ
  | [] => []
  | x :: xs => (acc + x) :: cumsumFrom (acc + x) xs

/-- Inclusive partial sums; models `np.cumsum`. -/
def cumsum (l : List ℤ) : List ℤ := cumsumFrom 0 l

/-- Add `v` to the entry of `l` at index `i` (no-op when out of range;
all uses are in range). -/
def listAddAt (l : List ℤ) (i : Nat) (v : ℤ) : List ℤ := l.set i (l.getD i 0 + v)

/-! ### Thread reconstruction (threads_given_birth_contours) -/

/-- The inner `while` loop of `threads_given_birth_contours`: starting
from the just-assigned sample `cur`, repeatedly find the first sample
born on the current sample's log-likelihood and give it thread label
`tn`; fail (like the source's assertion) if that sample already has a
label.  `fuel` only bounds the recursion and is chosen by the caller so
that it cannot run out before the loop stops by itself. -/
def walkChain (logl birth : List F) (tn : Nat) :
    Nat → List (Option Nat) → Nat → Option (List (Option Nat))
  | 0, _, _ => none
  | fuel + 1, labels, cur =>
    match birth.findIdx? (fun b => b == logl.getD cur ⊥) with
    | none => some labels
    | some nxt =>
      if nxt < labels.length then
        match labels.getD nxt none with
        | some _ => none
        | none => walkChain logl birth tn fuel (labels.set nxt (some tn)) nxt
      else none

/-- Start a new thread with label `tn` at sample `startInd`: fail if the
sample already has a label, otherwise label it and walk the replacement
chain from it. -/
def assignFrom (logl birth : List F) (labels : List (Option Nat)) (tn : Nat)
    (startInd : Nat) : Option (List (Option Nat)) :=
  if startInd < labels.length then
    match labels.getD startInd none with
    | some _ => none
    | none =>
      walkChain logl birth tn (labels.length + 1) (labels.set startInd (some tn)) startInd
  else none

/-- Process one thread-start contour `c`: each sample born on `c` starts
a new thread, except that on a non-initial contour (`isFirst = false`)
the first such sample continues an existing thread and is skipped. -/
def processContour (logl birth : List F) (isFirst : Bool) (c : F)
    (st : List (Option Nat) × Nat) : Option (List (Option Nat) × Nat) :=
  let inds := indicesWhere (fun b => b == c) birth
  let inds := if isFirst then inds else inds.drop 1
  inds.foldlM
    (fun (st : List (Option Nat) × Nat) idx =>
      (assignFrom logl birth st.1 st.2 idx).map (fun ls => (ls, st.2 + 1))) st

/-- The initial birth contour `init_birth = birth_logl[0]` (only ever
used on nonempty lists). -/
def initBirth (birth_logl : List F) : F := birth_logl.headD ⊥

/-- The per-sample assertions at the top of
`threads_given_birth_contours`: every sample is born strictly below its
own log-likelihood, and every non-initial birth contour matches exactly
one sample's log-likelihood. -/
def birthsOK (logl birth_logl : List F) : Bool :=
  (birth_logl.zip logl).all fun bl =>
    decide (bl.1 < bl.2) && (bl.1 == initBirth birth_logl || logl.count bl.1 == 1)

/-- The non-initial birth contour values
(`birth_logl[np.where(birth_logl != init_birth)]`). -/
def nonInitBirths (birth_logl : List F) : List F :=
  birth_logl.filter (fun b => ¬ b == initBirth birth_logl)

/-- The non-initial contours on which at least two samples were born
(`unique[np.where(counts > 1)]`), in ascending order. -/
def multiStartContours (birth_logl : List F) : List F :=
  (uniqueSorted (nonInitBirths birth_logl)).filter
    (fun c => 1 < (nonInitBirths birth_logl).count c)

/-- The total number of threads (`sum(thread_start_counts)`). -/
def startTotal (birth_logl : List F) : Nat :=
  birth_logl.count (initBirth birth_logl) +
    ((multiStartContours birth_logl).map
      (fun c => (nonInitBirths birth_logl).count c - 1)).sum

/-- The two nested thread-assignment loops of
`threads_given_birth_contours`: process the initial contour (all its
samples start threads), then each multiple-birth contour (all but the
first of its samples start threads). -/
def runStarts (logl birth_logl : List F) : Option (List (Option Nat) × Nat) :=
  (processContour logl birth_logl true (initBirth birth_logl)
      (List.replicate logl.length none, 0)).bind
    (fun st =>
      (multiStartContours birth_logl).foldlM
        (fun st c => processContour logl birth_logl false c st) st)

/-- The final checks of `threads_given_birth_contours`: every sample
must have received a label, and the labels must form the range
`0 .. sum(thread_start_counts) - 1`. -/
def finishLabels (birth_logl : List F) (st : List (Option Nat) × Nat) : Option (List Nat) :=
  if st.1.all (fun o => o.isSome) then
    if uniqueSorted (st.1.map (fun o => o.getD 0)) == List.range (startTotal birth_logl) then
      some (st.1.map (fun o => o.getD 0))
    else none
  else none

/-- Model of `threads_given_birth_contours`: assign an integer thread
label to every sample from its log-likelihood and birth contour.
`none` models an `AssertionError` (or an index error on malformed
lengths). -/
def threads_given_birth_contours (logl birth_logl : List F) : Option (List Nat) :=
  if birth_logl = [] then none
  else if logl.length < birth_logl.length then none
  else if ¬ birthsOK logl birth_logl then none
  else (runStarts logl birth_logl).bind (finishLabels birth_logl)

/-! ### Run assembly (process_samples_array) -/

/-- The nestcheck nested sampling run representation (the dictionary
described in the module docstring), restricted to its mandatory keys. -/
structure Run where
  logl : List F
  theta : List (List F)
  thread_labels : List Nat
  thread_min_max : List (F × F)
  nlive_array : List ℤ
deriving DecidableEq, Repr

/-- Which assertion of `process_samples_array` failed. -/
inductive ProcessError where
  | duplicateLogl : ProcessError
  | threadAssign : ProcessError
  | labelRange : ProcessError
  | assembleFail : ProcessError
deriving DecidableEq, Repr

/-- Parameter columns of a sample row (all but the last two columns). -/
def rowTheta (r : List F) : List F := r.take (r.length - 2)

/-- Log-likelihood column of a sample row (second to last column). -/
def rowLogl (r : List F) : F := r.getD (r.length - 2) ⊥

/-- Birth-contour column of a sample row (last column). -/
def rowBirth (r : List F) : F := r.getD (r.length - 1) ⊥

/-- Sort sample rows in ascending order of the log-likelihood column;
models `samples[np.argsort(samples[:, -2])]`.  NumPy's default sort is
unspecified on equal keys, so the source determines the output only up
to a permutation of equal-logl rows; the model fixes one permissible
output (a stable one).  No downstream conclusion depends on the choice:
runs with duplicated log-likelihoods are rejected by the next step's
uniqueness assert. -/
def sortRows (samples : List (List F)) : List (List F) := sortByKey rowLogl samples

/-- One iteration of the `for label in unique_threads` loop of
`process_samples_array`: record the thread's (birth contour, final logl)
pair and its two signed contributions to the `delta_nlive` array. -/
def threadDelta (logl birth : List F) (labels : List Nat)
    (st : List (F × F) × List ℤ) (lab : Nat) : Option (List (F × F) × List ℤ) :=
  let inds := indicesWhere (fun x => x == lab) labels
  match inds.head?, inds.getLast? with
  | some first, some last =>
    let tmax := logl.getD last ⊥
    let bl := birth.getD first ⊥
    let delta := listAddAt st.2 (last + 1) (-1)
    if bl == birth.getD 0 ⊥ then
      some (st.1 ++ [((⊥ : F), tmax)], listAddAt delta 0 1)
    else
      match indicesWhere (fun x => x == bl) logl with
      | [bi] => some (st.1 ++ [(bl, tmax)], listAddAt delta (bi + 1) 1)
      | _ => none
  | _, _ => none

/-- The `thread_min_max`/`delta_nlive` loop of `process_samples_array`
together with the final cumulative sum, applied to the already-sorted
samples and reconstructed labels. -/
def assembleRun (sorted : List (List F)) (labels : List Nat) : Except ProcessError Run :=
  if uniqueSorted labels ≠ List.range labels.dedup.length then .error .labelRange
  else
    match (List.range labels.dedup.length).foldlM
        (threadDelta (sorted.map rowLogl) (sorted.map rowBirth) labels)
        ([], List.replicate (sorted.length + 1) 0) with
    | none => .error .assembleFail
    | some (tmm, delta) =>
      .ok { logl := sorted.map rowLogl, theta := sorted.map rowTheta,
            thread_labels := labels, thread_min_max := tmm,
            nlive_array := (cumsum delta).dropLast }

/-- Model of `process_samples_array`: sort the raw samples by
log-likelihood, split the columns, reconstruct thread labels, and build
`thread_min_max` and `nlive_array`.  An `Except.error` value models an
`AssertionError` raised at the corresponding point of the source. -/
def process_samples_array (samples : List (List F)) : Except ProcessError Run :=
  if ((sortRows samples).map rowLogl).dedup.length ≠ ((sortRows samples).map rowLogl).length
  then .error .duplicateLogl
  else
    match threads_given_birth_contours ((sortRows samples).map rowLogl)
        ((sortRows samples).map rowBirth) with
    | none => .error .threadAssign
    | some labels => assembleRun (sortRows samples) labels

/-! ### Run validation (check_ns_run and its three sub-checks) -/

/-- The shape part of `check_ns_run_members`: all per-sample arrays have
the same length as `logl`.  (The source's key, dtype and ndim checks are
type-level facts of the embedding.) -/
def check_ns_run_members (run : Run) : Bool :=
  (run.logl.length == run.nlive_array.length) &&
  (run.logl.length == run.thread_labels.length) &&
  (run.logl.length == run.theta.length)

/-- The diagnostic payload of the duplicate-log-likelihood message built
by `check_ns_run_logls`: the number of repeated values, the duplicated
values, and (only when there is more than one distinct value) their
multiplicities, the indices holding the first duplicated value, and the
total number of samples. -/
structure LoglDiag where
  nRepeat : Nat
  dupVals : List F
  detail : Option (List Nat × List Nat × Nat)
deriving DecidableEq, Repr

/-- The smallest duplicated log-likelihood value
(`logl_u[np.where(counts > 1)[0][0]]`; only used when one exists). -/
def firstDupVal (logl : List F) : F :=
  ((uniqueSorted logl).filter (fun v => 1 < logl.count v)).headD ⊥

/-- Build the diagnostic payload exactly as the source interpolates it
into the assertion message. -/
def logl_diag (logl : List F) : LoglDiag :=
  { nRepeat := logl.length - (uniqueSorted logl).length
    dupVals := (uniqueSorted logl).filter (fun v => 1 < logl.count v)
    detail :=
      if (uniqueSorted logl).length = 1 then none
      else
        some (((uniqueSorted logl).map (fun v => logl.count v)).filter (fun c => 1 < c),
              indicesWhere (fun x => x == firstDupVal logl) logl,
              logl.length) }

/-- Outcome of `check_ns_run_logls`: the ordering assertion failed, the
uniqueness assertion failed carrying its message payload, or the check
passed, possibly after issuing one warning carrying the same payload. -/
inductive LoglCheckResult where
  | sortError : LoglCheckResult
  | dupError : LoglDiag → LoglCheckResult
  | passed : Option LoglDiag → LoglCheckResult
deriving DecidableEq, Repr

/-- Model of `check_ns_run_logls`: require `logl` sorted, then require
unique values, either fatally (default) or as a single warning
(`warn_only = true`). -/
def check_ns_run_logls (logl : List F) (warn_only : Bool) : LoglCheckResult :=
  if ¬ (sortByKey id logl == logl) then .sortError
  else
    let rep := logl.length - (uniqueSorted logl).length
    if ¬ warn_only then
      if rep ≠ 0 then .dupError (logl_diag logl) else .passed none
    else
      if rep ≠ 0 then .passed (some (logl_diag logl)) else .passed none

/-- Model of `check_ns_run_threads`: thread labels form the dense range
of `thread_min_max`'s rows, some thread is born from the whole prior,
and each thread's first and last samples agree with its recorded birth
and final contours. -/
def check_ns_run_threads (run : Run) : Bool :=
  (uniqueSorted run.thread_labels == List.range run.thread_min_max.length) &&
  (run.thread_min_max.any (fun p => p.1 == (⊥ : F))) &&
  ((uniqueSorted run.thread_labels).all (fun lab =>
    match (indicesWhere (fun x => x == lab) run.thread_labels).head?,
        (indicesWhere (fun x => x == lab) run.thread_labels).getLast? with
    | some first, some last =>
      decide ((run.thread_min_max.getD lab ((⊥ : F), (⊥ : F))).1 < run.logl.getD first ⊥) &&
      ((run.thread_min_max.getD lab ((⊥ : F), (⊥ : F))).2 == run.logl.getD last ⊥)
    | _, _ => false))

/-- Model of `check_ns_run` with default settings apart from the single
`logl_warn_only` switch: `true` means no assertion is raised. -/
def check_ns_run (run : Run) (logl_warn_only : Bool) : Bool :=
  check_ns_run_members run &&
  (match check_ns_run_logls run.logl logl_warn_only with
   | .passed _ => true
   | _ => false) &&
  check_ns_run_threads run

/-! ### Reachability of a sample from a thread start -/

/-- A sample index is reachable from a thread start when it is born on
the initial contour, or is a non-first sample born on a contour shared
by at least two samples, or is the first sample born on the
log-likelihood of a reachable sample. -/
inductive Reachable (logl birth : List F) : Nat → Prop where
  | initStart : ∀ i, i < birth.length → birth.getD i ⊥ = birth.getD 0 ⊥ →
      Reachable logl birth i
  | splitStart : ∀ i, i < birth.length → birth.getD i ⊥ ≠ birth.getD 0 ⊥ →
      2 ≤ birth.count (birth.getD i ⊥) →
      (∃ j, j < i ∧ birth.getD j ⊥ = birth.getD i ⊥) →
      Reachable logl birth i
  | chainStep : ∀ j i, Reachable logl birth j →
      birth.findIdx? (fun b => b == logl.getD j ⊥) = some i →
      Reachable logl birth i

/-! ### Synthetic run families used for the whole-pipeline theorems -/

/-- A single-parameter sample row with log-likelihood `x` and birth
contour `c`. -/
def constBirthRow (c : F) (x : ℤ) : List F := [0, (x : F), c]

/-- A run in which every sample is born on the same contour `c`:
parameter column constantly 0, log-likelihood column `L`. -/
def constBirthRows (L : List ℤ) (c : F) : List (List F) := L.map (constBirthRow c)

/-- The label state after the first `k` samples of an all-initial-births
run of `n` samples have each started their own thread. -/
def labelsUpTo (n k : Nat) : List (Option Nat) :=
  (List.range n).map (fun j => if j < k then some j else none)

/-- The delta-nlive state after the first `k` threads of an
all-initial-births run of `n` samples have been recorded. -/
def deltaUpTo (n k : Nat) : List ℤ :=
  (List.range (n + 1)).map (fun i => if i = 0 then (k : ℤ) else if i ≤ k then -1 else 0)

/-- Birth contours of a two-thread run presented in sorted order: the
input pairs each log-likelihood with the side flag of its thread
(`false` = initial thread, `true` = second thread); `lf` and `lt` carry
the most recent log-likelihood seen on each side, so every sample is
born on the previous sample of its own thread.  The caller seeds `lf`
with the prior contour and `lt` with the second thread's start
contour. -/
def twoThreadBirths : List (ℤ × Bool) → F → F → List F
  | [], _, _ => []
  | (v, b) :: rest, lf, lt =>
    if b then lt :: twoThreadBirths rest lf ((v : ℤ) : F)
    else lf :: twoThreadBirths rest ((v : ℤ) : F) lt

/-- A two-thread run in sorted order: log-likelihood column `V`, side
mask `s` (`true` marks the second thread's samples), second thread born
on the `k`-th sample's log-likelihood, initial thread born from the
whole prior; parameter column constantly 0. -/
def twoThreadRows (V : List ℤ) (s : List Bool) (k : Nat) : List (List F) :=
  ((V.map (fun x : ℤ => (x : F))).zip
      (twoThreadBirths (V.zip s) ⊥ ((V.getD k 0 : ℤ) : F))).map
    (fun p => [0, p.1, p.2])

/-- The last index of side `b` strictly before position `j`. -/
def lastBefore (s : List Bool) (b : Bool) (j : Nat) : Option Nat :=
  (indicesWhere (fun x => x == b) (s.take j)).getLast?

/-- The first second-thread sample's position. -/
def firstTrue (s : List Bool) : Nat := (indicesWhere (fun x => x == true) s).headD 0

/-- The first initial-thread position strictly after `k`. -/
def nextFalse (s : List Bool) (k : Nat) : Nat :=
  ((indicesWhere (fun x => x == false) s).filter (fun i => decide (k < i))).headD 0

/-- The side of the sample that continues thread 0 past the shared
contour: of the two samples born on the `k`-th log-likelihood, the
walk labels the earlier one with thread 0. -/
def contSide (s : List Bool) (k : Nat) : Bool :=
  s.getD (min (nextFalse s k) (firstTrue s)) false

/-- The positions of side `b` strictly after `k`, in ascending order. -/
def sideAfter (s : List Bool) (b : Bool) (k : Nat) : List Nat :=
  (indicesWhere (fun x => x == b) s).filter (fun i => decide (k < i))

/-- The last position of side `b`. -/
def sideLast (s : List Bool) (b : Bool) : Nat :=
  (indicesWhere (fun x => x == b) s).getLastD 0

/-! ### Lemmas about the sorting helpers -/

theorem sortByKey_perm {α κ : Type} [LinearOrder κ] (key : α → κ) (l : List α) :
    (sortByKey key l).Perm l :=
  List.perm_insertionSort _ l

theorem sortByKey_sorted {α κ : Type} [LinearOrder κ] (key : α → κ) (l : List α) :
    List.Sorted (fun a b => key a ≤ key b) (sortByKey key l) := by
  letI : IsTotal α (fun a b => key a ≤ key b) := ⟨fun a b => le_total (key a) (key b)⟩
  letI : IsTrans α (fun a b => key a ≤ key b) := ⟨fun a b c hab hbc => le_trans hab hbc⟩
  exact List.sorted_insertionSort _ l

theorem sortByKey_eq_self {α κ : Type} [LinearOrder κ] {key : α → κ} {l : List α}
    (h : List.Sorted (fun a b => key a ≤ key b) l) : sortByKey key l = l :=
  List.Sorted.insertionSort_eq h

theorem sortByKey_length {α κ : Type} [LinearOrder κ] (key : α → κ) (l : List α) :
    (sortByKey key l).length = l.length :=
  (sortByKey_perm key l).length_eq

/-- Two sorted lists that are permutations of one another and have no
duplicate keys are equal. -/
theorem eq_of_perm_of_sorted_keys {α κ : Type} [LinearOrder κ] {key : α → κ} :
    ∀ {l₁ l₂ : List α}, l₁.Perm l₂ → List.Sorted (fun a b => key a ≤ key b) l₁ →
      List.Sorted (fun a b => key a ≤ key b) l₂ → (l₁.map key).Nodup → l₁ = l₂ := by
  intro l₁
  induction l₁ with
  | nil =>
    intro l₂ hp _ _ _
    exact (hp.symm.eq_nil).symm ▸ rfl
  | cons x xs ih =>
    intro l₂ hp hs₁ hs₂ hnd
    cases l₂ with
    | nil => exact absurd hp.eq_nil (by simp)
    | cons y ys =>
      have hxy : x = y := by
        have hxmem : x ∈ y :: ys := hp.mem_iff.mp (List.mem_cons_self x xs)
        have hymem : y ∈ x :: xs := hp.symm.mem_iff.mp (List.mem_cons_self y ys)
        rcases List.mem_cons.mp hxmem with h1 | h1
        · exact h1
        rcases List.mem_cons.mp hymem with h2 | h2
        · exact h2.symm
        have hxy1 : key x ≤ key y := List.rel_of_sorted_cons hs₁ y h2
        have hxy2 : key y ≤ key x := List.rel_of_sorted_cons hs₂ x h1
        have hkeq : key x = key y := le_antisymm hxy1 hxy2
        simp only [List.map_cons, List.nodup_cons] at hnd
        exact absurd (hkeq ▸ List.mem_map_of_mem key h2) hnd.1
      subst hxy
      have htail : xs = ys := by
        apply ih (hp.cons_inv) hs₁.of_cons hs₂.of_cons
        simp only [List.map_cons, List.nodup_cons] at hnd
        exact hnd.2
      rw [htail]

/-! ### Lemmas about indicesWhere and basic list access -/

theorem indicesWhere_sorted {α : Type} (p : α → Bool) :
    ∀ l : List α, (indicesWhere p l).Pairwise (· < ·) := by
  intro l
  induction l with
  | nil => exact List.Pairwise.nil
  | cons a l ih =>
    have hmap : ((indicesWhere p l).map (fun i => i + 1)).Pairwise (· < ·) :=
      (List.pairwise_map).mpr (ih.imp (fun h => by omega))
    cases hpa : p a with
    | true =>
      simp only [indicesWhere, hpa, if_pos rfl]
      refine List.Pairwise.cons ?_ hmap
      intro j hj
      rcases List.mem_map.mp hj with ⟨i, _, rfl⟩
      omega
    | false => simpa [indicesWhere, hpa] using hmap

theorem mem_indicesWhere {α : Type} (p : α → Bool) (d : α) :
    ∀ (l : List α) (i : Nat),
      i ∈ indicesWhere p l ↔ i < l.length ∧ p (l.getD i d) = true := by
  intro l
  induction l with
  | nil => intro i; simp [indicesWhere]
  | cons a l ih =>
    intro i
    cases hpa : p a with
    | true =>
      rw [show indicesWhere p (a :: l) = 0 :: (indicesWhere p l).map (fun x => x + 1) by
        simp [indicesWhere, hpa]]
      cases i with
      | zero => simp [hpa]
      | succ j =>
        rw [List.mem_cons]
        simp only [List.mem_map, List.length_cons, List.getD_cons_succ]
        constructor
        · rintro (h | ⟨j', hj', hj⟩)
          · exact absurd h (by omega)
          · obtain rfl : j' = j := by omega
            have := (ih j').mp hj'
            exact ⟨by omega, this.2⟩
        · rintro ⟨hl, hp⟩
          exact Or.inr ⟨j, (ih j).mpr ⟨by omega, hp⟩, rfl⟩
    | false =>
      rw [show indicesWhere p (a :: l) = (indicesWhere p l).map (fun x => x + 1) by
        simp [indicesWhere, hpa]]
      cases i with
      | zero =>
        simp only [List.mem_map, List.length_cons, List.getD_cons_zero]
        constructor
        · rintro ⟨j', _, hj⟩; omega
        · rintro ⟨_, hp⟩; rw [hp] at hpa; cases hpa
      | succ j =>
        simp only [List.mem_map, List.length_cons, List.getD_cons_succ]
        constructor
        · rintro ⟨j', hj', hj⟩
          obtain rfl : j' = j := by omega
          have := (ih j').mp hj'
          exact ⟨by omega, this.2⟩
        · rintro ⟨hl, hp⟩
          exact ⟨j, (ih j).mpr ⟨by omega, hp⟩, rfl⟩

theorem length_indicesWhere {α : Type} (p : α → Bool) :
    ∀ l : List α, (indicesWhere p l).length = l.countP p := by
  intro l
  induction l with
  | nil => rfl
  | cons a l ih =>
    cases hpa : p a <;> simp [indicesWhere, hpa, List.countP_cons, ih]

theorem mem_of_head?_eq {α : Type} {l : List α} {a : α} (h : l.head? = some a) : a ∈ l := by
  cases l with
  | nil => simp at h
  | cons x t =>
    simp only [List.head?_cons, Option.some_inj] at h
    exact h ▸ List.mem_cons_self x t

theorem mem_of_getLast?_eq {α : Type} :
    ∀ {l : List α} {a : α}, l.getLast? = some a → a ∈ l := by
  intro l
  induction l with
  | nil => intro a h; simp at h
  | cons x t ih =>
    intro a h
    cases t with
    | nil =>
      simp only [List.getLast?_singleton, Option.some_inj] at h
      exact h ▸ List.mem_cons_self x []
    | cons y u =>
      rw [List.getLast?_cons_cons] at h
      exact List.mem_cons_of_mem x (ih h)

theorem head?_min_of_sorted {l : List Nat} (hs : l.Pairwise (· < ·)) {i : Nat}
    (h : l.head? = some i) : ∀ j ∈ l, i ≤ j := by
  cases l with
  | nil => simp at h
  | cons x t =>
    simp only [List.head?_cons, Option.some_inj] at h
    subst h
    intro j hj
    rcases List.mem_cons.mp hj with rfl | hj
    · exact le_refl j
    · exact le_of_lt (List.rel_of_pairwise_cons hs hj)

theorem getLast?_max_of_sorted :
    ∀ {l : List Nat}, l.Pairwise (· < ·) → ∀ {i : Nat}, l.getLast? = some i →
      ∀ j ∈ l, j ≤ i := by
  intro l
  induction l with
  | nil => intro _ i h; simp at h
  | cons x t ih =>
    intro hs i h j hj
    cases t with
    | nil =>
      simp only [List.getLast?_singleton, Option.some_inj] at h
      rcases List.mem_cons.mp hj with rfl | hj
      · omega
      · simp at hj
    | cons y u =>
      rw [List.getLast?_cons_cons] at h
      have hmax := ih (hs.of_cons) h
      rcases List.mem_cons.mp hj with rfl | hj
      · have hyi : y ≤ i := hmax y (List.mem_cons_self y u)
        have hxy : j < y := List.rel_of_pairwise_cons hs (List.mem_cons_self y u)
        omega
      · exact hmax j hj

theorem indicesWhere_head?_spec {α : Type} (p : α → Bool) (d : α) {l : List α} {i : Nat}
    (h : (indicesWhere p l).head? = some i) :
    i < l.length ∧ p (l.getD i d) = true ∧ ∀ j, j < i → p (l.getD j d) = false := by
  have hmem := mem_of_head?_eq h
  have h1 := (mem_indicesWhere p d l i).mp hmem
  refine ⟨h1.1, h1.2, ?_⟩
  intro j hj
  by_contra hb
  have hj' : j ∈ indicesWhere p l :=
    (mem_indicesWhere p d l j).mpr ⟨by omega, by simpa using hb⟩
  have := head?_min_of_sorted (indicesWhere_sorted p l) h j hj'
  omega

theorem indicesWhere_getLast?_spec {α : Type} (p : α → Bool) (d : α) {l : List α} {i : Nat}
    (h : (indicesWhere p l).getLast? = some i) :
    i < l.length ∧ p (l.getD i d) = true ∧
      ∀ j, i < j → j < l.length → p (l.getD j d) = false := by
  have hmem := mem_of_getLast?_eq h
  have h1 := (mem_indicesWhere p d l i).mp hmem
  refine ⟨h1.1, h1.2, ?_⟩
  intro j hij hjl
  by_contra hb
  have hj' : j ∈ indicesWhere p l :=
    (mem_indicesWhere p d l j).mpr ⟨hjl, by simpa using hb⟩
  have := getLast?_max_of_sorted (indicesWhere_sorted p l) h j hj'
  omega

theorem getD_set_self {α : Type} (l : List α) (i : Nat) (a d : α) (h : i < l.length) :
    (l.set i a).getD i d = a := by
  rw [List.getD_eq_getElem?_getD, List.getElem?_set_self h]
  rfl

theorem getD_set_ne {α : Type} (l : List α) {i j : Nat} (a d : α) (h : i ≠ j) :
    (l.set i a).getD j d = l.getD j d := by
  rw [List.getD_eq_getElem?_getD, List.getElem?_set_ne h, ← List.getD_eq_getElem?_getD]

theorem all_zip_iff_getD {α β : Type} (p : α × β → Bool) (da : α) (db : β) :
    ∀ (l₁ : List α) (l₂ : List β),
      ((l₁.zip l₂).all p) = true ↔
        ∀ i, i < l₁.length → i < l₂.length → p (l₁.getD i da, l₂.getD i db) = true := by
  intro l₁
  induction l₁ with
  | nil => intro l₂; simp
  | cons a l₁ ih =>
    intro l₂
    cases l₂ with
    | nil => simp
    | cons b l₂ =>
      simp only [List.zip_cons_cons, List.all_cons, Bool.and_eq_true]
      constructor
      · rintro ⟨h0, hrest⟩ i hi1 hi2
        cases i with
        | zero => exact h0
        | succ j =>
          simp only [List.getD_cons_succ]
          exact (ih l₂).mp hrest j (by simpa using hi1) (by simpa using hi2)
      · intro h
        refine ⟨h 0 (by simp) (by simp), (ih l₂).mpr ?_⟩
        intro j hj1 hj2
        have := h (j + 1) (by simpa using hj1) (by simpa using hj2)
        simpa using this

theorem foldlM_option_invariant {α β : Type} {f : β → α → Option β} (P : β → Prop) :
    ∀ {l : List α} {acc res : β}, l.foldlM f acc = some res → P acc →
      (∀ b a b', a ∈ l → P b → f b a = some b' → P b') → P res := by
  intro l
  induction l with
  | nil =>
    intro acc res h hP _
    simp only [List.foldlM_nil, Option.pure_def, Option.some_inj] at h
    exact h ▸ hP
  | cons a l ih =>
    intro acc res h hP hstep
    rw [List.foldlM_cons] at h
    cases hfa : f acc a with
    | none => rw [hfa] at h; simp at h
    | some acc' =>
      rw [hfa] at h
      simp only [Option.bind_eq_bind, Option.some_bind] at h
      exact ih h (hstep acc a acc' (List.mem_cons_self a l) hP hfa)
        (fun b x b' hx hPb hf => hstep b x b' (List.mem_cons_of_mem a hx) hPb hf)

/-! ### Lemmas about cumsum and listAddAt -/

theorem cumsumFrom_length (acc : ℤ) : ∀ l : List ℤ, (cumsumFrom acc l).length = l.length := by
  intro l
  induction l generalizing acc with
  | nil => rfl
  | cons x xs ih => simp [cumsumFrom, ih]

theorem cumsumFrom_getD (d : ℤ) :
    ∀ (l : List ℤ) (acc : ℤ) (i : Nat), i < l.length →
      (cumsumFrom acc l).getD i d = acc + (l.take (i + 1)).sum := by
  intro l
  induction l with
  | nil => intro acc i h; simp at h
  | cons x xs ih =>
    intro acc i h
    cases i with
    | zero => simp [cumsumFrom]
    | succ j =>
      simp only [cumsumFrom, List.getD_cons_succ, List.take_succ_cons, List.sum_cons]
      rw [ih (acc + x) j (by simpa using h)]
      ring

theorem listAddAt_length (l : List ℤ) (i : Nat) (v : ℤ) :
    (listAddAt l i v).length = l.length := by
  simp [listAddAt]

theorem listAddAt_getD_self (l : List ℤ) (i : Nat) (v : ℤ) (h : i < l.length) :
    (listAddAt l i v).getD i 0 = l.getD i 0 + v := by
  simp only [listAddAt]
  rw [getD_set_self _ _ _ _ h]

theorem listAddAt_getD_ne (l : List ℤ) {i j : Nat} (v : ℤ) (h : i ≠ j) :
    (listAddAt l i v).getD j 0 = l.getD j 0 := by
  simp only [listAddAt]
  rw [getD_set_ne _ _ _ h]

theorem take_sum_listAddAt :
    ∀ (l : List ℤ) (i : Nat) (v : ℤ), i < l.length → ∀ p : Nat,
      ((listAddAt l i v).take p).sum = (l.take p).sum + if i < p then v else 0 := by
  intro l
  induction l with
  | nil => intro i v h; simp at h
  | cons x xs ih =>
    intro i v h p
    cases i with
    | zero =>
      cases p with
      | zero => simp [listAddAt]
      | succ q =>
        simp only [listAddAt, List.getD_cons_zero, List.set_cons_zero, List.take_succ_cons,
          List.sum_cons]
        simp only [if_pos (by omega : 0 < q + 1)]
        ring
    | succ j =>
      cases p with
      | zero => simp [listAddAt, List.set_cons_succ]
      | succ q =>
        simp only [listAddAt, List.getD_cons_succ, List.set_cons_succ, List.take_succ_cons,
          List.sum_cons]
        have := ih j v (by simpa using h) q
        simp only [listAddAt] at this
        rw [this]
        by_cases hq : j < q
        · simp only [if_pos hq, if_pos (by omega : j + 1 < q + 1)]
          ring
        · simp only [if_neg hq, if_neg (by omega : ¬ j + 1 < q + 1)]
          ring

theorem getD_mem {α : Type} {l : List α} {i : Nat} (d : α) (h : i < l.length) :
    l.getD i d ∈ l := by
  rw [List.getD_eq_getElem?_getD, List.getElem?_eq_getElem h]
  exact List.getElem_mem h

/-- A row of length at least two is recovered from its theta, logl and
birth columns. -/
theorem row_recombine : ∀ r : List F, 2 ≤ r.length →
    rowTheta r ++ [rowLogl r, rowBirth r] = r := by
  intro r h
  have hr : r = r.reverse.reverse := (List.reverse_reverse r).symm
  cases hrev : r.reverse with
  | nil => rw [hrev] at hr; simp [hr] at h
  | cons b s =>
    cases s with
    | nil => rw [hrev] at hr; simp [hr] at h
    | cons a t =>
      rw [hrev] at hr
      have hr' : r = t.reverse ++ [a, b] := by
        rw [hr]; simp
      have hlen : r.length = t.length + 2 := by
        rw [hr']; simp
      have htake : rowTheta r = t.reverse := by
        rw [rowTheta, hr']
        have h2 : (t.reverse ++ [a, b]).length - 2 = t.reverse.length := by simp
        rw [h2, List.take_left]
      have hlogl : rowLogl r = a := by
        rw [rowLogl, hr']
        have h2 : (t.reverse ++ [a, b]).length - 2 = t.reverse.length := by simp
        rw [h2, List.getD_append_right _ _ _ _ (le_refl _)]
        simp
      have hbirth : rowBirth r = b := by
        rw [rowBirth, hr']
        have h2 : (t.reverse ++ [a, b]).length - 1 = t.reverse.length + 1 := by simp
        rw [h2, List.getD_append_right _ _ _ _ (by omega)]
        simp
      rw [htake, hlogl, hbirth, hr']

/-- What the Sample Normalizer guarantees independently of tie order:
`np.argsort`'s default sort is unspecified on equal keys, so the source
determines the sorted array only up to the order of equal-logl rows.
This quantifies over every sorted permutation `out` of the rows — every
output the sort could produce: each is ascending in the log-likelihood
column and each of its rows recombines (theta, logl, birth) to an input
row.  The model's own `sortRows` is one such output. -/
theorem normalizer_sorts_splits_any_tie_order (samples out : List (List F)) (d : Nat)
    (hd : 3 ≤ d) (hrect : ∀ r ∈ samples, r.length = d)
    (hperm : out.Perm samples)
    (hsorted : out.Pairwise (fun a b => rowLogl a ≤ rowLogl b)) :
    List.Sorted (fun a b : F => a ≤ b) (out.map rowLogl) ∧
    (∀ i, i < samples.length →
      rowTheta (out.getD i []) ++ [rowLogl (out.getD i []), rowBirth (out.getD i [])]
        ∈ samples) ∧
    (sortRows samples).Perm samples ∧
    (sortRows samples).Pairwise (fun a b => rowLogl a ≤ rowLogl b) := by
  refine ⟨(List.pairwise_map).mpr hsorted, ?_, sortByKey_perm rowLogl samples,
    sortByKey_sorted rowLogl samples⟩
  intro i hi
  have hi' : i < out.length := by
    rw [hperm.length_eq]
    exact hi
  have hmem : out.getD i [] ∈ out := getD_mem [] hi'
  have hmem' : out.getD i [] ∈ samples := hperm.mem_iff.mp hmem
  have hlen : (out.getD i []).length = d := hrect _ hmem'
  rw [row_recombine _ (by omega)]
  exact hmem'

/-- Claim C8: the Sample Normalizer itself never fails on rectangular
numeric input with at least three columns — its sorted output and the
three split columns are always defined with consistent shapes — and a
duplicated log-likelihood value is caught by the pipeline's downstream
uniqueness check, not by the Normalizer. -/
theorem normalizer_total_dup_caught_downstream (samples : List (List F)) (d : Nat)
    (hd : 3 ≤ d) (hrect : ∀ r ∈ samples, r.length = d) :
    (sortRows samples).length = samples.length ∧
    ((sortRows samples).map rowLogl).length = samples.length ∧
    ((sortRows samples).map rowTheta).length = samples.length ∧
    ((sortRows samples).map rowBirth).length = samples.length ∧
    (∀ r ∈ sortRows samples, (rowTheta r).length = d - 2) ∧
    (¬ (samples.map rowLogl).Nodup →
      process_samples_array samples = .error .duplicateLogl) := by
  have hperm : (sortRows samples).Perm samples := sortByKey_perm rowLogl samples
  have hlen : (sortRows samples).length = samples.length := hperm.length_eq
  refine ⟨hlen, by simpa using hlen, by simpa using hlen, by simpa using hlen, ?_, ?_⟩
  · intro r hr
    have hmem : r ∈ samples := hperm.mem_iff.mp hr
    have : r.length = d := hrect r hmem
    simp [rowTheta, this]
  · intro hdup
    have hdup' : ¬ ((sortRows samples).map rowLogl).Nodup := by
      intro hnd
      exact hdup ((hperm.map rowLogl).nodup_iff.mp hnd)
    have hgate : ((sortRows samples).map rowLogl).dedup.length ≠
        ((sortRows samples).map rowLogl).length := by
      intro he
      apply hdup'
      have := (List.dedup_sublist ((sortRows samples).map rowLogl)).eq_of_length he
      rw [← this]
      exact List.nodup_dedup _
    simp only [process_samples_array]
    rw [if_pos hgate]

/-- Witness instantiating the normalizer-totality claim on a concrete
input with a duplicated log-likelihood. -/
theorem normalizer_total_dup_caught_downstream_witness :
    process_samples_array [[(0 : F), ((1 : ℤ) : F), (0 : F)], [(0 : F), ((1 : ℤ) : F), (0 : F)]] =
      .error .duplicateLogl :=
  (normalizer_total_dup_caught_downstream _ 3 (by decide) (by decide)).2.2.2.2.2 (by decide)

/-- Claim C1 counterexample: on the spec's concrete scenario the
reconstructor computes labels [0,1,0,1,1,2]; in particular the sample at
index 3 belongs to thread 1, not to thread 0 as the claim's expected
partition {0,2,3} demands. -/
theorem concrete_scenario_refutes_expected_labels :
    threads_given_birth_contours
        [((1 : ℤ) : F), ((2 : ℤ) : F), ((3 : ℤ) : F), ((4 : ℤ) : F), ((5 : ℤ) : F), ((6 : ℤ) : F)]
        [⊥, ⊥, ((1 : ℤ) : F), ((2 : ℤ) : F), ((4 : ℤ) : F), ((4 : ℤ) : F)] =
      some [0, 1, 0, 1, 1, 2] ∧
    ¬ ([0, 1, 0, 1, 1, 2].getD 3 0 = 0) := by
  constructor
  · rfl
  · decide

/-- Claim C1 (amended): on the spec's concrete scenario the reconstructor
assigns thread 0 to indices {0,2}, thread 1 to indices {1,3,4} and
thread 2 to index {5}; the first point born on contour 4 (index 4)
continues thread 1, since the point with logl 4 (index 3) belongs to
thread 1. -/
theorem concrete_scenario_labels :
    threads_given_birth_contours
        [((1 : ℤ) : F), ((2 : ℤ) : F), ((3 : ℤ) : F), ((4 : ℤ) : F), ((5 : ℤ) : F), ((6 : ℤ) : F)]
        [⊥, ⊥, ((1 : ℤ) : F), ((2 : ℤ) : F), ((4 : ℤ) : F), ((4 : ℤ) : F)] =
      some [0, 1, 0, 1, 1, 2] := by
  rfl

/-! ### Duplicate detection helpers -/

theorem two_le_length_of_two_mem {α : Type} {l : List α} {a b : α}
    (ha : a ∈ l) (hb : b ∈ l) (hab : a ≠ b) : 2 ≤ l.length := by
  cases l with
  | nil => simp at ha
  | cons x t =>
    cases t with
    | nil =>
      simp only [List.mem_singleton] at ha hb
      exact absurd (ha.trans hb.symm) hab
    | cons y u => simp [List.length_cons]

theorem not_nodup_of_getD_eq {α : Type} {l : List α} {d : α} {i j : Nat} (hij : i < j)
    (hj : j < l.length) (he : l.getD i d = l.getD j d) : ¬ l.Nodup := by
  intro hnd
  have hi : i < l.length := by omega
  rw [List.getD_eq_getElem?_getD, List.getElem?_eq_getElem hi] at he
  rw [List.getD_eq_getElem?_getD, List.getElem?_eq_getElem hj] at he
  simp only [Option.getD_some] at he
  have h2 : l.get ⟨i, hi⟩ = l.get ⟨j, hj⟩ := by simpa using he
  have := (hnd.get_inj_iff).mp h2
  simp only [Fin.mk.injEq] at this
  omega

theorem dedup_length_lt_of_not_nodup {α : Type} [DecidableEq α] {l : List α}
    (h : ¬ l.Nodup) : l.dedup.length < l.length := by
  have hle := (List.dedup_sublist l).length_le
  rcases lt_or_eq_of_le hle with hlt | heq
  · exact hlt
  · exact absurd (((List.dedup_sublist l).eq_of_length heq) ▸ List.nodup_dedup l) h

theorem uniqueSorted_length {α : Type} [LinearOrder α] [DecidableEq α] (l : List α) :
    (uniqueSorted l).length = l.dedup.length :=
  (sortByKey_perm id l.dedup).length_eq

theorem mem_uniqueSorted {α : Type} [LinearOrder α] [DecidableEq α] {l : List α} {a : α} :
    a ∈ uniqueSorted l ↔ a ∈ l := by
  rw [uniqueSorted]
  rw [(sortByKey_perm id l.dedup).mem_iff]
  exact List.mem_dedup

theorem headD_mem {α : Type} {l : List α} (d : α) (h : l ≠ []) : l.headD d ∈ l := by
  cases l with
  | nil => exact absurd rfl h
  | cons x t => exact List.mem_cons_self x t

theorem exists_two_le_count_of_not_nodup {α : Type} [DecidableEq α] {l : List α}
    (h : ¬ l.Nodup) : ∃ v ∈ l, 2 ≤ l.count v := by
  obtain ⟨v, hv⟩ := List.exists_duplicate_iff_not_nodup.mpr h
  exact ⟨v, hv.mem, List.duplicate_iff_two_le_count.mp hv⟩

theorem pairwise_lt_two_mem {l : List Nat} (hs : l.Pairwise (· < ·)) (h2 : 2 ≤ l.length) :
    ∃ i j, i ∈ l ∧ j ∈ l ∧ i < j := by
  cases l with
  | nil => simp at h2
  | cons x t =>
    cases t with
    | nil => simp at h2
    | cons y u =>
      refine ⟨x, y, List.mem_cons_self x _, List.mem_cons_of_mem x (List.mem_cons_self y u), ?_⟩
      exact List.rel_of_pairwise_cons hs (List.mem_cons_self y u)

/-! ### Claim C6: duplicate log-likelihood reporting -/

/-- Claim C6 counterexample: a run whose log-likelihoods are exactly
[5, 5] is rejected by default, but the assertion payload carries no
index information (its detail component is dropped when every sample
shares one value), so the report does not name the offending indices. -/
theorem duplicate_logl_all_equal_report_lacks_indices :
    check_ns_run_logls [((5 : ℤ) : F), ((5 : ℤ) : F)] false =
      .dupError (logl_diag [((5 : ℤ) : F), ((5 : ℤ) : F)]) ∧
    (logl_diag [((5 : ℤ) : F), ((5 : ℤ) : F)]).detail = none := by
  constructor
  · rfl
  · rfl

/-- Claim C6 (amended): for every sorted run with a duplicated
log-likelihood and at least two distinct log-likelihood values, the
check raises by default with a payload that names at least two distinct
offending indices holding equal log-likelihoods, and in relaxed mode it
instead passes while warning with exactly the same payload; the
fatal-versus-warning decision is taken once for the whole check. -/
theorem duplicate_logl_check_reports (logl : List F)
    (hs : List.Sorted (fun a b : F => a ≤ b) logl)
    (hdup : ∃ i j, i < j ∧ j < logl.length ∧ logl.getD i ⊥ = logl.getD j ⊥)
    (hdist : ∃ a ∈ logl, ∃ b ∈ logl, a ≠ b) :
    check_ns_run_logls logl false = .dupError (logl_diag logl) ∧
    check_ns_run_logls logl true = .passed (some (logl_diag logl)) ∧
    ∃ cs idxs tot, (logl_diag logl).detail = some (cs, idxs, tot) ∧
      ∃ i j, i ∈ idxs ∧ j ∈ idxs ∧ i ≠ j ∧ i < logl.length ∧ j < logl.length ∧
        logl.getD i ⊥ = logl.getD j ⊥ := by
  obtain ⟨i0, j0, hij0, hj0, he0⟩ := hdup
  have hnd : ¬ logl.Nodup := not_nodup_of_getD_eq hij0 hj0 he0
  have hsort : sortByKey id logl = logl := sortByKey_eq_self hs
  have hrep : logl.length - (uniqueSorted logl).length ≠ 0 := by
    have := dedup_length_lt_of_not_nodup hnd
    have := uniqueSorted_length logl
    omega
  have hcheckF : check_ns_run_logls logl false = .dupError (logl_diag logl) := by
    simp [check_ns_run_logls, hsort, hrep]
  have hcheckT : check_ns_run_logls logl true = .passed (some (logl_diag logl)) := by
    simp [check_ns_run_logls, hsort, hrep]
  refine ⟨hcheckF, hcheckT, ?_⟩
  obtain ⟨a, ha, b, hb, hab⟩ := hdist
  have hu2 : 2 ≤ (uniqueSorted logl).length :=
    two_le_length_of_two_mem (mem_uniqueSorted.mpr ha) (mem_uniqueSorted.mpr hb) hab
  have hu1 : ¬ (uniqueSorted logl).length = 1 := by omega
  obtain ⟨v, hvmem, hvc⟩ := exists_two_le_count_of_not_nodup hnd
  have hdups_ne :
      (uniqueSorted logl).filter (fun v => decide (1 < logl.count v)) ≠ [] := by
    have hvf : v ∈ (uniqueSorted logl).filter (fun v => decide (1 < logl.count v)) := by
      rw [List.mem_filter]
      exact ⟨mem_uniqueSorted.mpr hvmem, by simpa using hvc⟩
    exact List.ne_nil_of_mem hvf
  have hfdmem : firstDupVal logl ∈
      (uniqueSorted logl).filter (fun v => decide (1 < logl.count v)) :=
    headD_mem ⊥ hdups_ne
  rw [List.mem_filter] at hfdmem
  have hfdc : 2 ≤ logl.count (firstDupVal logl) := by
    have h2 := hfdmem.2
    simp only [decide_eq_true_eq] at h2
    omega
  have hlenidx : 2 ≤ (indicesWhere (fun x => x == firstDupVal logl) logl).length := by
    rw [length_indicesWhere, ← List.count_eq_countP]
    exact hfdc
  obtain ⟨i, j, hi, hj, hij⟩ :=
    pairwise_lt_two_mem (indicesWhere_sorted (fun x => x == firstDupVal logl) logl) hlenidx
  have hi' := (mem_indicesWhere (fun x => x == firstDupVal logl) ⊥ logl i).mp hi
  have hj' := (mem_indicesWhere (fun x => x == firstDupVal logl) ⊥ logl j).mp hj
  have hdetail : (logl_diag logl).detail =
      some (((uniqueSorted logl).map (fun v => logl.count v)).filter (fun c => 1 < c),
            indicesWhere (fun x => x == firstDupVal logl) logl, logl.length) := by
    simp only [logl_diag]
    rw [if_neg hu1]
  refine ⟨_, _, _, hdetail, i, j, hi, hj, by omega, hi'.1, hj'.1, ?_⟩
  have h1 : logl.getD i ⊥ = firstDupVal logl := by simpa using hi'.2
  have h2 : logl.getD j ⊥ = firstDupVal logl := by simpa using hj'.2
  rw [h1, h2]

/-- Witness instantiating the duplicate-reporting claim on the sorted
run [1, 1, 2]. -/
theorem duplicate_logl_check_reports_witness :
    check_ns_run_logls [((1 : ℤ) : F), ((1 : ℤ) : F), ((2 : ℤ) : F)] false =
      .dupError (logl_diag [((1 : ℤ) : F), ((1 : ℤ) : F), ((2 : ℤ) : F)]) :=
  (duplicate_logl_check_reports _ (by decide) ⟨0, 1, by decide, by decide, by decide⟩
    (by decide)).1

/-! ### Claim C5: invariants of validator-accepted runs -/

theorem sortF_sorted (l : List F) : List.Sorted (fun a b : F => a ≤ b) (sortByKey id l) := by
  have h := sortByKey_sorted (id : F → F) l
  simpa using h

theorem nodup_of_rep_zero {l : List F} (h : l.length - (uniqueSorted l).length = 0) :
    l.Nodup := by
  have h1 := uniqueSorted_length l
  have h2 := (List.dedup_sublist l).length_le
  have h3 : l.dedup.length = l.length := by omega
  rw [← (List.dedup_sublist l).eq_of_length h3]
  exact List.nodup_dedup l

theorem check_logls_passed_inv {logl : List F} {w : Bool}
    (h : (match check_ns_run_logls logl w with
          | .passed _ => true
          | _ => false) = true) :
    ∃ d, check_ns_run_logls logl w = .passed d := by
  cases hc : check_ns_run_logls logl w with
  | passed d => exact ⟨d, rfl⟩
  | sortError => rw [hc] at h; simp at h
  | dupError d => rw [hc] at h; simp at h

theorem check_logls_passed_false_sorted_nodup {logl : List F} {d : Option LoglDiag}
    (h : check_ns_run_logls logl false = .passed d) :
    List.Sorted (fun a b : F => a ≤ b) logl ∧ logl.Nodup := by
  unfold check_ns_run_logls at h
  by_cases hb : (sortByKey id logl == logl) = true
  · have hsort : sortByKey id logl = logl := by simpa using hb
    rw [if_neg (by simp [hb])] at h
    have hsorted : List.Sorted (fun a b : F => a ≤ b) logl := hsort ▸ sortF_sorted logl
    by_cases hrep : logl.length - (uniqueSorted logl).length = 0
    · exact ⟨hsorted, nodup_of_rep_zero hrep⟩
    · rw [if_pos (by simp), if_pos hrep] at h
      cases h
  · rw [if_pos (by simpa using hb)] at h
    cases h

theorem check_ns_run_inv {run : Run} {w : Bool} (h : check_ns_run run w = true) :
    check_ns_run_members run = true ∧
    (∃ d, check_ns_run_logls run.logl w = .passed d) ∧
    check_ns_run_threads run = true := by
  unfold check_ns_run at h
  cases hm : check_ns_run_members run with
  | false => rw [hm] at h; simp at h
  | true =>
    rw [hm] at h
    cases hc : check_ns_run_logls run.logl w with
    | passed d =>
      rw [hc] at h
      simp only [Bool.true_and] at h
      exact ⟨rfl, ⟨d, rfl⟩, by simpa using h⟩
    | sortError => rw [hc] at h; simp at h
    | dupError d => rw [hc] at h; simp at h

theorem indicesWhere_head?_eq {α : Type} [DecidableEq α] (d : α) {l : List α} {x : α}
    {first : Nat} (hf : first < l.length) (hx : l.getD first d = x)
    (hmin : ∀ j, j < first → l.getD j d ≠ x) :
    (indicesWhere (fun a => a == x) l).head? = some first := by
  have hmem : first ∈ indicesWhere (fun a => a == x) l :=
    (mem_indicesWhere _ d l first).mpr ⟨hf, by simp only [hx, beq_self_eq_true]⟩
  cases hinds : indicesWhere (fun a => a == x) l with
  | nil => rw [hinds] at hmem; simp at hmem
  | cons h0 t =>
    have hh0 : (indicesWhere (fun a => a == x) l).head? = some h0 := by rw [hinds]; rfl
    have hmem0 := mem_of_head?_eq hh0
    have h0spec := (mem_indicesWhere (fun a => a == x) d l h0).mp hmem0
    have hle : h0 ≤ first :=
      head?_min_of_sorted (indicesWhere_sorted _ l) hh0 first hmem
    rcases lt_or_eq_of_le hle with hlt | heq
    · exact absurd (by simpa using h0spec.2) (hmin h0 hlt)
    · rw [List.head?_cons, heq]

theorem indicesWhere_getLast?_eq {α : Type} [DecidableEq α] (d : α) {l : List α} {x : α}
    {last : Nat} (hf : last < l.length) (hx : l.getD last d = x)
    (hmax : ∀ j, last < j → j < l.length → l.getD j d ≠ x) :
    (indicesWhere (fun a => a == x) l).getLast? = some last := by
  have hmem : last ∈ indicesWhere (fun a => a == x) l :=
    (mem_indicesWhere _ d l last).mpr ⟨hf, by simp only [hx, beq_self_eq_true]⟩
  have hne : indicesWhere (fun a => a == x) l ≠ [] := List.ne_nil_of_mem hmem
  cases hg : (indicesWhere (fun a => a == x) l).getLast? with
  | none => exact absurd (List.getLast?_eq_none_iff.mp hg) hne
  | some g =>
    have hmemg := mem_of_getLast?_eq hg
    have hgspec := (mem_indicesWhere (fun a => a == x) d l g).mp hmemg
    have hle : last ≤ g :=
      getLast?_max_of_sorted (indicesWhere_sorted _ l) hg last hmem
    rcases lt_or_eq_of_le hle with hlt | heq
    · exact absurd (by simpa using hgspec.2) (hmax g hlt hgspec.1)
    · rw [heq]

/-- Claim C5 counterexample: a one-sample run with nlive_array = [-5]
passes every validator check, yet its live-point count is negative,
violating the data model's non-negativity invariant. -/
theorem validator_accepts_negative_nlive :
    check_ns_run
        { logl := [((0 : ℤ) : F)], theta := [[(0 : F)]], thread_labels := [0],
          thread_min_max := [((⊥ : F), ((0 : ℤ) : F))], nlive_array := [-5] } false = true ∧
    ({ logl := [((0 : ℤ) : F)], theta := [[(0 : F)]], thread_labels := [0],
       thread_min_max := [((⊥ : F), ((0 : ℤ) : F))], nlive_array := [-5] } : Run).nlive_array.getD 0 0 < 0 := by
  constructor
  · rfl
  · decide

/-- Claim C5 (amended): every run accepted by the Validator in default
mode satisfies the structural invariants the Validator checks: strictly
increasing unique log-likelihoods, equal lengths of all per-sample arrays,
thread labels forming the dense range of thread_min_max's rows, at least
one thread with birth contour -infinity, and each thread's first sample
strictly above its recorded birth contour and last sample exactly at its
recorded final contour.  (The Validator does not check non-negativity of
nlive_array, so that clause of the claim is dropped.) -/
theorem validator_accept_invariants (run : Run) (h : check_ns_run run false = true) :
    List.Sorted (fun a b : F => a < b) run.logl ∧
    run.logl.Nodup ∧
    run.logl.length = run.nlive_array.length ∧
    run.logl.length = run.thread_labels.length ∧
    run.logl.length = run.theta.length ∧
    (∀ lab ∈ run.thread_labels, lab < run.thread_min_max.length) ∧
    (∀ lab, lab < run.thread_min_max.length → lab ∈ run.thread_labels) ∧
    (∃ p ∈ run.thread_min_max, p.1 = ⊥) ∧
    (∀ lab first, first < run.thread_labels.length →
      run.thread_labels.getD first 0 = lab →
      (∀ j, j < first → run.thread_labels.getD j 0 ≠ lab) →
      (run.thread_min_max.getD lab (⊥, ⊥)).1 < run.logl.getD first ⊥) ∧
    (∀ lab last, last < run.thread_labels.length →
      run.thread_labels.getD last 0 = lab →
      (∀ j, last < j → j < run.thread_labels.length → run.thread_labels.getD j 0 ≠ lab) →
      (run.thread_min_max.getD lab (⊥, ⊥)).2 = run.logl.getD last ⊥) := by
  obtain ⟨hmem, ⟨w, hw⟩, hthreads⟩ := check_ns_run_inv h
  obtain ⟨hsorted, hnodup⟩ := check_logls_passed_false_sorted_nodup hw
  simp only [check_ns_run_members, Bool.and_eq_true, beq_iff_eq] at hmem
  rw [check_ns_run_threads, Bool.and_eq_true, Bool.and_eq_true] at hthreads
  obtain ⟨⟨hrangeB, hinfB⟩, hall⟩ := hthreads
  have hrange : uniqueSorted run.thread_labels = List.range run.thread_min_max.length := by
    simpa using hrangeB
  have hinf := hinfB
  have hlabmem : ∀ lab ∈ run.thread_labels, lab ∈ uniqueSorted run.thread_labels := by
    intro lab hlab
    exact mem_uniqueSorted.mpr hlab
  have hbody : ∀ lab ∈ uniqueSorted run.thread_labels,
      ∀ first last,
        (indicesWhere (fun x => x == lab) run.thread_labels).head? = some first →
        (indicesWhere (fun x => x == lab) run.thread_labels).getLast? = some last →
        (run.thread_min_max.getD lab (⊥, ⊥)).1 < run.logl.getD first ⊥ ∧
        (run.thread_min_max.getD lab (⊥, ⊥)).2 = run.logl.getD last ⊥ := by
    intro lab hlab first last hfirst hlast
    have hb := (List.all_eq_true.mp hall) lab hlab
    rw [hfirst, hlast] at hb
    simp only [Bool.and_eq_true, decide_eq_true_eq, beq_iff_eq] at hb
    exact hb
  refine ⟨?_, hnodup, hmem.1.1, hmem.1.2, hmem.2, ?_, ?_, ?_, ?_, ?_⟩
  · exact List.Sorted.lt_of_le hsorted hnodup
  · intro lab hlab
    have := hrange ▸ hlabmem lab hlab
    exact List.mem_range.mp this
  · intro lab hlab
    have : lab ∈ uniqueSorted run.thread_labels := by
      rw [hrange]
      exact List.mem_range.mpr hlab
    exact List.mem_dedup.mp ((sortByKey_perm id run.thread_labels.dedup).mem_iff.mp this)
  · obtain ⟨p, hp, hpb⟩ := List.any_eq_true.mp hinf
    exact ⟨p, hp, by simpa using hpb⟩
  · intro lab first hflt hfeq hfmin
    have hlab : lab ∈ run.thread_labels := hfeq ▸ getD_mem 0 hflt
    have hfirst := indicesWhere_head?_eq 0 hflt hfeq hfmin
    have hne : indicesWhere (fun x => x == lab) run.thread_labels ≠ [] :=
      List.ne_nil_of_mem ((mem_indicesWhere _ 0 _ first).mpr
        ⟨hflt, by simp only [hfeq, beq_self_eq_true]⟩)
    cases hg : (indicesWhere (fun x => x == lab) run.thread_labels).getLast? with
    | none => exact absurd (List.getLast?_eq_none_iff.mp hg) hne
    | some g => exact (hbody lab (hlabmem lab hlab) first g hfirst hg).1
  · intro lab last hllt hleq hlmax
    have hlab : lab ∈ run.thread_labels := hleq ▸ getD_mem 0 hllt
    have hlast := indicesWhere_getLast?_eq 0 hllt hleq hlmax
    have hne : indicesWhere (fun x => x == lab) run.thread_labels ≠ [] :=
      List.ne_nil_of_mem ((mem_indicesWhere _ 0 _ last).mpr
        ⟨hllt, by simp only [hleq, beq_self_eq_true]⟩)
    cases hh : (indicesWhere (fun x => x == lab) run.thread_labels).head? with
    | none => exact absurd (List.head?_eq_none_iff.mp hh) hne
    | some h0 => exact (hbody lab (hlabmem lab hlab) h0 last hh hlast).2

/-- Witness instantiating the validator-invariant claim on a concrete
accepted two-sample run. -/
theorem validator_accept_invariants_witness :
    List.Sorted (fun a b : F => a < b)
      ({ logl := [((1 : ℤ) : F), ((2 : ℤ) : F)], theta := [[(0 : F)], [(0 : F)]],
         thread_labels := [0, 0], thread_min_max := [((⊥ : F), ((2 : ℤ) : F))],
         nlive_array := [1, 1] } : Run).logl :=
  (validator_accept_invariants _ (by rfl)).1

/-! ### Execution invariants of the thread-assignment loops -/

theorem headD_eq_getD_zero {α : Type} (l : List α) (d : α) : l.headD d = l.getD 0 d := by
  cases l <;> rfl

theorem walkChain_some_inv (logl birth : List F) (tn : Nat) :
    ∀ (fuel : Nat) (labels : List (Option Nat)) (cur : Nat) (labels' : List (Option Nat)),
      walkChain logl birth tn fuel labels cur = some labels' →
      Reachable logl birth cur →
      (∀ i, labels.getD i none ≠ none → Reachable logl birth i) →
      labels'.length = labels.length ∧
        (∀ i, labels'.getD i none ≠ none → Reachable logl birth i) := by
  intro fuel
  induction fuel with
  | zero =>
    intro labels cur labels' h _ _
    simp [walkChain] at h
  | succ fuel ih =>
    intro labels cur labels' h hcur hinv
    simp only [walkChain] at h
    cases hf : birth.findIdx? (fun b => b == logl.getD cur ⊥) with
    | none =>
      simp only [hf, Option.some_inj] at h
      subst h
      exact ⟨rfl, hinv⟩
    | some nxt =>
      simp only [hf] at h
      by_cases hlt : nxt < labels.length
      · rw [if_pos hlt] at h
        cases hget : labels.getD nxt none with
        | some t =>
          simp only [hget] at h
          exact Option.noConfusion h
        | none =>
          simp only [hget] at h
          have hnxt : Reachable logl birth nxt := Reachable.chainStep cur nxt hcur hf
          have hinv' : ∀ i, (labels.set nxt (some tn)).getD i none ≠ none →
              Reachable logl birth i := by
            intro i hne
            by_cases hin : i = nxt
            · exact hin ▸ hnxt
            · rw [getD_set_ne _ _ _ (fun he => hin he.symm)] at hne
              exact hinv i hne
          have := ih _ _ _ h hnxt hinv'
          rw [List.length_set] at this
          exact this
      · rw [if_neg hlt] at h
        cases h

theorem assignFrom_some_inv {logl birth : List F} {labels : List (Option Nat)} {tn : Nat}
    {startInd : Nat} {labels' : List (Option Nat)}
    (h : assignFrom logl birth labels tn startInd = some labels')
    (hstart : Reachable logl birth startInd)
    (hinv : ∀ i, labels.getD i none ≠ none → Reachable logl birth i) :
    labels'.length = labels.length ∧
      (∀ i, labels'.getD i none ≠ none → Reachable logl birth i) := by
  unfold assignFrom at h
  by_cases hlt : startInd < labels.length
  · rw [if_pos hlt] at h
    cases hget : labels.getD startInd none with
    | some t =>
      simp only [hget] at h
      exact Option.noConfusion h
    | none =>
      simp only [hget] at h
      have hinv' : ∀ i, (labels.set startInd (some tn)).getD i none ≠ none →
          Reachable logl birth i := by
        intro i hne
        by_cases hin : i = startInd
        · exact hin ▸ hstart
        · rw [getD_set_ne _ _ _ (fun he => hin he.symm)] at hne
          exact hinv i hne
      have := walkChain_some_inv logl birth tn _ _ _ _ h hstart hinv'
      rw [List.length_set] at this
      exact this
  · rw [if_neg hlt] at h
    cases h

theorem processContour_some_inv {logl birth : List F} {isFirst : Bool} {c : F}
    {st st' : List (Option Nat) × Nat}
    (h : processContour logl birth isFirst c st = some st')
    (hstarts : ∀ idx ∈ (if isFirst then indicesWhere (fun b => b == c) birth
        else (indicesWhere (fun b => b == c) birth).drop 1), Reachable logl birth idx)
    (hinv : ∀ i, st.1.getD i none ≠ none → Reachable logl birth i) :
    st'.1.length = st.1.length ∧
      (∀ i, st'.1.getD i none ≠ none → Reachable logl birth i) := by
  simp only [processContour] at h
  refine foldlM_option_invariant
    (fun b : List (Option Nat) × Nat =>
      b.1.length = st.1.length ∧ (∀ i, b.1.getD i none ≠ none → Reachable logl birth i))
    h ⟨rfl, hinv⟩ ?_
  intro b a b' ha hP hstep
  cases hassign : assignFrom logl birth b.1 b.2 a with
  | none => rw [hassign] at hstep; cases hstep
  | some ls =>
    rw [hassign] at hstep
    simp only [Option.map_some'] at hstep
    cases hstep
    have := assignFrom_some_inv hassign (hstarts a ha) hP.2
    exact ⟨this.1.trans hP.1, this.2⟩

theorem init_contour_starts_reachable (logl birth : List F) :
    ∀ idx ∈ indicesWhere (fun b => b == initBirth birth) birth, Reachable logl birth idx := by
  intro idx hidx
  have hspec := (mem_indicesWhere _ ⊥ birth idx).mp hidx
  apply Reachable.initStart idx hspec.1
  have : birth.getD idx ⊥ = initBirth birth := by simpa using hspec.2
  rw [this, initBirth, headD_eq_getD_zero]

theorem multi_contour_starts_reachable (logl birth : List F) {c : F}
    (hc : c ∈ multiStartContours birth) :
    ∀ idx ∈ (indicesWhere (fun b => b == c) birth).drop 1, Reachable logl birth idx := by
  have hcmem : c ∈ nonInitBirths birth ∧ 1 < (nonInitBirths birth).count c := by
    rw [multiStartContours, List.mem_filter] at hc
    exact ⟨mem_uniqueSorted.mp hc.1, by simpa using hc.2⟩
  have hcne : ¬ c == initBirth birth := by
    have := hcmem.1
    rw [nonInitBirths, List.mem_filter] at this
    simpa using this.2
  have hcount : 2 ≤ birth.count c := by
    have heq : (nonInitBirths birth).count c = birth.count c := by
      rw [nonInitBirths]
      exact List.count_filter (by simpa using hcne)
    omega
  intro idx hidx
  cases hinds : indicesWhere (fun b => b == c) birth with
  | nil => rw [hinds] at hidx; simp at hidx
  | cons h0 t =>
    rw [hinds] at hidx
    simp only [List.drop_one, List.tail_cons] at hidx
    have hsorted := indicesWhere_sorted (fun b => b == c) birth
    rw [hinds] at hsorted
    have hh0lt : h0 < idx := List.rel_of_pairwise_cons hsorted hidx
    have hidxmem : idx ∈ indicesWhere (fun b => b == c) birth := by
      rw [hinds]; exact List.mem_cons_of_mem h0 hidx
    have hh0mem : h0 ∈ indicesWhere (fun b => b == c) birth := by
      rw [hinds]; exact List.mem_cons_self h0 t
    have hispec := (mem_indicesWhere _ ⊥ birth idx).mp hidxmem
    have h0spec := (mem_indicesWhere _ ⊥ birth h0).mp hh0mem
    have hieq : birth.getD idx ⊥ = c := by simpa using hispec.2
    have h0eq : birth.getD h0 ⊥ = c := by simpa using h0spec.2
    apply Reachable.splitStart idx hispec.1
    · rw [hieq, ← headD_eq_getD_zero, ← initBirth]
      intro he
      exact hcne (by simp [he])
    · rw [hieq]; exact hcount
    · exact ⟨h0, hh0lt, h0eq.trans hieq.symm⟩

theorem runStarts_some_inv {logl birth : List F} {labels : List (Option Nat)} {tn : Nat}
    (h : runStarts logl birth = some (labels, tn)) :
    labels.length = logl.length ∧
      (∀ i, labels.getD i none ≠ none → Reachable logl birth i) := by
  unfold runStarts at h
  cases h1 : processContour logl birth true (initBirth birth)
      (List.replicate logl.length none, 0) with
  | none => rw [h1] at h; cases h
  | some st1 =>
    rw [h1] at h
    simp only [Option.bind_eq_bind, Option.some_bind] at h
    have hinv1 := processContour_some_inv h1
      (by simpa using init_contour_starts_reachable logl birth)
      (by intro i hne; simp [List.getD] at hne)
    refine foldlM_option_invariant
      (fun b : List (Option Nat) × Nat =>
        b.1.length = logl.length ∧ (∀ i, b.1.getD i none ≠ none → Reachable logl birth i))
      h ⟨by simpa using hinv1.1, hinv1.2⟩ ?_
    intro b c b' hc hP hstep
    have := processContour_some_inv hstep
      (by simpa using multi_contour_starts_reachable logl birth hc) hP.2
    exact ⟨this.1.trans hP.1, this.2⟩

theorem threads_some_inv {logl birth : List F} {L : List Nat}
    (h : threads_given_birth_contours logl birth = some L) :
    birth ≠ [] ∧ birth.length ≤ logl.length ∧ birthsOK logl birth = true ∧
      ∃ labels tn, runStarts logl birth = some (labels, tn) ∧
        labels.all (fun o => o.isSome) = true ∧ L = labels.map (fun o => o.getD 0) := by
  unfold threads_given_birth_contours at h
  by_cases hnil : birth = []
  · rw [if_pos hnil] at h
    exact Option.noConfusion h
  · rw [if_neg hnil] at h
    by_cases hlen : logl.length < birth.length
    · rw [if_pos hlen] at h
      exact Option.noConfusion h
    · rw [if_neg hlen] at h
      by_cases hok : birthsOK logl birth
      · rw [if_neg (by simp [hok])] at h
        rcases Option.bind_eq_some.mp h with ⟨st, hrs, hfin⟩
        obtain ⟨labels, tn⟩ := st
        unfold finishLabels at hfin
        simp only [] at hfin
        by_cases hall : labels.all (fun o => o.isSome) = true
        · rw [if_pos hall] at hfin
          by_cases hrange : (uniqueSorted (labels.map (fun o => o.getD 0)) ==
              List.range (startTotal birth)) = true
          · rw [if_pos hrange] at hfin
            exact ⟨hnil, by omega, hok, labels, tn, hrs, hall,
              (Option.some_inj.mp hfin).symm⟩
          · rw [if_neg hrange] at hfin
            exact Option.noConfusion hfin
        · rw [if_neg hall] at hfin
          exact Option.noConfusion hfin
      · rw [if_pos (by simpa using hok)] at h
        exact Option.noConfusion h

/-! ### Claim C4: the reconstructor fails on inconsistent input -/

/-- Claim C4: the Thread Reconstructor returns a failure rather than
labels whenever some sample is born on or above its own likelihood, or
some non-initial birth contour matches a number of sample
log-likelihoods different from one, or some sample is unreachable from
every thread start. -/
theorem reconstructor_fails_on_bad_input (logl birth : List F)
    (hlen : logl.length = birth.length)
    (h : (∃ i, i < birth.length ∧ ¬ (birth.getD i ⊥ < logl.getD i ⊥)) ∨
         (∃ i, i < birth.length ∧ birth.getD i ⊥ ≠ birth.getD 0 ⊥ ∧
            logl.count (birth.getD i ⊥) ≠ 1) ∨
         (∃ i, i < birth.length ∧ ¬ Reachable logl birth i)) :
    threads_given_birth_contours logl birth = none := by
  cases hres : threads_given_birth_contours logl birth with
  | none => rfl
  | some L =>
    exfalso
    obtain ⟨hne, hle, hok, labels, tn, hrs, hall, hL⟩ := threads_some_inv hres
    rw [birthsOK] at hok
    rcases h with ⟨i, hi, hbad⟩ | ⟨i, hi, hne2, hcount⟩ | ⟨i, hi, hunreach⟩
    · have := (all_zip_iff_getD _ ⊥ ⊥ birth logl).mp hok i hi (by omega)
      simp only [Bool.and_eq_true, decide_eq_true_eq] at this
      exact hbad this.1
    · have := (all_zip_iff_getD _ ⊥ ⊥ birth logl).mp hok i hi (by omega)
      simp only [Bool.and_eq_true, Bool.or_eq_true, decide_eq_true_eq, beq_iff_eq] at this
      rcases this.2 with h2 | h2
      · rw [initBirth, headD_eq_getD_zero] at h2
        exact hne2 h2
      · exact hcount (by simpa using h2)
    · obtain ⟨hlab_len, hreach⟩ := runStarts_some_inv hrs
      have hilt : i < labels.length := by omega
      have hsome : (labels.getD i none).isSome = true := by
        have hmem : labels.getD i none ∈ labels := getD_mem none hilt
        exact (List.all_eq_true.mp hall) _ hmem
      have : labels.getD i none ≠ none := by
        intro he
        rw [he] at hsome
        cases hsome
      exact hunreach (hreach i this)

/-- Witness instantiating the failure claim on an input whose second
sample is born on a contour matching no sample's log-likelihood. -/
theorem reconstructor_fails_on_bad_input_witness :
    threads_given_birth_contours [((1 : ℤ) : F), ((2 : ℤ) : F)] [⊥, ((5 : ℤ) : F)] = none :=
  reconstructor_fails_on_bad_input _ _ (by decide)
    (Or.inr (Or.inl ⟨1, by decide, by decide, by decide⟩))

/-! ### Lemmas about the run assembler -/

theorem take_one_sum (l : List ℤ) : (l.take 1).sum = l.getD 0 0 := by
  cases l <;> simp

theorem getD_dropLast_zero (l : List ℤ) (h : 2 ≤ l.length) :
    l.dropLast.getD 0 0 = l.getD 0 0 := by
  cases l with
  | nil => simp at h
  | cons x xs =>
    cases xs with
    | nil => simp at h
    | cons y ys => simp [List.dropLast]

theorem getD_replicate_zero (n i : Nat) : ((List.replicate n (0 : ℤ)).getD i 0) = 0 := by
  rw [List.getD_eq_getElem?_getD, List.getElem?_replicate]
  by_cases hi : i < n <;> simp [hi]

theorem exists_getD_of_mem {α : Type} {l : List α} {a : α} (d : α) (h : a ∈ l) :
    ∃ i, i < l.length ∧ l.getD i d = a := by
  obtain ⟨m, hm, he⟩ := List.mem_iff_getElem.mp h
  refine ⟨m, hm, ?_⟩
  rw [List.getD_eq_getElem?_getD, List.getElem?_eq_getElem hm]
  simpa using he

theorem sorted_getD_le {l : List F} (hs : l.Pairwise (fun a b : F => a ≤ b))
    {i j : Nat} (hij : i ≤ j) (hj : j < l.length) : l.getD i ⊥ ≤ l.getD j ⊥ := by
  rcases Nat.lt_or_ge i j with hlt | hge
  · have hi : i < l.length := by omega
    have := List.pairwise_iff_get.mp hs ⟨i, hi⟩ ⟨j, hj⟩ (by simpa using hlt)
    rw [List.getD_eq_getElem?_getD, List.getElem?_eq_getElem hi,
        List.getD_eq_getElem?_getD, List.getElem?_eq_getElem hj]
    simpa using this
  · have : i = j := by omega
    rw [this]

/-- A non-initial birth contour value matched by exactly one sample's
log-likelihood cannot be `-inf`, since the sample carrying it would then
need a birth contour below `-inf`. -/
theorem matched_birth_ne_bot {logl birth : List F} (hok : birthsOK logl birth = true)
    (hlen : logl.length ≤ birth.length) {bl : F}
    (hcount : logl.count bl = 1) : bl ≠ ⊥ := by
  intro hbot
  have hpos : 0 < logl.count bl := by omega
  have hmem : bl ∈ logl := List.count_pos_iff.mp hpos
  obtain ⟨j, hj, hje⟩ := exists_getD_of_mem ⊥ hmem
  rw [birthsOK] at hok
  have := (all_zip_iff_getD _ ⊥ ⊥ birth logl).mp hok j (by omega) hj
  simp only [Bool.and_eq_true, decide_eq_true_eq] at this
  rw [hje, hbot] at this
  exact not_lt_bot this.1

theorem sum_take_replicate_zero :
    ∀ (n p : Nat), (((List.replicate n (0 : ℤ)).take p)).sum = 0 := by
  intro n
  induction n with
  | zero => intro p; simp
  | succ m ih =>
    intro p
    cases p with
    | zero => simp
    | succ q => simp [List.replicate_succ, List.take_succ_cons, ih q]

/-- One iteration of the assembler loop preserves the delta-array
invariants: fixed length, non-negative prefix sums, and entry 0 counting
the threads recorded so far with birth contour `-inf`. -/
theorem threadDelta_step_inv {logl birth : List F} {labels : List Nat} {n : Nat}
    (hll : logl.length = n) (hbl : birth.length = n) (hlabl : labels.length = n)
    (hsorted : logl.Pairwise (fun a b : F => a ≤ b))
    (hok : birthsOK logl birth = true)
    {st st' : List (F × F) × List ℤ} {lab : Nat}
    (hstep : threadDelta logl birth labels st lab = some st')
    (hinv : st.2.length = n + 1 ∧ (∀ p, 0 ≤ (st.2.take p).sum) ∧
      st.2.getD 0 0 = (st.1.countP (fun q => q.1 == (⊥ : F)) : ℤ)) :
    st'.2.length = n + 1 ∧ (∀ p, 0 ≤ (st'.2.take p).sum) ∧
      st'.2.getD 0 0 = (st'.1.countP (fun q => q.1 == (⊥ : F)) : ℤ) := by
  obtain ⟨hdlen, hpre, hd0⟩ := hinv
  unfold threadDelta at hstep
  cases hh : (indicesWhere (fun x => x == lab) labels).head? with
  | none =>
    cases hl : (indicesWhere (fun x => x == lab) labels).getLast? with
    | none =>
      simp only [hh, hl] at hstep
      exact Option.noConfusion hstep
    | some last =>
      simp only [hh, hl] at hstep
      exact Option.noConfusion hstep
  | some first =>
    cases hl : (indicesWhere (fun x => x == lab) labels).getLast? with
    | none =>
      simp only [hh, hl] at hstep
      exact Option.noConfusion hstep
    | some last =>
      simp only [hh, hl] at hstep
      have hfirst := indicesWhere_head?_spec (fun x => x == lab) 0 hh
      have hlast := indicesWhere_getLast?_spec (fun x => x == lab) 0 hl
      have hfl : first ≤ last :=
        getLast?_max_of_sorted (indicesWhere_sorted _ _) hl first (mem_of_head?_eq hh)
      have hlast_lt : last + 1 < n + 1 := by
        have := hlast.1
        omega
      have hfirst_lt : first < n := by
        have := hfirst.1
        omega
      have hokfirst := (all_zip_iff_getD _ ⊥ ⊥ birth logl).mp
        (by rw [birthsOK] at hok; exact hok) first (by omega) (by omega)
      simp only [Bool.and_eq_true, Bool.or_eq_true, decide_eq_true_eq, beq_iff_eq] at hokfirst
      by_cases hbranch : (birth.getD first ⊥ == birth.getD 0 ⊥) = true
      · rw [if_pos hbranch] at hstep
        have hst' : st' = (st.1 ++ [((⊥ : F), logl.getD last ⊥)],
            listAddAt (listAddAt st.2 (last + 1) (-1)) 0 1) :=
          (Option.some_inj.mp hstep).symm
        subst hst'
        refine ⟨by simp [listAddAt_length, hdlen], ?_, ?_⟩
        · intro p
          rw [take_sum_listAddAt _ 0 1 (by rw [listAddAt_length]; omega) p,
              take_sum_listAddAt _ (last + 1) (-1) (by omega) p]
          have hbase := hpre p
          split_ifs <;> omega
        · rw [listAddAt_getD_self _ 0 1 (by rw [listAddAt_length]; omega),
              listAddAt_getD_ne _ (-1) (show last + 1 ≠ 0 by omega),
              hd0, List.countP_append]
          simp [List.countP_cons]
      · rw [if_neg hbranch] at hstep
        have hcount1 : logl.count (birth.getD first ⊥) = 1 := by
          rcases hokfirst.2 with h2 | h2
          · rw [initBirth, headD_eq_getD_zero] at h2
            exact absurd (by simp only [h2, beq_self_eq_true]) hbranch
          · exact h2
        cases hbi : indicesWhere (fun x => x == birth.getD first ⊥) logl with
        | nil =>
          simp only [hbi] at hstep
          exact Option.noConfusion hstep
        | cons bi rest =>
          cases rest with
          | cons b2 r2 =>
            simp only [hbi] at hstep
            exact Option.noConfusion hstep
          | nil =>
            simp only [hbi] at hstep
            have hst' : st' = (st.1 ++ [(birth.getD first ⊥, logl.getD last ⊥)],
                listAddAt (listAddAt st.2 (last + 1) (-1)) (bi + 1) 1) :=
              (Option.some_inj.mp hstep).symm
            subst hst'
            have hbimem : bi ∈ indicesWhere (fun x => x == birth.getD first ⊥) logl := by
              rw [hbi]; exact List.mem_cons_self bi []
            have hbispec := (mem_indicesWhere _ ⊥ logl bi).mp hbimem
            have hbieq : logl.getD bi ⊥ = birth.getD first ⊥ := by simpa using hbispec.2
            have hbifirst : bi < first := by
              by_contra hge
              have hle2 : first ≤ bi := by omega
              have := sorted_getD_le hsorted hle2 hbispec.1
              rw [hbieq] at this
              exact absurd (lt_of_le_of_lt this hokfirst.1) (lt_irrefl _)
            refine ⟨by simp [listAddAt_length, hdlen], ?_, ?_⟩
            · intro p
              rw [take_sum_listAddAt _ (bi + 1) 1 (by rw [listAddAt_length]; omega) p,
                  take_sum_listAddAt _ (last + 1) (-1) (by omega) p]
              have hbase := hpre p
              split_ifs <;> omega
            · have hblne : birth.getD first ⊥ ≠ ⊥ :=
                matched_birth_ne_bot hok (by omega) hcount1
              rw [listAddAt_getD_ne _ 1 (show bi + 1 ≠ 0 by omega),
                  listAddAt_getD_ne _ (-1) (show last + 1 ≠ 0 by omega),
                  hd0, List.countP_append]
              have hc0 : List.countP (fun q => (q.1 : F) == ⊥)
                  [((birth.getD first ⊥ : F), logl.getD last ⊥)] = 0 := by
                rw [List.countP_cons, List.countP_nil,
                    if_neg (by simp only [beq_iff_eq]; exact hblne)]
              rw [hc0]
              simp

/-- Success of `process_samples_array` yields a delta array with the
assembler's invariants. -/
theorem process_ok_delta_inv {samples : List (List F)} {run : Run}
    (h : process_samples_array samples = .ok run) :
    1 ≤ (sortRows samples).length ∧
    ∃ delta : List ℤ,
      run.nlive_array = (cumsum delta).dropLast ∧
      delta.length = (sortRows samples).length + 1 ∧
      (∀ p, 0 ≤ (delta.take p).sum) ∧
      delta.getD 0 0 = (run.thread_min_max.countP (fun q => q.1 == (⊥ : F)) : ℤ) := by
  unfold process_samples_array at h
  by_cases hgate : ((sortRows samples).map rowLogl).dedup.length ≠
      ((sortRows samples).map rowLogl).length
  · rw [if_pos hgate] at h
    exact Except.noConfusion h
  · rw [if_neg hgate] at h
    cases hth : threads_given_birth_contours ((sortRows samples).map rowLogl)
        ((sortRows samples).map rowBirth) with
    | none =>
      simp only [hth] at h
      exact Except.noConfusion h
    | some labels =>
      simp only [hth] at h
      unfold assembleRun at h
      by_cases hrange : uniqueSorted labels ≠ List.range labels.dedup.length
      · rw [if_pos hrange] at h
        exact Except.noConfusion h
      · rw [if_neg hrange] at h
        cases hfold : (List.range labels.dedup.length).foldlM
            (threadDelta ((sortRows samples).map rowLogl) ((sortRows samples).map rowBirth)
              labels)
            ([], List.replicate ((sortRows samples).length + 1) 0) with
        | none =>
          simp only [hfold] at h
          exact Except.noConfusion h
        | some st =>
          obtain ⟨tmm, delta⟩ := st
          simp only [hfold] at h
          have hrun := Except.ok.inj h
          subst hrun
          obtain ⟨hne, hle, hok, labels', tn, hrs, hall, hL⟩ := threads_some_inv hth
          have hn1 : 1 ≤ (sortRows samples).length := by
            by_contra hcon
            have hz : (sortRows samples).length = 0 := by omega
            have hsnil : sortRows samples = [] := List.eq_nil_of_length_eq_zero hz
            exact hne (by rw [hsnil]; rfl)
          have hlabl : labels.length = (sortRows samples).length := by
            rw [hL]
            have := (runStarts_some_inv hrs).1
            simpa using this
          have hfinal := foldlM_option_invariant
            (fun st : List (F × F) × List ℤ =>
              st.2.length = (sortRows samples).length + 1 ∧
                (∀ p, 0 ≤ (st.2.take p).sum) ∧
                st.2.getD 0 0 = (st.1.countP (fun q => q.1 == (⊥ : F)) : ℤ))
            hfold
            ⟨by simp, by intro p; rw [sum_take_replicate_zero],
              by rw [getD_replicate_zero]; simp⟩
            (by
              intro b a b' ha hP hstep
              refine threadDelta_step_inv ?_ ?_ hlabl ?_ hok hstep hP
              · rw [List.length_map]
              · rw [List.length_map]
              · exact (List.pairwise_map).mpr (sortByKey_sorted rowLogl samples))
          exact ⟨hn1, delta, rfl, hfinal.1, hfinal.2.1, hfinal.2.2⟩

/-- Claim C7: for every input on which the pipeline succeeds (so in
particular for every input satisfying the Reconstructor's
preconditions), every entry of the produced nlive_array is
non-negative. -/
theorem nlive_array_nonneg (samples : List (List F)) (run : Run)
    (h : process_samples_array samples = .ok run) :
    ∀ x ∈ run.nlive_array, 0 ≤ x := by
  obtain ⟨hn1, delta, hnlive, hdlen, hpre, hd0⟩ := process_ok_delta_inv h
  intro x hx
  rw [hnlive] at hx
  have hx' : x ∈ cumsum delta := (List.dropLast_sublist (cumsum delta)).subset hx
  obtain ⟨i, hi, he⟩ := exists_getD_of_mem 0 hx'
  rw [cumsum, cumsumFrom_length] at hi
  rw [cumsum, cumsumFrom_getD 0 delta 0 i hi] at he
  rw [← he]
  simpa using hpre (i + 1)

/-- Witness instantiating the nlive non-negativity claim on a concrete
one-sample run, at the single entry of its nlive_array. -/
theorem nlive_array_nonneg_witness :
    (0 : ℤ) ≤ ({ logl := [((1 : ℤ) : F)], theta := [[(0 : F)]], thread_labels := [0],
                 thread_min_max := [((⊥ : F), ((1 : ℤ) : F))],
                 nlive_array := [1] } : Run).nlive_array.getD 0 0 :=
  nlive_array_nonneg [[(0 : F), ((1 : ℤ) : F), ⊥]] _ (by rfl) 1 (by decide)

/-- Claim C10: for every run produced by `process_samples_array`, the
first entry of nlive_array equals the number of threads whose recorded
birth contour is `-inf`. -/
theorem nlive_initial_counts_prior_threads (samples : List (List F)) (run : Run)
    (h : process_samples_array samples = .ok run) :
    run.nlive_array.getD 0 0 =
      (run.thread_min_max.countP (fun q => q.1 == (⊥ : F)) : ℤ) := by
  obtain ⟨hn1, delta, hnlive, hdlen, hpre, hd0⟩ := process_ok_delta_inv h
  rw [hnlive]
  rw [getD_dropLast_zero _ (by rw [cumsum, cumsumFrom_length]; omega)]
  rw [cumsum, cumsumFrom_getD 0 delta 0 0 (by omega)]
  rw [← hd0, take_one_sum]
  omega

/-- Witness instantiating the initial-nlive claim on a concrete
one-sample run. -/
theorem nlive_initial_counts_prior_threads_witness :
    ({ logl := [((1 : ℤ) : F)], theta := [[(0 : F)]], thread_labels := [0],
       thread_min_max := [((⊥ : F), ((1 : ℤ) : F))], nlive_array := [1] } : Run).nlive_array.getD 0 0 =
      (({ logl := [((1 : ℤ) : F)], theta := [[(0 : F)]], thread_labels := [0],
          thread_min_max := [((⊥ : F), ((1 : ℤ) : F))], nlive_array := [1] } : Run).thread_min_max.countP
        (fun q => q.1 == (⊥ : F)) : ℤ) :=
  nlive_initial_counts_prior_threads [[(0 : F), ((1 : ℤ) : F), ⊥]] _ (by rfl)

/-! ### Helpers for computing the pipeline on synthetic runs -/

theorem rowLogl_triple (a x b : F) : rowLogl [a, x, b] = x := rfl

theorem rowBirth_triple (a x b : F) : rowBirth [a, x, b] = b := rfl

theorem rowTheta_triple (a x b : F) : rowTheta [a, x, b] = [a] := rfl

theorem getD_map {α β : Type} (f : α → β) (l : List α) (i : Nat) (da : α) (db : β)
    (hi : i < l.length) : (l.map f).getD i db = f (l.getD i da) := by
  rw [List.getD_eq_getElem?_getD, List.getElem?_eq_getElem (by simpa using hi)]
  rw [List.getD_eq_getElem?_getD, List.getElem?_eq_getElem hi]
  simp

theorem getD_range {n i : Nat} (d : Nat) (hi : i < n) : (List.range n).getD i d = i := by
  rw [List.getD_eq_getElem?_getD, List.getElem?_eq_getElem (by simpa using hi)]
  simp

theorem getD_replicate {α : Type} (a d : α) (n i : Nat) (hi : i < n) :
    (List.replicate n a).getD i d = a := by
  rw [List.getD_eq_getElem?_getD, List.getElem?_replicate]
  simp [hi]

theorem list_ext_getD {α : Type} {l₁ l₂ : List α} (d : α) (hlen : l₁.length = l₂.length)
    (h : ∀ i, i < l₁.length → l₁.getD i d = l₂.getD i d) : l₁ = l₂ := by
  apply List.ext_getElem hlen
  intro i h₁ h₂
  have hi := h i h₁
  rw [List.getD_eq_getElem?_getD, List.getElem?_eq_getElem h₁,
      List.getD_eq_getElem?_getD, List.getElem?_eq_getElem h₂] at hi
  simpa using hi

theorem findIdx?_eq_none_of_all {α : Type} {p : α → Bool} :
    ∀ {l : List α}, (∀ x ∈ l, p x = false) → l.findIdx? p = none := by
  intro l
  induction l with
  | nil => intro _; rfl
  | cons a l ih =>
    intro h
    rw [List.findIdx?_cons, if_neg (by simp [h a (List.mem_cons_self a l)]),
        List.findIdx?_succ, ih (fun x hx => h x (List.mem_cons_of_mem a hx))]
    rfl

theorem indicesWhere_append {α : Type} (p : α → Bool) :
    ∀ l₁ l₂ : List α, indicesWhere p (l₁ ++ l₂) =
      indicesWhere p l₁ ++ (indicesWhere p l₂).map (fun i => i + l₁.length) := by
  intro l₁ l₂
  induction l₁ with
  | nil => simp [indicesWhere]
  | cons a l ih =>
    have hmm : ∀ B : List Nat,
        (B.map (fun i => i + l.length)).map (fun i => i + 1) =
          B.map (fun i => i + (l.length + 1)) := by
      intro B
      rw [List.map_map]
      rfl
    cases hpa : p a with
    | true =>
      rw [show indicesWhere p ((a :: l) ++ l₂) =
            0 :: (indicesWhere p (l ++ l₂)).map (fun i => i + 1) by
          simp [indicesWhere, hpa],
        show indicesWhere p (a :: l) = 0 :: (indicesWhere p l).map (fun i => i + 1) by
          simp [indicesWhere, hpa],
        ih, List.map_append, hmm]
      simp
    | false =>
      rw [show indicesWhere p ((a :: l) ++ l₂) =
            (indicesWhere p (l ++ l₂)).map (fun i => i + 1) by
          simp [indicesWhere, hpa],
        show indicesWhere p (a :: l) = (indicesWhere p l).map (fun i => i + 1) by
          simp [indicesWhere, hpa],
        ih, List.map_append, hmm]
      simp

theorem indicesWhere_range_eq_singleton {n k : Nat} (hk : k < n) :
    indicesWhere (fun x => x == k) (List.range n) = [k] := by
  induction n with
  | zero => omega
  | succ m ih =>
    rw [List.range_succ, indicesWhere_append]
    by_cases hkm : k < m
    · rw [ih hkm]
      have hkne : ((m : Nat) == k) = false := by simp; omega
      simp [indicesWhere, hkne]
    · have hkm' : k = m := by omega
      subst hkm'
      have hnil : indicesWhere (fun x => x == k) (List.range k) = [] := by
        cases hiw : indicesWhere (fun x => x == k) (List.range k) with
        | nil => rfl
        | cons i t =>
          have hmem : i ∈ indicesWhere (fun x => x == k) (List.range k) := by
            rw [hiw]; exact List.mem_cons_self i t
          have hspec := (mem_indicesWhere _ 0 (List.range k) i).mp hmem
          have : i = k := by
            have h2 := hspec.2
            rw [getD_range 0 (by simpa using hspec.1)] at h2
            simpa using h2
          simp only [List.length_range] at hspec
          omega
      rw [hnil]
      simp [indicesWhere]

theorem getD_dropLast {α : Type} (l : List α) (i : Nat) (d : α) (hi : i + 1 < l.length) :
    l.dropLast.getD i d = l.getD i d := by
  have hlen : i < l.dropLast.length := by
    rw [List.length_dropLast]
    omega
  rw [List.getD_eq_getElem?_getD, List.getElem?_eq_getElem hlen,
      List.getD_eq_getElem?_getD, List.getElem?_eq_getElem (by omega)]
  simp [List.getElem_dropLast]

/-- Sorting a permutation of rows that are already sorted with distinct
keys recovers exactly those rows. -/
theorem sortRows_eq_of_perm {samples rows : List (List F)}
    (hperm : samples.Perm rows)
    (hsorted : rows.Pairwise (fun r s => rowLogl r ≤ rowLogl s))
    (hnodup : (rows.map rowLogl).Nodup) : sortRows samples = rows := by
  apply eq_of_perm_of_sorted_keys ((sortByKey_perm rowLogl samples).trans hperm)
    (sortByKey_sorted rowLogl samples) hsorted
  have h1 : ((sortRows samples).map rowLogl).Perm (rows.map rowLogl) :=
    (((sortByKey_perm rowLogl samples).trans hperm).map rowLogl)
  exact h1.nodup_iff.mpr hnodup

/-! ### The all-initial-births family: column computations -/

theorem constBirthRows_length (L : List ℤ) (c : F) :
    (constBirthRows L c).length = L.length := by
  simp [constBirthRows]

theorem constBirthRows_map_rowLogl (L : List ℤ) (c : F) :
    (constBirthRows L c).map rowLogl = L.map (fun x : ℤ => (x : F)) := by
  unfold constBirthRows constBirthRow
  rw [List.map_map]
  apply List.map_congr_left
  intro x _
  exact rowLogl_triple 0 (x : F) c

theorem constBirthRows_map_rowBirth (L : List ℤ) (c : F) :
    (constBirthRows L c).map rowBirth = List.replicate L.length c := by
  unfold constBirthRows constBirthRow
  rw [List.map_map]
  have h1 : (constBirthRows L c).length = L.length := by simp [constBirthRows]
  have h2 : ∀ x ∈ L, (rowBirth ∘ fun x : ℤ => [0, (x : F), c]) x = (fun _ : ℤ => c) x := by
    intro x _
    exact rowBirth_triple 0 (x : F) c
  rw [List.map_congr_left h2, List.map_const']

theorem constBirthRows_map_rowTheta (L : List ℤ) (c : F) :
    (constBirthRows L c).map rowTheta = List.replicate L.length [(0 : F)] := by
  unfold constBirthRows constBirthRow
  rw [List.map_map]
  have h2 : ∀ x ∈ L, (rowTheta ∘ fun x : ℤ => [0, (x : F), c]) x =
      (fun _ : ℤ => [(0 : F)]) x := by
    intro x _
    exact rowTheta_triple 0 (x : F) c
  rw [List.map_congr_left h2, List.map_const']

theorem sortRows_constBirthRows {L : List ℤ} (c : F) (hs : L.Pairwise (· < ·)) :
    sortRows (constBirthRows L c) = constBirthRows L c := by
  apply sortByKey_eq_self
  unfold constBirthRows constBirthRow
  apply List.Pairwise.map
  · intro a b hab
    rw [rowLogl_triple, rowLogl_triple]
    exact le_of_lt (by exact_mod_cast hab)
  · exact hs

/-! ### The all-initial-births family: replicate-birth computations -/

theorem initBirth_replicate {n : Nat} (c : F) (hn : n ≠ 0) :
    initBirth (List.replicate n c) = c := by
  cases n with
  | zero => exact absurd rfl hn
  | succ m => rw [List.replicate_succ]; rfl

theorem indicesWhere_replicate_self {α : Type} [DecidableEq α] (n : Nat) (c : α) :
    indicesWhere (fun b => b == c) (List.replicate n c) = List.range n := by
  induction n with
  | zero => rfl
  | succ m ih =>
    rw [List.replicate_succ]
    rw [show indicesWhere (fun b => b == c) (c :: List.replicate m c) =
          0 :: (indicesWhere (fun b => b == c) (List.replicate m c)).map (fun i => i + 1) by
        simp [indicesWhere]]
    rw [ih, List.range_succ_eq_map]

theorem nonInitBirths_replicate (n : Nat) (c : F) (hn : n ≠ 0) :
    nonInitBirths (List.replicate n c) = [] := by
  unfold nonInitBirths
  rw [initBirth_replicate c hn]
  rw [List.filter_eq_nil_iff]
  intro a ha
  rw [List.eq_of_mem_replicate ha]
  simp

theorem multiStartContours_replicate (n : Nat) (c : F) (hn : n ≠ 0) :
    multiStartContours (List.replicate n c) = [] := by
  unfold multiStartContours
  rw [nonInitBirths_replicate n c hn]
  rfl

theorem startTotal_replicate (n : Nat) (c : F) (hn : n ≠ 0) :
    startTotal (List.replicate n c) = n := by
  unfold startTotal
  rw [multiStartContours_replicate n c hn, initBirth_replicate c hn]
  simp

/-! ### The all-initial-births family: label and delta state bookkeeping -/

theorem labelsUpTo_length (n k : Nat) : (labelsUpTo n k).length = n := by
  simp [labelsUpTo]

theorem labelsUpTo_getD {n k i : Nat} (hi : i < n) :
    (labelsUpTo n k).getD i none = if i < k then some i else none := by
  unfold labelsUpTo
  rw [getD_map _ _ i 0 none (by simpa using hi), getD_range 0 hi]

theorem labelsUpTo_zero (n : Nat) :
    labelsUpTo n 0 = List.replicate n (none : Option Nat) := by
  apply list_ext_getD (none : Option Nat)
  · simp [labelsUpTo]
  · intro i hi
    have hi' : i < n := by simpa [labelsUpTo] using hi
    rw [labelsUpTo_getD hi', getD_replicate _ _ _ _ hi']
    simp

theorem deltaUpTo_length (n k : Nat) : (deltaUpTo n k).length = n + 1 := by
  simp [deltaUpTo]

theorem deltaUpTo_getD {n k i : Nat} (hi : i < n + 1) :
    (deltaUpTo n k).getD i 0 = if i = 0 then (k : ℤ) else if i ≤ k then -1 else 0 := by
  unfold deltaUpTo
  rw [getD_map _ _ i 0 0 (by simpa using hi), getD_range 0 hi]

theorem deltaUpTo_zero (n : Nat) : deltaUpTo n 0 = List.replicate (n + 1) (0 : ℤ) := by
  apply list_ext_getD (0 : ℤ)
  · simp [deltaUpTo]
  · intro i hi
    have hi' : i < n + 1 := by simpa [deltaUpTo] using hi
    rw [deltaUpTo_getD hi', getD_replicate _ _ _ _ hi']
    split_ifs with h1 h2
    · simp [h1]
    · omega
    · rfl

theorem take_succ_getD {α : Type} (l : List α) (i : Nat) (d : α) (hi : i < l.length) :
    l.take (i + 1) = l.take i ++ [l.getD i d] := by
  rw [List.take_succ, List.getElem?_eq_getElem hi]
  have hgd : l.getD i d = l[i] := by
    rw [List.getD_eq_getElem?_getD, List.getElem?_eq_getElem hi]
    rfl
  rw [hgd]
  rfl

/-! ### The all-initial-births family: thread reconstruction -/

theorem constBirth_findIdx_none {L : List ℤ} {c : F} (hc : ∀ x ∈ L, c < (x : F)) {k : Nat}
    (hk : k < L.length) :
    (List.replicate L.length c).findIdx?
      (fun b => b == (L.map (fun x : ℤ => (x : F))).getD k ⊥) = none := by
  apply findIdx?_eq_none_of_all
  intro x hx
  rw [List.eq_of_mem_replicate hx]
  rw [getD_map _ _ k 0 ⊥ (by simpa using hk)]
  have hclt : c < ((L.getD k 0 : ℤ) : F) := hc _ (getD_mem 0 hk)
  simp only [beq_eq_false_iff_ne, ne_eq]
  exact ne_of_lt hclt

theorem constBirth_assign_step {L : List ℤ} {c : F} (hc : ∀ x ∈ L, c < (x : F)) {k : Nat}
    (hk : k < L.length) :
    assignFrom (L.map (fun x : ℤ => (x : F))) (List.replicate L.length c)
      (labelsUpTo L.length k) k k = some (labelsUpTo L.length (k + 1)) := by
  have hlen : (labelsUpTo L.length k).length = L.length := labelsUpTo_length _ _
  have hgd : (labelsUpTo L.length k).getD k none = none := by
    rw [labelsUpTo_getD hk]
    simp
  have hset : (labelsUpTo L.length k).set k (some k) = labelsUpTo L.length (k + 1) := by
    apply list_ext_getD (none : Option Nat)
    · rw [List.length_set, labelsUpTo_length, labelsUpTo_length]
    · intro i hi
      have hi' : i < L.length := by simpa [labelsUpTo] using hi
      by_cases hik : i = k
      · subst hik
        rw [getD_set_self _ _ _ _ (by rw [hlen]; exact hi'), labelsUpTo_getD hi']
        simp
      · rw [getD_set_ne _ _ _ (fun h => hik h.symm), labelsUpTo_getD hi', labelsUpTo_getD hi']
        by_cases h2 : i < k
        · rw [if_pos h2, if_pos (by omega)]
        · rw [if_neg h2, if_neg (by omega)]
  unfold assignFrom
  rw [hlen, if_pos hk, hgd]
  rw [hset]
  simp only [walkChain, constBirth_findIdx_none hc hk]

theorem constBirth_labels_fold {L : List ℤ} {c : F} (hc : ∀ x ∈ L, c < (x : F)) :
    ∀ k, k ≤ L.length →
      (List.range k).foldlM
        (fun (st : List (Option Nat) × Nat) idx =>
          (assignFrom (L.map (fun x : ℤ => (x : F))) (List.replicate L.length c)
            st.1 st.2 idx).map (fun ls => (ls, st.2 + 1)))
        (List.replicate L.length none, 0) = some (labelsUpTo L.length k, k) := by
  intro k
  induction k with
  | zero =>
    intro _
    rw [List.range_zero, List.foldlM_nil, labelsUpTo_zero]
    rfl
  | succ m ih =>
    intro hm
    rw [List.range_succ, List.foldlM_append, ih (by omega)]
    have hstep := constBirth_assign_step hc (show m < L.length by omega)
    simp only [List.foldlM_cons, List.foldlM_nil, Option.bind_eq_bind, Option.some_bind,
      hstep, Option.map_some']
    rfl

theorem threads_constBirth {L : List ℤ} {c : F} (hne : L ≠ [])
    (hc : ∀ x ∈ L, c < (x : F)) :
    threads_given_birth_contours (L.map (fun x : ℤ => (x : F)))
      (List.replicate L.length c) = some (List.range L.length) := by
  have hn0 : L.length ≠ 0 := by
    intro h
    exact hne (List.eq_nil_of_length_eq_zero h)
  have hib : initBirth (List.replicate L.length c) = c := initBirth_replicate c hn0
  unfold threads_given_birth_contours
  rw [if_neg (by
    intro h
    have := congrArg List.length h
    simp at this
    exact hne this)]
  rw [if_neg (by
    rw [List.length_map, List.length_replicate]
    omega)]
  have hok : birthsOK (L.map (fun x : ℤ => (x : F))) (List.replicate L.length c) = true := by
    unfold birthsOK
    rw [hib]
    rw [all_zip_iff_getD _ ⊥ ⊥]
    intro i hi1 hi2
    have hi : i < L.length := by simpa using hi1
    rw [getD_replicate _ _ _ _ hi, getD_map _ _ i 0 ⊥ (by simpa using hi)]
    have hclt : c < ((L.getD i 0 : ℤ) : F) := hc _ (getD_mem 0 hi)
    simp only [Bool.and_eq_true, Bool.or_eq_true, decide_eq_true_eq, beq_iff_eq]
    exact ⟨hclt, Or.inl trivial⟩
  rw [if_neg (by rw [hok]; exact fun h => h rfl)]
  have hrs : runStarts (L.map (fun x : ℤ => (x : F))) (List.replicate L.length c) =
      some (labelsUpTo L.length L.length, L.length) := by
    unfold runStarts
    rw [multiStartContours_replicate _ c hn0, hib]
    have hproc : processContour (L.map (fun x : ℤ => (x : F))) (List.replicate L.length c)
        true c (List.replicate (L.map (fun x : ℤ => (x : F))).length none, 0) =
        some (labelsUpTo L.length L.length, L.length) := by
      have h1 : processContour (L.map (fun x : ℤ => (x : F))) (List.replicate L.length c)
          true c (List.replicate (L.map (fun x : ℤ => (x : F))).length none, 0) =
          (indicesWhere (fun b => b == c) (List.replicate L.length c)).foldlM
            (fun (st : List (Option Nat) × Nat) idx =>
              (assignFrom (L.map (fun x : ℤ => (x : F))) (List.replicate L.length c)
                st.1 st.2 idx).map (fun ls => (ls, st.2 + 1)))
            (List.replicate (L.map (fun x : ℤ => (x : F))).length none, 0) := rfl
      rw [h1, indicesWhere_replicate_self, List.length_map]
      exact constBirth_labels_fold hc L.length (le_refl _)
    rw [hproc]
    rfl
  rw [hrs]
  have hmap : (labelsUpTo L.length L.length).map (fun o => o.getD 0) =
      List.range L.length := by
    unfold labelsUpTo
    rw [List.map_map]
    have h2 : ∀ j ∈ List.range L.length,
        ((fun o : Option Nat => o.getD 0) ∘ fun j => if j < L.length then some j else none) j =
          id j := by
      intro j hj
      have : j < L.length := List.mem_range.mp hj
      simp [this]
    rw [List.map_congr_left h2, List.map_id]
  have hall : (labelsUpTo L.length L.length).all (fun o => o.isSome) = true := by
    apply List.all_eq_true.mpr
    intro o ho
    unfold labelsUpTo at ho
    obtain ⟨j, hj, rfl⟩ := List.mem_map.mp ho
    have : j < L.length := List.mem_range.mp hj
    simp [this]
  have huniq : uniqueSorted (List.range L.length) = List.range L.length := by
    unfold uniqueSorted
    rw [List.Nodup.dedup (List.nodup_range _)]
    exact sortByKey_eq_self ((List.pairwise_lt_range _).imp le_of_lt)
  show finishLabels (List.replicate L.length c) (labelsUpTo L.length L.length, L.length) =
    some (List.range L.length)
  unfold finishLabels
  rw [if_pos (by rw [hall])]
  rw [startTotal_replicate _ c hn0]
  rw [if_pos (by rw [hmap, huniq]; exact beq_self_eq_true _)]
  rw [hmap]

/-! ### The all-initial-births family: run assembly -/

theorem uniqueSorted_range (n : Nat) : uniqueSorted (List.range n) = List.range n := by
  unfold uniqueSorted
  rw [List.Nodup.dedup (List.nodup_range _)]
  exact sortByKey_eq_self ((List.pairwise_lt_range _).imp le_of_lt)

theorem constBirth_threadDelta_step {L : List ℤ} {c : F} (hne : L ≠ []) {k : Nat}
    (hk : k < L.length) (tmm : List (F × F)) :
    threadDelta (L.map (fun x : ℤ => (x : F))) (List.replicate L.length c)
      (List.range L.length) (tmm, deltaUpTo L.length k) k =
      some (tmm ++ [((⊥ : F), ((L.getD k 0 : ℤ) : F))], deltaUpTo L.length (k + 1)) := by
  have hn0 : L.length ≠ 0 := fun h => hne (List.eq_nil_of_length_eq_zero h)
  have hdelta : listAddAt (listAddAt (deltaUpTo L.length k) (k + 1) (-1)) 0 1 =
      deltaUpTo L.length (k + 1) := by
    apply list_ext_getD (0 : ℤ)
    · rw [listAddAt_length, listAddAt_length, deltaUpTo_length, deltaUpTo_length]
    · intro i hi
      have hi' : i < L.length + 1 := by
        rw [listAddAt_length, listAddAt_length, deltaUpTo_length] at hi
        exact hi
      by_cases h0 : i = 0
      · subst h0
        rw [listAddAt_getD_self _ _ _ (by rw [listAddAt_length, deltaUpTo_length]; omega)]
        rw [listAddAt_getD_ne _ _ (by omega : k + 1 ≠ 0)]
        rw [deltaUpTo_getD (by omega), deltaUpTo_getD hi']
        rw [if_pos rfl, if_pos rfl]
        push_cast
        ring
      · rw [listAddAt_getD_ne _ _ (fun h => h0 h.symm)]
        by_cases hk1 : i = k + 1
        · subst hk1
          rw [listAddAt_getD_self _ _ _ (by rw [deltaUpTo_length]; omega)]
          rw [deltaUpTo_getD hi', deltaUpTo_getD hi']
          rw [if_neg h0, if_neg h0, if_neg (by omega : ¬ k + 1 ≤ k),
            if_pos (le_refl (k + 1))]
          ring
        · rw [listAddAt_getD_ne _ _ (fun h => hk1 h.symm)]
          rw [deltaUpTo_getD hi', deltaUpTo_getD hi']
          rw [if_neg h0, if_neg h0]
          by_cases hik : i ≤ k
          · rw [if_pos hik, if_pos (by omega)]
          · rw [if_neg hik, if_neg (by omega)]
  unfold threadDelta
  simp only [indicesWhere_range_eq_singleton hk, List.head?_cons, List.getLast?_singleton]
  rw [getD_replicate c ⊥ _ _ hk, getD_replicate c ⊥ _ _ (by omega)]
  rw [if_pos (beq_self_eq_true c)]
  rw [getD_map _ _ k 0 ⊥ (by simpa using hk)]
  rw [hdelta]

theorem constBirth_delta_fold {L : List ℤ} {c : F} (hne : L ≠ []) :
    ∀ k, k ≤ L.length →
      (List.range k).foldlM
        (threadDelta (L.map (fun x : ℤ => (x : F))) (List.replicate L.length c)
          (List.range L.length))
        ([], List.replicate (L.length + 1) 0) =
      some ((L.take k).map (fun x : ℤ => ((⊥ : F), (x : F))), deltaUpTo L.length k) := by
  intro k
  induction k with
  | zero =>
    intro _
    rw [List.range_zero, List.foldlM_nil, deltaUpTo_zero]
    rfl
  | succ m ih =>
    intro hm
    have hmlt : m < L.length := by omega
    rw [List.range_succ, List.foldlM_append, ih (by omega)]
    have hstep := @constBirth_threadDelta_step L c hne m hmlt
      ((L.take m).map (fun x : ℤ => ((⊥ : F), (x : F))))
    simp only [List.foldlM_cons, List.foldlM_nil, Option.bind_eq_bind, Option.some_bind, hstep]
    rw [take_succ_getD L m 0 hmlt, List.map_append]
    rfl

theorem deltaUpTo_take_sum (n : Nat) : ∀ i, i ≤ n →
    ((deltaUpTo n n).take (i + 1)).sum = (n : ℤ) - i := by
  intro i
  induction i with
  | zero =>
    intro _
    rw [take_one_sum, deltaUpTo_getD (by omega : 0 < n + 1)]
    simp
  | succ j ih =>
    intro hj
    rw [take_succ_getD (deltaUpTo n n) (j + 1) 0 (by rw [deltaUpTo_length]; omega),
      List.sum_append, ih (by omega)]
    rw [deltaUpTo_getD (by omega : j + 1 < n + 1), if_neg (by omega),
      if_pos (by omega : j + 1 ≤ n)]
    simp only [List.sum_cons, List.sum_nil]
    push_cast
    ring

theorem constBirth_nlive (n : Nat) :
    (cumsum (deltaUpTo n n)).dropLast = (List.range n).map (fun i : ℕ => (n : ℤ) - i) := by
  apply list_ext_getD (0 : ℤ)
  · rw [List.length_dropLast]
    unfold cumsum
    rw [cumsumFrom_length, deltaUpTo_length, List.length_map, List.length_range]
    omega
  · intro i hi
    have hi' : i < n := by
      rw [List.length_dropLast] at hi
      unfold cumsum at hi
      rw [cumsumFrom_length, deltaUpTo_length] at hi
      omega
    rw [getD_dropLast _ _ _ (by
      unfold cumsum
      rw [cumsumFrom_length, deltaUpTo_length]
      omega)]
    unfold cumsum
    rw [cumsumFrom_getD 0 _ 0 i (by rw [deltaUpTo_length]; omega)]
    rw [deltaUpTo_take_sum n i (by omega)]
    rw [getD_map _ _ i 0 0 (by simpa using hi'), getD_range 0 hi']
    ring

theorem assemble_constBirth {L : List ℤ} {c : F} (hne : L ≠ []) :
    assembleRun (constBirthRows L c) (List.range L.length) =
      .ok { logl := L.map (fun x : ℤ => (x : F)),
            theta := List.replicate L.length [(0 : F)],
            thread_labels := List.range L.length,
            thread_min_max := L.map (fun x : ℤ => ((⊥ : F), (x : F))),
            nlive_array := (List.range L.length).map (fun i : ℕ => (L.length : ℤ) - i) } := by
  unfold assembleRun
  rw [List.Nodup.dedup (List.nodup_range _), List.length_range]
  rw [if_neg (by rw [uniqueSorted_range]; exact fun h => h rfl)]
  rw [constBirthRows_map_rowLogl, constBirthRows_map_rowBirth, constBirthRows_map_rowTheta,
    constBirthRows_length]
  have hfold := @constBirth_delta_fold L c hne L.length (le_refl _)
  rw [List.take_length] at hfold
  simp only [hfold]
  rw [constBirth_nlive]

/-- Claim C3 counterexample: a two-sample run in which both samples are
born on the same initial contour is reconstructed as two singleton
threads with labels [0, 1] and strictly decreasing nlive_array [2, 1],
not as a single thread label 0 with a constant nlive_array. -/
theorem all_initial_births_two_threads :
    process_samples_array
        [[(0 : F), ((1 : ℤ) : F), ((-5 : ℤ) : F)], [(0 : F), ((2 : ℤ) : F), ((-5 : ℤ) : F)]] =
      .ok { logl := [((1 : ℤ) : F), ((2 : ℤ) : F)], theta := [[(0 : F)], [(0 : F)]],
            thread_labels := [0, 1],
            thread_min_max := [((⊥ : F), ((1 : ℤ) : F)), ((⊥ : F), ((2 : ℤ) : F))],
            nlive_array := [2, 1] } ∧
    ¬ ([0, 1] = List.replicate 2 0 ∧ (2 : ℤ) = 1) := by
  constructor
  · rfl
  · decide

/-- Claim C3 (amended): for every run whose samples all share the same
birth contour `c` lying strictly below every log-likelihood, the
pipeline reconstructs one singleton thread per sample — thread labels
0, …, n−1 — records every thread's birth contour as −infinity, and
produces the strictly decreasing nlive_array [n, n−1, …, 1]; the
claim's single thread label 0 and constant nlive_array occur only for
one-sample runs. -/
theorem all_initial_births_pipeline (L : List ℤ) (c : F) (hne : L ≠ [])
    (hs : L.Pairwise (· < ·)) (hc : ∀ x ∈ L, c < (x : F)) :
    process_samples_array (constBirthRows L c) =
      .ok { logl := L.map (fun x : ℤ => (x : F)),
            theta := List.replicate L.length [(0 : F)],
            thread_labels := List.range L.length,
            thread_min_max := L.map (fun x : ℤ => ((⊥ : F), (x : F))),
            nlive_array := (List.range L.length).map (fun i : ℕ => (L.length : ℤ) - i) } := by
  unfold process_samples_array
  rw [sortRows_constBirthRows c hs, constBirthRows_map_rowLogl, constBirthRows_map_rowBirth]
  have hLnodup : L.Nodup := hs.imp ne_of_lt
  have hnodup : (L.map (fun x : ℤ => (x : F))).Nodup :=
    hLnodup.map (fun a b h => by exact_mod_cast h)
  rw [if_neg (by rw [List.Nodup.dedup hnodup]; exact fun h => h rfl)]
  have hth := @threads_constBirth L c hne hc
  simp only [hth]
  exact assemble_constBirth hne

/-- Witness for the all-initial-births pipeline theorem at the
two-sample run with log-likelihoods 1, 2 and common birth contour
−infinity. -/
theorem all_initial_births_pipeline_witness :
    ([(1 : ℤ), 2] ≠ ([] : List ℤ)) ∧
    ([(1 : ℤ), 2].Pairwise (· < ·)) ∧
    (∀ x ∈ [(1 : ℤ), 2], (⊥ : F) < (x : F)) ∧
    process_samples_array (constBirthRows [(1 : ℤ), 2] (⊥ : F)) =
      .ok { logl := [(1 : ℤ), 2].map (fun x : ℤ => (x : F)),
            theta := List.replicate 2 [(0 : F)],
            thread_labels := List.range 2,
            thread_min_max := [(1 : ℤ), 2].map (fun x : ℤ => ((⊥ : F), (x : F))),
            nlive_array := (List.range 2).map (fun i : ℕ => ((2 : ℤ) : ℤ) - i) } :=
  ⟨by decide, by decide, by decide,
    all_initial_births_pipeline [(1 : ℤ), 2] (⊥ : F) (by decide) (by decide) (by decide)⟩

/-! ### Toolkit: index search and counting on sorted lists -/

theorem getD_append_left {α : Type} (l₁ l₂ : List α) (i : Nat) (d : α)
    (h : i < l₁.length) : (l₁ ++ l₂).getD i d = l₁.getD i d := by
  rw [List.getD_eq_getElem?_getD, List.getElem?_append, if_pos h, ← List.getD_eq_getElem?_getD]

theorem getD_append_right {α : Type} (l₁ l₂ : List α) (i : Nat) (d : α)
    (h : l₁.length ≤ i) : (l₁ ++ l₂).getD i d = l₂.getD (i - l₁.length) d := by
  rw [List.getD_eq_getElem?_getD, List.getElem?_append_right h, ← List.getD_eq_getElem?_getD]

theorem indicesWhere_eq_nil_of_all {α : Type} {p : α → Bool} :
    ∀ {l : List α}, (∀ x ∈ l, p x = false) → indicesWhere p l = [] := by
  intro l
  induction l with
  | nil => intro _; rfl
  | cons a l ih =>
    intro h
    rw [show indicesWhere p (a :: l) = (indicesWhere p l).map (fun i => i + 1) by
      simp [indicesWhere, h a (List.mem_cons_self a l)]]
    rw [ih (fun x hx => h x (List.mem_cons_of_mem a hx))]
    rfl

theorem findIdx?_eq_some_of {α : Type} {p : α → Bool} (d : α) :
    ∀ {l : List α} {i : Nat}, i < l.length → p (l.getD i d) = true →
      (∀ j, j < i → p (l.getD j d) = false) → l.findIdx? p = some i := by
  intro l
  induction l with
  | nil => intro i hi; simp at hi
  | cons a l ih =>
    intro i hi hp hbefore
    cases i with
    | zero =>
      rw [List.findIdx?_cons, if_pos (by simpa using hp)]
    | succ m =>
      have hpa : p a = false := by simpa using hbefore 0 (by omega)
      rw [List.findIdx?_cons, if_neg (by simp [hpa]), List.findIdx?_succ,
        ih (by simpa using hi) (by simpa using hp)
          (fun j hj => by simpa using hbefore (j + 1) (by omega))]
      rfl

theorem nodup_all_eq_singleton {α : Type} {l : List α} {a : α} (hnd : l.Nodup)
    (hall : ∀ x ∈ l, x = a) (hmem : a ∈ l) : l = [a] := by
  cases l with
  | nil => cases hmem
  | cons x t =>
    have hx : x = a := hall x (List.mem_cons_self x t)
    subst hx
    cases t with
    | nil => rfl
    | cons y u =>
      have hy : y = x := hall y (by simp)
      subst hy
      rw [List.nodup_cons] at hnd
      exact absurd (by simp : y ∈ y :: u) hnd.1

theorem uniqueSorted_nodup {α : Type} [LinearOrder α] [DecidableEq α] (l : List α) :
    (uniqueSorted l).Nodup :=
  ((sortByKey_perm id l.dedup).nodup_iff).mpr (List.nodup_dedup l)

theorem indicesWhere_singleton_of_nodup {α : Type} [DecidableEq α] {l : List α} (d : α)
    (hnd : l.Nodup) {k : Nat} (hk : k < l.length) :
    indicesWhere (fun x => x == l.getD k d) l = [k] := by
  apply nodup_all_eq_singleton
  · exact ((indicesWhere_sorted _ l).imp ne_of_lt)
  · intro i hi
    have hspec := (mem_indicesWhere _ d l i).mp hi
    have heq : l.getD i d = l.getD k d := by simpa using hspec.2
    by_contra hik
    rcases Nat.lt_or_ge i k with hlt | hge
    · exact absurd heq (fun h => (not_nodup_of_getD_eq hlt hk h) hnd)
    · have hki : k < i := by omega
      exact absurd heq.symm (fun h => (not_nodup_of_getD_eq hki hspec.1 h) hnd)
  · exact (mem_indicesWhere _ d l k).mpr ⟨hk, by simp⟩

theorem eq_pair_of_sorted_nodup {l : List Nat} {a b : Nat} (hab : a < b)
    (hs : l.Pairwise (· ≤ ·)) (hnd : l.Nodup)
    (hmem : ∀ x, x ∈ l ↔ x = a ∨ x = b) : l = [a, b] := by
  cases l with
  | nil => exact absurd ((hmem a).mpr (Or.inl rfl)) (by simp)
  | cons x t =>
    cases t with
    | nil =>
      have ha : a = x := by
        have := (hmem a).mpr (Or.inl rfl)
        simpa using this
      have hb : b = x := by
        have := (hmem b).mpr (Or.inr rfl)
        simpa using this
      omega
    | cons y u =>
      cases u with
      | nil =>
        have hx := (hmem x).mp (by simp)
        have hy := (hmem y).mp (by simp)
        have hxy : x ≠ y := by
          rw [List.nodup_cons] at hnd
          intro h
          exact hnd.1 (by simp [h])
        have hxley : x ≤ y := by
          rw [List.pairwise_cons] at hs
          exact hs.1 y (by simp)
        have hxa : x = a := by omega
        have hyb : y = b := by omega
        rw [hxa, hyb]
      | cons z v =>
        have hx := (hmem x).mp (by simp)
        have hy := (hmem y).mp (by simp)
        have hz := (hmem z).mp (by simp)
        rw [List.nodup_cons, List.nodup_cons] at hnd
        have hxy : x ≠ y := fun h => hnd.1 (by simp [h])
        have hxz : x ≠ z := fun h => hnd.1 (by simp [h])
        have hyz : y ≠ z := fun h => hnd.2.1 (by simp [h])
        omega

theorem sorted_getD_lt {L : List ℤ} (hs : L.Pairwise (· < ·)) {a b : Nat}
    (hab : a < b) (hb : b < L.length) : L.getD a 0 < L.getD b 0 := by
  have ha : a < L.length := by omega
  have h := List.pairwise_iff_getElem.mp hs a b ha hb hab
  rw [List.getD_eq_getElem?_getD, List.getElem?_eq_getElem ha,
    List.getD_eq_getElem?_getD, List.getElem?_eq_getElem hb]
  simpa using h

theorem count_eq_one_of_nodup_mem {α : Type} [DecidableEq α] {l : List α} {a : α}
    (hnd : l.Nodup) (hmem : a ∈ l) : l.count a = 1 := by
  have hle : l.count a ≤ 1 := List.nodup_iff_count_le_one.mp hnd a
  have hge : 1 ≤ l.count a := List.count_pos_iff.mpr hmem
  omega

/-! ### Toolkit for the general two-thread family -/

theorem getD_take {α : Type} (l : List α) (j u : Nat) (d : α) (hu : u < j) :
    (l.take j).getD u d = l.getD u d := by
  by_cases hl : u < l.length
  · have h1 : u < (l.take j).length := by
      rw [List.length_take]
      omega
    rw [List.getD_eq_getElem?_getD, List.getElem?_eq_getElem h1,
      List.getD_eq_getElem?_getD, List.getElem?_eq_getElem hl]
    simp [List.getElem_take]
  · rw [List.getD_eq_getElem?_getD, List.getElem?_eq_none (by rw [List.length_take]; omega),
      List.getD_eq_getElem?_getD, List.getElem?_eq_none (by omega)]

theorem getLast?_cons_of_ne_nil {α : Type} (a : α) {l : List α} (h : l ≠ []) :
    (a :: l).getLast? = l.getLast? := by
  cases l with
  | nil => exact absurd rfl h
  | cons b t => exact List.getLast?_cons_cons

theorem getLast?_map {α β : Type} (f : α → β) :
    ∀ l : List α, (l.map f).getLast? = l.getLast?.map f := by
  intro l
  induction l with
  | nil => rfl
  | cons a t ih =>
    cases t with
    | nil => rfl
    | cons b u =>
      rw [List.map_cons, getLast?_cons_of_ne_nil _ (by simp),
        getLast?_cons_of_ne_nil _ (by simp)]
      exact ih

theorem getLast?_eq_of_max {l : List Nat} (hs : l.Pairwise (· < ·)) {m : Nat}
    (hmem : m ∈ l) (hmax : ∀ x ∈ l, x ≤ m) : l.getLast? = some m := by
  cases hl : l.getLast? with
  | none =>
    cases l with
    | nil => cases hmem
    | cons x t =>
      rw [show (x :: t).getLast? = some (t.getLast?.getD x) from List.getLast?_cons] at hl
      exact Option.noConfusion hl
  | some y =>
    have hy : y ∈ l := mem_of_getLast?_eq hl
    have h1 : y ≤ m := hmax y hy
    have h2 : m ≤ y := getLast?_max_of_sorted hs hl m hmem
    have : y = m := by omega
    rw [this]

theorem head?_eq_of_min {l : List Nat} (hs : l.Pairwise (· < ·)) {m : Nat}
    (hmem : m ∈ l) (hmin : ∀ x ∈ l, m ≤ x) : l.head? = some m := by
  cases l with
  | nil => cases hmem
  | cons x t =>
    rcases List.mem_cons.mp hmem with rfl | hmt
    · rfl
    · have h1 : x < m := List.rel_of_pairwise_cons hs hmt
      have h2 : m ≤ x := hmin x (List.mem_cons_self x t)
      omega

theorem length_le_of_nodup_lt {l : List Nat} {N : Nat} (hnd : l.Nodup)
    (hlt : ∀ x ∈ l, x < N) : l.length ≤ N := by
  have h1 : l.toFinset.card = l.length := List.toFinset_card_of_nodup hnd
  have h2 : l.toFinset ⊆ Finset.range N := by
    intro x hx
    rw [List.mem_toFinset] at hx
    exact Finset.mem_range.mpr (hlt x hx)
  have h3 := Finset.card_le_card h2
  rw [h1, Finset.card_range] at h3
  exact h3

theorem foldl_set_length {α : Type} (a : α) :
    ∀ (path : List Nat) (l : List α),
      (path.foldl (fun ls b => ls.set b a) l).length = l.length := by
  intro path
  induction path with
  | nil => intro l; rfl
  | cons b rest ih =>
    intro l
    rw [List.foldl_cons, ih, List.length_set]

theorem foldl_set_getD {α : Type} (a d : α) :
    ∀ (path : List Nat) (l : List α) (i : Nat), i < l.length →
      (path.foldl (fun ls b => ls.set b a) l).getD i d =
        if i ∈ path then a else l.getD i d := by
  intro path
  induction path with
  | nil =>
    intro l i _
    rw [List.foldl_nil, if_neg (by simp)]
  | cons b rest ih =>
    intro l i hi
    rw [List.foldl_cons, ih _ _ (by rw [List.length_set]; exact hi)]
    by_cases hmem : i ∈ rest
    · rw [if_pos hmem, if_pos (by simp [hmem])]
    · rw [if_neg hmem]
      by_cases hib : i = b
      · subst hib
        rw [getD_set_self _ _ _ _ hi, if_pos (List.mem_cons_self i rest)]
      · rw [getD_set_ne _ _ _ (fun h => hib h.symm),
          if_neg (by simp [hib, hmem])]

/-- The walk loop follows a path of samples: if from each sample of
`cur :: path` the first sample born on its log-likelihood is the next
path entry (and the last finds none), and the path's samples are
in range, unlabelled and distinct, the loop labels exactly them. -/
theorem walkChain_path (logl birth : List F) (tn : Nat) :
    ∀ (path : List Nat) (labels : List (Option Nat)) (cur : Nat) (fuel : Nat),
      path.length < fuel →
      List.Chain' (fun a b =>
        birth.findIdx? (fun x => x == logl.getD a ⊥) = some b) (cur :: path) →
      birth.findIdx? (fun x => x == logl.getD (path.getLastD cur) ⊥) = none →
      (∀ b ∈ path, b < labels.length) →
      (∀ b ∈ path, labels.getD b none = none) →
      path.Nodup →
      walkChain logl birth tn fuel labels cur =
        some (path.foldl (fun ls b => ls.set b (some tn)) labels) := by
  intro path
  induction path with
  | nil =>
    intro labels cur fuel hfuel _ hlast _ _ _
    cases fuel with
    | zero => omega
    | succ f =>
      rw [List.getLastD_nil] at hlast
      rw [List.foldl_nil]
      simp only [walkChain, hlast]
  | cons b rest ih =>
    intro labels cur fuel hfuel hchain hlast hrange hnone hnd
    cases fuel with
    | zero => omega
    | succ f =>
      have hstep : birth.findIdx? (fun x => x == logl.getD cur ⊥) = some b :=
        List.chain'_cons.mp hchain |>.1
      have hguard : b < labels.length := hrange b (List.mem_cons_self b rest)
      have hgd : labels.getD b none = none := hnone b (List.mem_cons_self b rest)
      rw [List.nodup_cons] at hnd
      simp only [walkChain, hstep]
      rw [if_pos hguard]
      simp only [hgd]
      rw [List.foldl_cons]
      apply ih (labels.set b (some tn)) b f (by simpa using hfuel)
        (List.chain'_cons.mp hchain |>.2)
      · rw [List.getLastD_cons] at hlast
        exact hlast
      · intro c hc
        rw [List.length_set]
        exact hrange c (List.mem_cons_of_mem b hc)
      · intro c hc
        rw [getD_set_ne _ _ _ (fun h => hnd.1 (by rw [h]; exact hc))]
        exact hnone c (List.mem_cons_of_mem b hc)
      · exact hnd.2

/-- Adjacent entries of a sorted list that holds exactly the numbers
satisfying `P` at or above `lo` are related by `R` whenever `R` holds of
any `P`-pair with no `P`-number strictly between. -/
theorem chain'_of_sorted_complete_aux {P : Nat → Prop} {R : Nat → Nat → Prop}
    (h : ∀ a b, P a → P b → a < b → (∀ c, a < c → c < b → ¬ P c) → R a b) :
    ∀ (l : List Nat) (lo : Nat), l.Pairwise (· < ·) → (∀ x ∈ l, P x) →
      (∀ x, P x → lo ≤ x → x ∈ l) → (∀ y ∈ l, lo ≤ y) → List.Chain' R l := by
  intro l
  induction l with
  | nil =>
    intro lo _ _ _ _
    exact List.chain'_nil
  | cons a t ih =>
    intro lo hs hP hcompl hlo
    cases t with
    | nil => exact List.chain'_singleton a
    | cons b u =>
      rw [List.chain'_cons]
      constructor
      · apply h a b (hP a (by simp)) (hP b (by simp))
          (List.rel_of_pairwise_cons hs (by simp))
        intro c hac hcb hPc
        have hcl : c ∈ a :: b :: u :=
          hcompl c hPc (le_trans (hlo a (by simp)) (le_of_lt hac))
        rcases List.mem_cons.mp hcl with rfl | hcl
        · omega
        rcases List.mem_cons.mp hcl with rfl | hcl
        · omega
        · have : b < c := List.rel_of_pairwise_cons hs.of_cons hcl
          omega
      · apply ih (a + 1) hs.of_cons (fun x hx => hP x (List.mem_cons_of_mem a hx)) ?_ ?_
        · intro x hPx hax
          have hxl : x ∈ a :: b :: u :=
            hcompl x hPx (le_trans (hlo a (by simp)) (by omega))
          rcases List.mem_cons.mp hxl with rfl | hxl
          · omega
          · exact hxl
        · intro y hy
          have : a < y := List.rel_of_pairwise_cons hs hy
          omega

/-- Adjacent entries of a sorted list that holds exactly the numbers
satisfying `P` are related by `R` whenever `R` holds of any `P`-pair
with no `P`-number strictly between. -/
theorem chain'_of_sorted_complete {l : List Nat} (hs : l.Pairwise (· < ·))
    {P : Nat → Prop} (hmem : ∀ x, x ∈ l ↔ P x) {R : Nat → Nat → Prop}
    (h : ∀ a b, P a → P b → a < b → (∀ c, a < c → c < b → ¬ P c) → R a b) :
    List.Chain' R l :=
  chain'_of_sorted_complete_aux h l 0 hs (fun x hx => (hmem x).mp hx)
    (fun x hPx _ => (hmem x).mpr hPx) (fun y _ => Nat.zero_le y)

theorem twoThreadBirths_length :
    ∀ (l : List (ℤ × Bool)) (lf lt : F), (twoThreadBirths l lf lt).length = l.length := by
  intro l
  induction l with
  | nil => intro lf lt; rfl
  | cons vb rest ih =>
    intro lf lt
    obtain ⟨v, b⟩ := vb
    cases b
    · rw [show twoThreadBirths ((v, false) :: rest) lf lt =
          lf :: twoThreadBirths rest ((v : ℤ) : F) lt from rfl]
      rw [List.length_cons, ih]
      rfl
    · rw [show twoThreadBirths ((v, true) :: rest) lf lt =
          lt :: twoThreadBirths rest lf ((v : ℤ) : F) from rfl]
      rw [List.length_cons, ih]
      rfl

theorem indicesWhere_cons_pos {α : Type} {p : α → Bool} {a : α} (h : p a = true)
    (l : List α) :
    indicesWhere p (a :: l) = 0 :: (indicesWhere p l).map (fun i => i + 1) := by
  show (if p a then 0 :: (indicesWhere p l).map (fun i => i + 1)
      else (indicesWhere p l).map (fun i => i + 1)) =
    0 :: (indicesWhere p l).map (fun i => i + 1)
  rw [if_pos h]

theorem indicesWhere_cons_neg {α : Type} {p : α → Bool} {a : α} (h : p a = false)
    (l : List α) :
    indicesWhere p (a :: l) = (indicesWhere p l).map (fun i => i + 1) := by
  show (if p a then 0 :: (indicesWhere p l).map (fun i => i + 1)
      else (indicesWhere p l).map (fun i => i + 1)) =
    (indicesWhere p l).map (fun i => i + 1)
  rw [if_neg (by rw [h]; exact Bool.false_ne_true)]

/-- Entry formula for the two-thread births: each sample is born on the
log-likelihood of the last same-side sample before it, or on the seed
contour of its side when there is none. -/
theorem twoThreadBirths_getD :
    ∀ (V : List ℤ) (s : List Bool) (lf lt : F) (j : Nat),
      j < V.length → j < s.length →
      (twoThreadBirths (V.zip s) lf lt).getD j ⊥ =
        match lastBefore s (s.getD j false) j with
        | some i => ((V.getD i 0 : ℤ) : F)
        | none => if s.getD j false then lt else lf := by
  intro V
  induction V with
  | nil =>
    intro s lf lt j hj _
    simp at hj
  | cons v V ih =>
    intro s lf lt j hjV hjs
    cases s with
    | nil => simp at hjs
    | cons b s =>
      rw [List.zip_cons_cons]
      cases j with
      | zero =>
        rw [show lastBefore (b :: s) ((b :: s).getD 0 false) 0 = none from rfl]
        cases b
        · rfl
        · rfl
      | succ m =>
        have hmV : m < V.length := by simpa using hjV
        have hms : m < s.length := by simpa using hjs
        have hside : (b :: s).getD (m + 1) false = s.getD m false := rfl
        have hlb : lastBefore (b :: s) (s.getD m false) (m + 1) =
            match lastBefore s (s.getD m false) m with
            | some i => some (i + 1)
            | none => if (b == s.getD m false) = true then some 0 else none := by
          unfold lastBefore
          rw [show (b :: s).take (m + 1) = b :: s.take m from rfl]
          by_cases hb : (b == s.getD m false) = true
          · rw [@indicesWhere_cons_pos Bool (fun x => x == s.getD m false) b hb (s.take m)]
            cases hX : indicesWhere (fun x => x == s.getD m false) (s.take m) with
            | nil =>
              have hb2 : b = s.getD m false := by simpa using hb
              simp [hb2]
            | cons x xs =>
              rw [getLast?_cons_of_ne_nil _ (by simp), getLast?_map]
              cases hY : (x :: xs).getLast? with
              | none =>
                rw [show (x :: xs).getLast? = some (xs.getLast?.getD x)
                    from List.getLast?_cons] at hY
                exact Option.noConfusion hY
              | some y => rfl
          · have hbf : (b == s.getD m false) = false := by simpa using hb
            rw [@indicesWhere_cons_neg Bool (fun x => x == s.getD m false) b hbf (s.take m),
              getLast?_map]
            cases hY : (indicesWhere (fun x => x == s.getD m false) (s.take m)).getLast? with
            | none => exact (if_neg hb).symm
            | some y => rfl
        rw [hside, hlb]
        cases b
        · rw [show twoThreadBirths ((v, false) :: V.zip s) lf lt =
              lf :: twoThreadBirths (V.zip s) ((v : ℤ) : F) lt from rfl,
            List.getD_cons_succ, ih s ((v : ℤ) : F) lt m hmV hms]
          cases hL : lastBefore s (s.getD m false) m with
          | some i => rfl
          | none =>
            cases hsd : s.getD m false with
            | false => rfl
            | true => rfl
        · rw [show twoThreadBirths ((v, true) :: V.zip s) lf lt =
              lt :: twoThreadBirths (V.zip s) lf ((v : ℤ) : F) from rfl,
            List.getD_cons_succ, ih s lf ((v : ℤ) : F) m hmV hms]
          cases hL : lastBefore s (s.getD m false) m with
          | some i => rfl
          | none =>
            cases hsd : s.getD m false with
            | false => rfl
            | true => rfl

theorem lastBefore_spec {s : List Bool} {b : Bool} {j i : Nat} (hj : j ≤ s.length)
    (h : lastBefore s b j = some i) :
    i < j ∧ s.getD i false = b ∧ ∀ u, i < u → u < j → s.getD u false ≠ b := by
  unfold lastBefore at h
  have hspec := indicesWhere_getLast?_spec (fun x => x == b) false h
  have htl : (s.take j).length = j := by
    rw [List.length_take]
    omega
  have hij : i < j := by
    have := hspec.1
    omega
  refine ⟨hij, ?_, ?_⟩
  · have h2 := hspec.2.1
    rw [getD_take s j i false hij] at h2
    exact eq_of_beq h2
  · intro u hiu huj hub
    have h2 := hspec.2.2 u hiu (by omega)
    rw [getD_take s j u false huj] at h2
    rw [hub] at h2
    simp at h2

theorem lastBefore_eq_some {s : List Bool} {b : Bool} {j i : Nat} (hj : j ≤ s.length)
    (hij : i < j) (hb : s.getD i false = b)
    (hno : ∀ u, i < u → u < j → s.getD u false ≠ b) : lastBefore s b j = some i := by
  unfold lastBefore
  have htl : (s.take j).length = j := by
    rw [List.length_take]
    omega
  have hmem : i ∈ indicesWhere (fun x => x == b) (s.take j) := by
    apply (mem_indicesWhere _ false _ i).mpr
    constructor
    · omega
    · rw [getD_take s j i false hij, hb]
      exact beq_self_eq_true b
  have hmax : ∀ x ∈ indicesWhere (fun x => x == b) (s.take j), x ≤ i := by
    intro x hx
    have hxs := (mem_indicesWhere _ false _ x).mp hx
    have hxj : x < j := by omega
    by_contra hxi
    have hxb : s.getD x false = b := by
      have h2 := hxs.2
      rw [getD_take s j x false hxj] at h2
      exact eq_of_beq h2
    exact hno x (by omega) hxj hxb
  exact getLast?_eq_of_max (indicesWhere_sorted _ _) hmem hmax

theorem lastBefore_eq_none {s : List Bool} {b : Bool} {j : Nat}
    (hno : ∀ u, u < j → s.getD u false ≠ b) : lastBefore s b j = none := by
  unfold lastBefore
  rw [indicesWhere_eq_nil_of_all (by
    intro x hx
    obtain ⟨u, hu, rfl⟩ := exists_getD_of_mem false hx
    have huj : u < j := by
      rw [List.length_take] at hu
      omega
    rw [getD_take s j u false huj]
    exact beq_eq_false_iff_ne.mpr (hno u huj))]
  rfl

theorem lastBefore_none_spec {s : List Bool} {b : Bool} {j : Nat}
    (h : lastBefore s b j = none) : ∀ u, u < j → u < s.length → s.getD u false ≠ b := by
  intro u huj hus hub
  unfold lastBefore at h
  have hmem : u ∈ indicesWhere (fun x => x == b) (s.take j) := by
    apply (mem_indicesWhere _ false _ u).mpr
    constructor
    · rw [List.length_take]
      omega
    · rw [getD_take s j u false huj, hub]
      exact beq_self_eq_true b
  cases hiw : indicesWhere (fun x => x == b) (s.take j) with
  | nil =>
    rw [hiw] at hmem
    cases hmem
  | cons x xs =>
    rw [hiw, show (x :: xs).getLast? = some (xs.getLast?.getD x) from List.getLast?_cons] at h
    exact Option.noConfusion h

theorem firstTrue_spec {s : List Bool} (h : true ∈ s) :
    firstTrue s < s.length ∧ s.getD (firstTrue s) false = true ∧
      ∀ u, u < firstTrue s → s.getD u false = false := by
  obtain ⟨i, hi, hib⟩ := exists_getD_of_mem false h
  have hne : indicesWhere (fun x => x == true) s ≠ [] := by
    intro hnil
    have hm : i ∈ indicesWhere (fun x => x == true) s :=
      (mem_indicesWhere _ false s i).mpr ⟨hi, by rw [hib]; rfl⟩
    rw [hnil] at hm
    cases hm
  have hhd : (indicesWhere (fun x => x == true) s).head? = some (firstTrue s) := by
    unfold firstTrue
    cases hiw : indicesWhere (fun x => x == true) s with
    | nil => exact absurd hiw hne
    | cons x xs => rfl
  have hspec := indicesWhere_head?_spec (fun x => x == true) false hhd
  refine ⟨hspec.1, eq_of_beq hspec.2.1, ?_⟩
  intro u hu
  have h2 := hspec.2.2 u hu
  cases hg : s.getD u false
  · rfl
  · rw [hg] at h2
    exact absurd h2 (by simp)

theorem nextFalse_spec {s : List Bool} {k : Nat}
    (h : ∃ j, k < j ∧ j < s.length ∧ s.getD j false = false) :
    k < nextFalse s k ∧ nextFalse s k < s.length ∧
      s.getD (nextFalse s k) false = false ∧
      ∀ u, k < u → u < nextFalse s k → s.getD u false = true := by
  obtain ⟨j, hkj, hjs, hjb⟩ := h
  have hsorted : ((indicesWhere (fun x => x == false) s).filter
      (fun i => decide (k < i))).Pairwise (· < ·) :=
    (indicesWhere_sorted _ s).filter _
  have hmemj : j ∈ (indicesWhere (fun x => x == false) s).filter
      (fun i => decide (k < i)) := by
    apply List.mem_filter.mpr
    exact ⟨(mem_indicesWhere _ false s j).mpr ⟨hjs, by rw [hjb]; rfl⟩, by simp [hkj]⟩
  have hne : (indicesWhere (fun x => x == false) s).filter
      (fun i => decide (k < i)) ≠ [] := by
    intro hnil
    rw [hnil] at hmemj
    cases hmemj
  have hhd : ((indicesWhere (fun x => x == false) s).filter
      (fun i => decide (k < i))).head? = some (nextFalse s k) := by
    unfold nextFalse
    cases hiw : (indicesWhere (fun x => x == false) s).filter
        (fun i => decide (k < i)) with
    | nil => exact absurd hiw hne
    | cons x xs => rfl
  have hmem := mem_of_head?_eq hhd
  have hm1 := List.mem_filter.mp hmem
  have hm2 := (mem_indicesWhere _ false s _).mp hm1.1
  have hklt : k < nextFalse s k := by simpa using hm1.2
  refine ⟨hklt, hm2.1, eq_of_beq hm2.2, ?_⟩
  intro u hku hunf
  cases hg : s.getD u false
  · exfalso
    have humem : u ∈ (indicesWhere (fun x => x == false) s).filter
        (fun i => decide (k < i)) := by
      apply List.mem_filter.mpr
      refine ⟨(mem_indicesWhere _ false s u).mpr ⟨by omega, by rw [hg]; rfl⟩, by simp [hku]⟩
    have := head?_min_of_sorted hsorted hhd u humem
    omega
  · rfl

theorem sideLast_spec {s : List Bool} {b : Bool} {i : Nat} (hi : i < s.length)
    (hib : s.getD i false = b) :
    sideLast s b < s.length ∧ s.getD (sideLast s b) false = b ∧
      i ≤ sideLast s b ∧
      ∀ u, sideLast s b < u → u < s.length → s.getD u false ≠ b := by
  have hmemi : i ∈ indicesWhere (fun x => x == b) s :=
    (mem_indicesWhere _ false s i).mpr ⟨hi, by rw [hib]; exact beq_self_eq_true b⟩
  have hne : indicesWhere (fun x => x == b) s ≠ [] := by
    intro hnil
    rw [hnil] at hmemi
    cases hmemi
  have hgl : (indicesWhere (fun x => x == b) s).getLast? = some (sideLast s b) := by
    unfold sideLast
    cases hiw : indicesWhere (fun x => x == b) s with
    | nil => exact absurd hiw hne
    | cons x xs =>
      rw [show (x :: xs).getLast? = some (xs.getLast?.getD x) from List.getLast?_cons]
      rw [List.getLastD_cons, List.getLastD_eq_getLast?]
  have hspec := indicesWhere_getLast?_spec (fun x => x == b) false hgl
  refine ⟨hspec.1, eq_of_beq hspec.2.1,
    getLast?_max_of_sorted (indicesWhere_sorted _ _) hgl i hmemi, ?_⟩
  intro u hgu hus hub
  have h2 := hspec.2.2 u hgu hus
  rw [hub] at h2
  exact absurd h2 (by simp)

theorem getD_inj_of_sorted {V : List ℤ} (hs : V.Pairwise (· < ·)) {a b : Nat}
    (ha : a < V.length) (hb : b < V.length) (h : V.getD a 0 = V.getD b 0) : a = b := by
  rcases Nat.lt_trichotomy a b with hl | he | hl
  · have := sorted_getD_lt hs hl hb
    omega
  · exact he
  · have := sorted_getD_lt hs hl ha
    omega

theorem twoB_getD_zero {V : List ℤ} {s : List Bool} {k : Nat}
    (h0 : 0 < V.length) (h0s : 0 < s.length) (hpre0 : s.getD 0 false = false) :
    (twoThreadBirths (V.zip s) ⊥ ((V.getD k 0 : ℤ) : F)).getD 0 ⊥ = ⊥ := by
  rw [twoThreadBirths_getD V s ⊥ _ 0 h0 h0s]
  rw [show lastBefore s (s.getD 0 false) 0 = none from rfl]
  rw [hpre0]
  rfl

theorem twoB_getD_of_lastBefore {V : List ℤ} {s : List Bool} {k : Nat}
    (hlen : s.length = V.length) {j a : Nat} (hj : j < V.length)
    (h : lastBefore s (s.getD j false) j = some a) :
    (twoThreadBirths (V.zip s) ⊥ ((V.getD k 0 : ℤ) : F)).getD j ⊥ =
      ((V.getD a 0 : ℤ) : F) := by
  rw [twoThreadBirths_getD V s ⊥ _ j hj (by omega)]
  simp only [h]

theorem twoB_getD_of_firstTrue {V : List ℤ} {s : List Bool} {k : Nat}
    (hlen : s.length = V.length) {j : Nat} (hj : j < V.length)
    (hgt : s.getD j false = true) (h : lastBefore s true j = none) :
    (twoThreadBirths (V.zip s) ⊥ ((V.getD k 0 : ℤ) : F)).getD j ⊥ =
      ((V.getD k 0 : ℤ) : F) := by
  rw [twoThreadBirths_getD V s ⊥ _ j hj (by omega), hgt]
  simp only [h]
  rw [if_pos trivial]

theorem twoB_eq_coe_cases {V : List ℤ} {s : List Bool} {k : Nat}
    (hs : V.Pairwise (· < ·)) (hlen : s.length = V.length) (hk : k < V.length)
    {j a : Nat} (hj : j < V.length) (ha : a < V.length)
    (h : (twoThreadBirths (V.zip s) ⊥ ((V.getD k 0 : ℤ) : F)).getD j ⊥ =
      ((V.getD a 0 : ℤ) : F)) :
    (lastBefore s (s.getD j false) j = some a) ∨
      (s.getD j false = true ∧ lastBefore s true j = none ∧ a = k) := by
  rw [twoThreadBirths_getD V s ⊥ _ j hj (by omega)] at h
  cases hL : lastBefore s (s.getD j false) j with
  | some i =>
    simp only [hL] at h
    left
    have hspec := lastBefore_spec (by omega) hL
    have hia : i = a := getD_inj_of_sorted hs (by omega) ha (by exact_mod_cast h)
    rw [hia]
  | none =>
    simp only [hL] at h
    cases hg : s.getD j false
    · rw [hg] at h
      simp only [if_neg (by exact Bool.false_ne_true)] at h
      exact absurd h (by simp)
    · right
      rw [hg] at h
      rw [if_pos (by trivial)] at h
      refine ⟨rfl, ?_, (getD_inj_of_sorted hs hk ha (by exact_mod_cast h)).symm⟩
      rw [hg] at hL
      exact hL

theorem twoB_findIdx_next {V : List ℤ} {s : List Bool} {k : Nat}
    (hs : V.Pairwise (· < ·)) (hlen : s.length = V.length) (hk : k < V.length)
    {a b : Nat} (ha : a < V.length) (hb : b < V.length) (hab : a < b)
    (hak : a ≠ k) (hsame : s.getD b false = s.getD a false)
    (hbet : ∀ u, a < u → u < b → s.getD u false ≠ s.getD a false) :
    (twoThreadBirths (V.zip s) ⊥ ((V.getD k 0 : ℤ) : F)).findIdx?
      (fun x => x == ((V.getD a 0 : ℤ) : F)) = some b := by
  apply findIdx?_eq_some_of ⊥
  · rw [twoThreadBirths_length, List.length_zip]
    omega
  · have hLb : lastBefore s (s.getD b false) b = some a := by
      apply lastBefore_eq_some (by omega) hab hsame.symm
      intro u hau hub hu
      exact hbet u hau hub (by rw [hu, hsame])
    rw [twoB_getD_of_lastBefore hlen hb hLb]
    exact beq_self_eq_true _
  · intro u hub
    rw [beq_eq_false_iff_ne]
    intro hequ
    rcases twoB_eq_coe_cases hs hlen hk (by omega) ha hequ with hcase | hcase
    · have hspec := lastBefore_spec (by omega) hcase
      exact hbet u hspec.1 hub hspec.2.1.symm
    · exact hak hcase.2.2

theorem twoB_findIdx_none {V : List ℤ} {s : List Bool} {k : Nat}
    (hs : V.Pairwise (· < ·)) (hlen : s.length = V.length) (hk : k < V.length)
    {a : Nat} (ha : a < V.length) (hak : a ≠ k)
    (hlast : ∀ u, a < u → u < V.length → s.getD u false ≠ s.getD a false) :
    (twoThreadBirths (V.zip s) ⊥ ((V.getD k 0 : ℤ) : F)).findIdx?
      (fun x => x == ((V.getD a 0 : ℤ) : F)) = none := by
  apply findIdx?_eq_none_of_all
  intro x hx
  obtain ⟨u, hu, rfl⟩ := exists_getD_of_mem ⊥ hx
  rw [twoThreadBirths_length, List.length_zip] at hu
  have huV : u < V.length := by omega
  rw [beq_eq_false_iff_ne]
  intro hequ
  rcases twoB_eq_coe_cases hs hlen hk huV ha hequ with hcase | hcase
  · have hspec := lastBefore_spec (by omega) hcase
    exact hlast u hspec.1 huV (by rw [hspec.2.1])
  · exact hak hcase.2.2

theorem nfk_ne_ft {s : List Bool} {k : Nat} (htrue : true ∈ s)
    (hpost : ∃ j, k < j ∧ j < s.length ∧ s.getD j false = false) :
    nextFalse s k ≠ firstTrue s := by
  intro h
  have h1 := (nextFalse_spec hpost).2.2.1
  have h2 := (firstTrue_spec htrue).2.1
  rw [h, h2] at h1
  exact Bool.noConfusion h1

theorem k_lt_firstTrue {s : List Bool} {k : Nat} (htrue : true ∈ s)
    (hpre : ∀ i, i ≤ k → s.getD i false = false) : k < firstTrue s := by
  by_contra h
  have h2 := (firstTrue_spec htrue).2.1
  rw [hpre _ (by omega)] at h2
  exact Bool.noConfusion h2

theorem eq_nextFalse_of {s : List Bool} {k u : Nat}
    (hpre : ∀ i, i ≤ k → s.getD i false = false)
    (hpost : ∃ j, k < j ∧ j < s.length ∧ s.getD j false = false)
    (hu : u ≤ s.length)
    (hcase : lastBefore s (s.getD u false) u = some k) : u = nextFalse s k := by
  have hnf := nextFalse_spec hpost
  have hspec := lastBefore_spec hu hcase
  have hku : k < u := hspec.1
  have hsideu : s.getD u false = false := by
    have h2 := hspec.2.1
    rw [hpre k (le_refl k)] at h2
    exact h2.symm
  rcases Nat.lt_trichotomy u (nextFalse s k) with hl | he | hl
  · have h2 := hnf.2.2.2 u hku hl
    rw [hsideu] at h2
    exact Bool.noConfusion h2
  · exact he
  · exfalso
    have h2 := hspec.2.2 (nextFalse s k) hnf.1 hl
    rw [hsideu, hnf.2.2.1] at h2
    exact h2 rfl

theorem eq_firstTrue_of {s : List Bool} {u : Nat} (htrue : true ∈ s)
    (ht : s.getD u false = true) (hn : lastBefore s true u = none) : u = firstTrue s := by
  have hft := firstTrue_spec htrue
  rcases Nat.lt_trichotomy u (firstTrue s) with hl | he | hl
  · have h2 := hft.2.2 u hl
    rw [ht] at h2
    exact Bool.noConfusion h2
  · exact he
  · exfalso
    have h2 := lastBefore_none_spec hn (firstTrue s) hl hft.1
    exact h2 hft.2.1

theorem twoB_getD_nextFalse {V : List ℤ} {s : List Bool} {k : Nat}
    (hlen : s.length = V.length)
    (hpre : ∀ i, i ≤ k → s.getD i false = false)
    (hpost : ∃ j, k < j ∧ j < s.length ∧ s.getD j false = false) :
    (twoThreadBirths (V.zip s) ⊥ ((V.getD k 0 : ℤ) : F)).getD (nextFalse s k) ⊥ =
      ((V.getD k 0 : ℤ) : F) := by
  have hnf := nextFalse_spec hpost
  have hL : lastBefore s (s.getD (nextFalse s k) false) (nextFalse s k) = some k := by
    rw [hnf.2.2.1]
    apply lastBefore_eq_some (by omega) hnf.1 (hpre k (le_refl k))
    intro v hkv hvnf hvf
    have h2 := hnf.2.2.2 v hkv hvnf
    rw [hvf] at h2
    exact Bool.noConfusion h2
  exact twoB_getD_of_lastBefore hlen (by omega) hL

theorem twoB_getD_firstTrue {V : List ℤ} {s : List Bool} {k : Nat}
    (hlen : s.length = V.length) (htrue : true ∈ s) :
    (twoThreadBirths (V.zip s) ⊥ ((V.getD k 0 : ℤ) : F)).getD (firstTrue s) ⊥ =
      ((V.getD k 0 : ℤ) : F) := by
  have hft := firstTrue_spec htrue
  apply twoB_getD_of_firstTrue hlen (by omega) hft.2.1
  apply lastBefore_eq_none
  intro u hu hut
  rw [hft.2.2 u hu] at hut
  exact Bool.noConfusion hut

theorem twoB_getD_ne_bot {V : List ℤ} {s : List Bool} {k : Nat}
    (hlen : s.length = V.length) (hpre0 : s.getD 0 false = false)
    {j : Nat} (h0 : 0 < j) (hj : j < V.length) :
    (twoThreadBirths (V.zip s) ⊥ ((V.getD k 0 : ℤ) : F)).getD j ⊥ ≠ (⊥ : F) := by
  rw [twoThreadBirths_getD V s ⊥ _ j hj (by omega)]
  cases hL : lastBefore s (s.getD j false) j with
  | some i => simp
  | none =>
    cases hg : s.getD j false
    · exfalso
      have h2 := lastBefore_none_spec hL 0 h0 (by omega)
      rw [hg] at h2
      exact h2 hpre0
    · simp

theorem twoB_indicesWhere_bot {V : List ℤ} {s : List Bool} {k : Nat}
    (hlen : s.length = V.length) (hN : 0 < V.length)
    (hpre0 : s.getD 0 false = false) :
    indicesWhere (fun x => x == (⊥ : F))
      (twoThreadBirths (V.zip s) ⊥ ((V.getD k 0 : ℤ) : F)) = [0] := by
  have hlen2 : (twoThreadBirths (V.zip s) ⊥ ((V.getD k 0 : ℤ) : F)).length = V.length := by
    rw [twoThreadBirths_length, List.length_zip]
    omega
  apply nodup_all_eq_singleton ((indicesWhere_sorted _ _).imp ne_of_lt)
  · intro i hi
    have hspec := (mem_indicesWhere _ ⊥ _ i).mp hi
    by_contra hi0
    have hiV : i < V.length := by omega
    exact twoB_getD_ne_bot hlen hpre0 (by omega) hiV (eq_of_beq hspec.2)
  · apply (mem_indicesWhere _ ⊥ _ 0).mpr
    refine ⟨by omega, ?_⟩
    rw [twoB_getD_zero hN (by omega) hpre0]
    rfl

theorem side_max {s : List Bool} {k : Nat} (htrue : true ∈ s)
    (hpost : ∃ j, k < j ∧ j < s.length ∧ s.getD j false = false) :
    s.getD (max (nextFalse s k) (firstTrue s)) false = !contSide s k := by
  have hnf := nextFalse_spec hpost
  have hft := firstTrue_spec htrue
  have hne := nfk_ne_ft htrue hpost
  unfold contSide
  rcases Nat.lt_or_ge (nextFalse s k) (firstTrue s) with hl | hg
  · rw [min_eq_left (le_of_lt hl), max_eq_right (le_of_lt hl), hnf.2.2.1, hft.2.1]
    rfl
  · have hl : firstTrue s < nextFalse s k := by omega
    rw [min_eq_right (le_of_lt hl), max_eq_left (le_of_lt hl), hnf.2.2.1, hft.2.1]
    rfl

theorem twoB_indicesWhere_ck {V : List ℤ} {s : List Bool} {k : Nat}
    (hs : V.Pairwise (· < ·)) (hlen : s.length = V.length)
    (hpre : ∀ i, i ≤ k → s.getD i false = false) (htrue : true ∈ s)
    (hpost : ∃ j, k < j ∧ j < s.length ∧ s.getD j false = false) :
    indicesWhere (fun x => x == ((V.getD k 0 : ℤ) : F))
      (twoThreadBirths (V.zip s) ⊥ ((V.getD k 0 : ℤ) : F)) =
      [min (nextFalse s k) (firstTrue s), max (nextFalse s k) (firstTrue s)] := by
  have hnf := nextFalse_spec hpost
  have hft := firstTrue_spec htrue
  have hne := nfk_ne_ft htrue hpost
  have hk : k < V.length := by omega
  have hlen2 : (twoThreadBirths (V.zip s) ⊥ ((V.getD k 0 : ℤ) : F)).length = V.length := by
    rw [twoThreadBirths_length, List.length_zip]
    omega
  apply eq_pair_of_sorted_nodup (show min (nextFalse s k) (firstTrue s) <
      max (nextFalse s k) (firstTrue s) by omega)
  · exact (indicesWhere_sorted _ _).imp le_of_lt
  · exact (indicesWhere_sorted _ _).imp ne_of_lt
  · intro u
    rw [mem_indicesWhere _ ⊥]
    constructor
    · rintro ⟨hu, hub⟩
      rw [hlen2] at hu
      rcases twoB_eq_coe_cases hs hlen hk hu hk (eq_of_beq hub) with hcase | hcase
      · have h2 := eq_nextFalse_of hpre hpost (by omega) hcase
        rcases Nat.lt_or_ge (nextFalse s k) (firstTrue s) with hl | hg
        · left
          rw [h2, min_eq_left (le_of_lt hl)]
        · right
          rw [h2, max_eq_left hg]
      · have h2 := eq_firstTrue_of htrue hcase.1 hcase.2.1
        rcases Nat.lt_or_ge (nextFalse s k) (firstTrue s) with hl | hg
        · right
          rw [h2, max_eq_right (le_of_lt hl)]
        · left
          rw [h2, min_eq_right hg]
    · rintro (rfl | rfl)
      · refine ⟨by omega, ?_⟩
        rcases Nat.lt_or_ge (nextFalse s k) (firstTrue s) with hl | hg
        · rw [min_eq_left (le_of_lt hl), twoB_getD_nextFalse hlen hpre hpost]
          exact beq_self_eq_true _
        · rw [min_eq_right hg, twoB_getD_firstTrue hlen htrue]
          exact beq_self_eq_true _
      · refine ⟨by omega, ?_⟩
        rcases Nat.lt_or_ge (nextFalse s k) (firstTrue s) with hl | hg
        · rw [max_eq_right (le_of_lt hl), twoB_getD_firstTrue hlen htrue]
          exact beq_self_eq_true _
        · rw [max_eq_left hg, twoB_getD_nextFalse hlen hpre hpost]
          exact beq_self_eq_true _

theorem count_eq_length_indicesWhere {α : Type} [DecidableEq α] (a : α) (l : List α) :
    l.count a = (indicesWhere (fun x => x == a) l).length := by
  rw [length_indicesWhere]
  rfl

theorem twoB_count_ck {V : List ℤ} {s : List Bool} {k : Nat}
    (hs : V.Pairwise (· < ·)) (hlen : s.length = V.length)
    (hpre : ∀ i, i ≤ k → s.getD i false = false) (htrue : true ∈ s)
    (hpost : ∃ j, k < j ∧ j < s.length ∧ s.getD j false = false) :
    (twoThreadBirths (V.zip s) ⊥ ((V.getD k 0 : ℤ) : F)).count
      ((V.getD k 0 : ℤ) : F) = 2 := by
  rw [count_eq_length_indicesWhere, twoB_indicesWhere_ck hs hlen hpre htrue hpost]
  rfl

theorem twoB_count_bot {V : List ℤ} {s : List Bool} {k : Nat}
    (hlen : s.length = V.length) (hN : 0 < V.length)
    (hpre0 : s.getD 0 false = false) :
    (twoThreadBirths (V.zip s) ⊥ ((V.getD k 0 : ℤ) : F)).count (⊥ : F) = 1 := by
  rw [count_eq_length_indicesWhere, twoB_indicesWhere_bot hlen hN hpre0]
  rfl

theorem twoB_count_le_one {V : List ℤ} {s : List Bool} {k : Nat}
    (hs : V.Pairwise (· < ·)) (hlen : s.length = V.length) (hk : k < V.length)
    {a : Nat} (ha : a < V.length) (hak : a ≠ k) :
    (twoThreadBirths (V.zip s) ⊥ ((V.getD k 0 : ℤ) : F)).count
      ((V.getD a 0 : ℤ) : F) ≤ 1 := by
  rw [count_eq_length_indicesWhere]
  by_contra h
  have h2 : 2 ≤ (indicesWhere (fun x => x == ((V.getD a 0 : ℤ) : F))
      (twoThreadBirths (V.zip s) ⊥ ((V.getD k 0 : ℤ) : F))).length := by omega
  obtain ⟨u1, u2, hu1, hu2, h12⟩ := pairwise_lt_two_mem (indicesWhere_sorted _ _) h2
  obtain ⟨hl1, hp1⟩ := (mem_indicesWhere _ ⊥ _ u1).mp hu1
  obtain ⟨hl2, hp2⟩ := (mem_indicesWhere _ ⊥ _ u2).mp hu2
  rw [twoThreadBirths_length, List.length_zip] at hl1 hl2
  have hu1V : u1 < V.length := by omega
  have hu2V : u2 < V.length := by omega
  rcases twoB_eq_coe_cases hs hlen hk hu1V ha (eq_of_beq hp1) with hc1 | hc1
  · rcases twoB_eq_coe_cases hs hlen hk hu2V ha (eq_of_beq hp2) with hc2 | hc2
    · have hq1 := lastBefore_spec (by omega) hc1
      have hq2 := lastBefore_spec (by omega) hc2
      apply hq2.2.2 u1 hq1.1 h12
      rw [← hq1.2.1, ← hq2.2.1]
    · exact hak hc2.2.2
  · exact hak hc1.2.2

theorem twoB_mem_form {V : List ℤ} {s : List Bool} {k : Nat}
    (hlen : s.length = V.length) (hk : k < V.length) {c : F}
    (hc : c ∈ twoThreadBirths (V.zip s) ⊥ ((V.getD k 0 : ℤ) : F)) (hcb : c ≠ ⊥) :
    ∃ a, a < V.length ∧ c = ((V.getD a 0 : ℤ) : F) := by
  obtain ⟨u, hu, rfl⟩ := exists_getD_of_mem ⊥ hc
  rw [twoThreadBirths_length, List.length_zip] at hu
  have huV : u < V.length := by omega
  rw [twoThreadBirths_getD V s ⊥ _ u huV (by omega)] at hcb
  rw [twoThreadBirths_getD V s ⊥ _ u huV (by omega)]
  cases hL : lastBefore s (s.getD u false) u with
  | some i =>
    simp only [hL]
    refine ⟨i, ?_, rfl⟩
    have hspec := lastBefore_spec (show u ≤ s.length by omega) hL
    omega
  | none =>
    simp only [hL] at hcb ⊢
    cases hg : s.getD u false
    · exfalso
      rw [hg] at hcb
      simp at hcb
    · rw [if_pos (show (true : Bool) = true from rfl)]
      exact ⟨k, hk, rfl⟩

theorem count_filter_of_pos {α : Type} [DecidableEq α] {p : α → Bool} {a : α}
    (h : p a = true) : ∀ l : List α, (l.filter p).count a = l.count a := by
  intro l
  induction l with
  | nil => rfl
  | cons x t ih =>
    by_cases hx : p x = true
    · rw [List.filter_cons_of_pos hx, List.count_cons, List.count_cons, ih]
    · rw [List.filter_cons_of_neg (by simpa using hx), List.count_cons, ih]
      rw [show (x == a) = false from beq_eq_false_iff_ne.mpr
        (fun he => hx (by rw [he]; exact h))]
      simp

theorem twoThreadRows_length {V : List ℤ} {s : List Bool} {k : Nat}
    (hlen : s.length = V.length) :
    (twoThreadRows V s k).length = V.length := by
  unfold twoThreadRows
  rw [List.length_map, List.length_zip, List.length_map, twoThreadBirths_length,
    List.length_zip]
  omega

theorem twoThreadRows_map_rowLogl {V : List ℤ} {s : List Bool} {k : Nat}
    (hlen : s.length = V.length) :
    (twoThreadRows V s k).map rowLogl = V.map (fun x : ℤ => (x : F)) := by
  unfold twoThreadRows
  rw [List.map_map]
  rw [show (rowLogl ∘ fun p : F × F => [0, p.1, p.2]) = Prod.fst from
    funext (fun p => rowLogl_triple 0 p.1 p.2)]
  apply List.map_fst_zip
  rw [List.length_map, twoThreadBirths_length, List.length_zip]
  omega

theorem twoThreadRows_map_rowBirth {V : List ℤ} {s : List Bool} {k : Nat}
    (hlen : s.length = V.length) :
    (twoThreadRows V s k).map rowBirth =
      twoThreadBirths (V.zip s) ⊥ ((V.getD k 0 : ℤ) : F) := by
  unfold twoThreadRows
  rw [List.map_map]
  rw [show (rowBirth ∘ fun p : F × F => [0, p.1, p.2]) = Prod.snd from
    funext (fun p => rowBirth_triple 0 p.1 p.2)]
  apply List.map_snd_zip
  rw [List.length_map, twoThreadBirths_length, List.length_zip]
  omega

theorem twoThreadRows_map_rowTheta {V : List ℤ} {s : List Bool} {k : Nat}
    (hlen : s.length = V.length) :
    (twoThreadRows V s k).map rowTheta = List.replicate V.length [(0 : F)] := by
  unfold twoThreadRows
  rw [List.map_map]
  rw [show (rowTheta ∘ fun p : F × F => [0, p.1, p.2]) = fun p : F × F => [(0 : F)] from
    funext (fun p => rowTheta_triple 0 p.1 p.2)]
  rw [List.map_const']
  rw [List.length_zip, List.length_map, twoThreadBirths_length, List.length_zip]
  congr 1
  omega

theorem twoT_logl_nodup {V : List ℤ} (hs : V.Pairwise (· < ·)) :
    (V.map (fun x : ℤ => (x : F))).Nodup := by
  have hVnodup : V.Nodup := hs.imp ne_of_lt
  exact hVnodup.map (fun a b h => by exact_mod_cast h)

theorem twoT_logl_count {V : List ℤ} (hs : V.Pairwise (· < ·)) {a : Nat}
    (ha : a < V.length) :
    (V.map (fun x : ℤ => (x : F))).count ((V.getD a 0 : ℤ) : F) = 1 :=
  count_eq_one_of_nodup_mem (twoT_logl_nodup hs)
    (List.mem_map.mpr ⟨V.getD a 0, getD_mem 0 ha, rfl⟩)

theorem twoT_logl_getD {V : List ℤ} {j : Nat} (hj : j < V.length) :
    (V.map (fun x : ℤ => (x : F))).getD j ⊥ = ((V.getD j 0 : ℤ) : F) :=
  getD_map _ _ j 0 ⊥ hj

theorem sortRows_twoThreadRows {V : List ℤ} {s : List Bool} {k : Nat}
    (hs : V.Pairwise (· < ·)) (hlen : s.length = V.length) :
    sortRows (twoThreadRows V s k) = twoThreadRows V s k := by
  apply sortRows_eq_of_perm (List.Perm.refl _)
  · have h1 : ((twoThreadRows V s k).map rowLogl).Pairwise (fun a b : F => a ≤ b) := by
      rw [twoThreadRows_map_rowLogl hlen, List.pairwise_map]
      exact hs.imp (fun h => by exact_mod_cast le_of_lt h)
    rw [List.pairwise_map] at h1
    exact h1
  · rw [twoThreadRows_map_rowLogl hlen]
    exact twoT_logl_nodup hs

theorem twoB_initBirth {V : List ℤ} {s : List Bool} {k : Nat}
    (hlen : s.length = V.length) (hN : 0 < V.length) (hpre0 : s.getD 0 false = false) :
    initBirth (twoThreadBirths (V.zip s) ⊥ ((V.getD k 0 : ℤ) : F)) = (⊥ : F) := by
  unfold initBirth
  rw [headD_eq_getD_zero]
  exact twoB_getD_zero hN (by omega) hpre0

theorem twoB_nonInitBirths {V : List ℤ} {s : List Bool} {k : Nat}
    (hlen : s.length = V.length) (hN : 0 < V.length) (hpre0 : s.getD 0 false = false) :
    nonInitBirths (twoThreadBirths (V.zip s) ⊥ ((V.getD k 0 : ℤ) : F)) =
      (twoThreadBirths (V.zip s) ⊥ ((V.getD k 0 : ℤ) : F)).filter
        (fun b => ¬ b == (⊥ : F)) := by
  unfold nonInitBirths
  rw [twoB_initBirth hlen hN hpre0]

theorem twoB_count_ck_nonInit {V : List ℤ} {s : List Bool} {k : Nat}
    (hs : V.Pairwise (· < ·)) (hlen : s.length = V.length)
    (hpre : ∀ i, i ≤ k → s.getD i false = false) (htrue : true ∈ s)
    (hpost : ∃ j, k < j ∧ j < s.length ∧ s.getD j false = false) :
    (nonInitBirths (twoThreadBirths (V.zip s) ⊥ ((V.getD k 0 : ℤ) : F))).count
      ((V.getD k 0 : ℤ) : F) = 2 := by
  have hnf := nextFalse_spec hpost
  have hN : 0 < V.length := by omega
  rw [twoB_nonInitBirths hlen hN (hpre 0 (Nat.zero_le k)),
    count_filter_of_pos (by simp), twoB_count_ck hs hlen hpre htrue hpost]

theorem twoB_multiStartContours {V : List ℤ} {s : List Bool} {k : Nat}
    (hs : V.Pairwise (· < ·)) (hlen : s.length = V.length)
    (hpre : ∀ i, i ≤ k → s.getD i false = false) (htrue : true ∈ s)
    (hpost : ∃ j, k < j ∧ j < s.length ∧ s.getD j false = false) :
    multiStartContours (twoThreadBirths (V.zip s) ⊥ ((V.getD k 0 : ℤ) : F)) =
      [((V.getD k 0 : ℤ) : F)] := by
  have hnf := nextFalse_spec hpost
  have hN : 0 < V.length := by omega
  have hpre0 := hpre 0 (Nat.zero_le k)
  have hk : k < V.length := by omega
  unfold multiStartContours
  rw [twoB_nonInitBirths hlen hN hpre0]
  apply nodup_all_eq_singleton
  · exact (uniqueSorted_nodup _).filter _
  · intro c hc
    have hcnt : 1 < ((twoThreadBirths (V.zip s) ⊥ ((V.getD k 0 : ℤ) : F)).filter
        (fun b => ¬ b == (⊥ : F))).count c := by
      have := List.of_mem_filter hc
      simpa using this
    have hcmemN := mem_uniqueSorted.mp (List.mem_of_mem_filter hc)
    have hcmemB := List.mem_of_mem_filter hcmemN
    have hcb : c ≠ ⊥ := by
      have := List.of_mem_filter hcmemN
      simpa using this
    obtain ⟨a, ha, rfl⟩ := twoB_mem_form hlen hk hcmemB hcb
    by_cases hak : a = k
    · rw [hak]
    · exfalso
      have h1 : ((twoThreadBirths (V.zip s) ⊥ ((V.getD k 0 : ℤ) : F)).filter
          (fun b => ¬ b == (⊥ : F))).count ((V.getD a 0 : ℤ) : F) ≤
          (twoThreadBirths (V.zip s) ⊥ ((V.getD k 0 : ℤ) : F)).count
            ((V.getD a 0 : ℤ) : F) :=
        (List.filter_sublist _).count_le _
      have h2 := twoB_count_le_one hs hlen hk ha hak
      omega
  · apply List.mem_filter.mpr
    constructor
    · apply mem_uniqueSorted.mpr
      apply List.mem_filter.mpr
      refine ⟨?_, by simp⟩
      have hm := @getD_mem F (twoThreadBirths (V.zip s) ⊥ ((V.getD k 0 : ℤ) : F))
        (nextFalse s k) ⊥ (by
          rw [twoThreadBirths_length, List.length_zip]
          have h5 := hnf.2.1
          omega)
      rw [twoB_getD_nextFalse hlen hpre hpost] at hm
      exact hm
    · rw [show ((twoThreadBirths (V.zip s) ⊥ ((V.getD k 0 : ℤ) : F)).filter
          (fun b => ¬ b == (⊥ : F))).count ((V.getD k 0 : ℤ) : F) = 2 from by
        rw [count_filter_of_pos (by simp)]
        exact twoB_count_ck hs hlen hpre htrue hpost]
      decide

theorem twoB_startTotal {V : List ℤ} {s : List Bool} {k : Nat}
    (hs : V.Pairwise (· < ·)) (hlen : s.length = V.length)
    (hpre : ∀ i, i ≤ k → s.getD i false = false) (htrue : true ∈ s)
    (hpost : ∃ j, k < j ∧ j < s.length ∧ s.getD j false = false) :
    startTotal (twoThreadBirths (V.zip s) ⊥ ((V.getD k 0 : ℤ) : F)) = 2 := by
  have hnf := nextFalse_spec hpost
  have hN : 0 < V.length := by omega
  have hpre0 := hpre 0 (Nat.zero_le k)
  unfold startTotal
  rw [twoB_initBirth hlen hN hpre0, twoB_multiStartContours hs hlen hpre htrue hpost,
    twoB_count_bot hlen hN hpre0, List.map_cons, List.map_nil,
    twoB_count_ck_nonInit hs hlen hpre htrue hpost]
  rfl

theorem twoB_birthsOK {V : List ℤ} {s : List Bool} {k : Nat}
    (hs : V.Pairwise (· < ·)) (hlen : s.length = V.length)
    (hpre : ∀ i, i ≤ k → s.getD i false = false) (htrue : true ∈ s)
    (hpost : ∃ j, k < j ∧ j < s.length ∧ s.getD j false = false) :
    birthsOK (V.map (fun x : ℤ => (x : F)))
      (twoThreadBirths (V.zip s) ⊥ ((V.getD k 0 : ℤ) : F)) = true := by
  have hnf := nextFalse_spec hpost
  have hN : 0 < V.length := by omega
  have hk : k < V.length := by omega
  have hpre0 := hpre 0 (Nat.zero_le k)
  have hkft := k_lt_firstTrue htrue hpre
  unfold birthsOK
  rw [twoB_initBirth hlen hN hpre0]
  rw [all_zip_iff_getD _ ⊥ ⊥]
  intro i hi1 hi2
  rw [twoThreadBirths_length, List.length_zip] at hi1
  have hiV : i < V.length := by omega
  rw [twoT_logl_getD hiV]
  rw [twoThreadBirths_getD V s ⊥ _ i hiV (by omega)]
  cases hL : lastBefore s (s.getD i false) i with
  | some a =>
    simp only [hL]
    have hspec := lastBefore_spec (show i ≤ s.length by omega) hL
    have hlt := sorted_getD_lt hs hspec.1 hiV
    simp only [Bool.and_eq_true, Bool.or_eq_true, decide_eq_true_eq, beq_iff_eq]
    exact ⟨by exact_mod_cast hlt, Or.inr (twoT_logl_count hs (by omega))⟩
  | none =>
    simp only [hL]
    cases hg : s.getD i false
    · rw [if_neg (by exact Bool.false_ne_true)]
      simp only [Bool.and_eq_true, Bool.or_eq_true, decide_eq_true_eq, beq_iff_eq]
      exact ⟨WithBot.bot_lt_coe _, Or.inl (by simp)⟩
    · rw [if_pos rfl]
      have hik : k < i := by
        rw [eq_firstTrue_of htrue hg (by rw [hg] at hL; exact hL)]
        exact hkft
      have hlt := sorted_getD_lt hs hik hiV
      simp only [Bool.and_eq_true, Bool.or_eq_true, decide_eq_true_eq, beq_iff_eq]
      exact ⟨by exact_mod_cast hlt, Or.inr (twoT_logl_count hs hk)⟩

theorem twoB_findIdx_ck {V : List ℤ} {s : List Bool} {k : Nat}
    (hs : V.Pairwise (· < ·)) (hlen : s.length = V.length)
    (hpre : ∀ i, i ≤ k → s.getD i false = false) (htrue : true ∈ s)
    (hpost : ∃ j, k < j ∧ j < s.length ∧ s.getD j false = false) :
    (twoThreadBirths (V.zip s) ⊥ ((V.getD k 0 : ℤ) : F)).findIdx?
      (fun x => x == ((V.getD k 0 : ℤ) : F)) =
      some (min (nextFalse s k) (firstTrue s)) := by
  have hnf := nextFalse_spec hpost
  have hft := firstTrue_spec htrue
  have hiw := twoB_indicesWhere_ck hs hlen hpre htrue hpost
  apply findIdx?_eq_some_of ⊥
  · rw [twoThreadBirths_length, List.length_zip]
    omega
  · rcases Nat.lt_or_ge (nextFalse s k) (firstTrue s) with hl | hg
    · rw [min_eq_left (le_of_lt hl), twoB_getD_nextFalse hlen hpre hpost]
      exact beq_self_eq_true _
    · rw [min_eq_right hg, twoB_getD_firstTrue hlen htrue]
      exact beq_self_eq_true _
  · intro u hu
    rw [beq_eq_false_iff_ne]
    intro hequ
    have humem : u ∈ indicesWhere (fun x => x == ((V.getD k 0 : ℤ) : F))
        (twoThreadBirths (V.zip s) ⊥ ((V.getD k 0 : ℤ) : F)) := by
      apply (mem_indicesWhere _ ⊥ _ u).mpr
      refine ⟨?_, by rw [hequ]; exact beq_self_eq_true _⟩
      rw [twoThreadBirths_length, List.length_zip]
      omega
    rw [hiw] at humem
    rcases List.mem_cons.mp humem with h1 | h1
    · omega
    · rcases List.mem_cons.mp h1 with h2 | h2
      · omega
      · cases h2

theorem sideAfter_sorted (s : List Bool) (b : Bool) (k : Nat) :
    (sideAfter s b k).Pairwise (· < ·) :=
  (indicesWhere_sorted _ s).filter _

theorem mem_sideAfter {s : List Bool} {b : Bool} {k u : Nat} :
    u ∈ sideAfter s b k ↔ u < s.length ∧ s.getD u false = b ∧ k < u := by
  unfold sideAfter
  rw [List.mem_filter, mem_indicesWhere _ false]
  constructor
  · rintro ⟨⟨h1, h2⟩, h3⟩
    exact ⟨h1, eq_of_beq h2, by simpa using h3⟩
  · rintro ⟨h1, h2, h3⟩
    exact ⟨⟨h1, by rw [h2]; exact beq_self_eq_true b⟩, by simpa using h3⟩

theorem sideAfter_b0_head {s : List Bool} {k : Nat}
    (hpre : ∀ i, i ≤ k → s.getD i false = false) (htrue : true ∈ s)
    (hpost : ∃ j, k < j ∧ j < s.length ∧ s.getD j false = false) :
    (sideAfter s (contSide s k) k).head? =
      some (min (nextFalse s k) (firstTrue s)) := by
  have hnf := nextFalse_spec hpost
  have hft := firstTrue_spec htrue
  have hkft := k_lt_firstTrue htrue hpre
  apply head?_eq_of_min (sideAfter_sorted s (contSide s k) k)
  · exact mem_sideAfter.mpr ⟨by omega, rfl, by omega⟩
  · intro x hx
    obtain ⟨hx1, hx2, hx3⟩ := mem_sideAfter.mp hx
    by_contra hlt
    push_neg at hlt
    have h1 := hnf.2.2.2 x hx3 (by omega)
    have h2 := hft.2.2 x (by omega)
    rw [h1] at h2
    exact Bool.noConfusion h2

theorem no_b1_between {s : List Bool} {k : Nat}
    (hpre : ∀ i, i ≤ k → s.getD i false = false) (htrue : true ∈ s)
    (hpost : ∃ j, k < j ∧ j < s.length ∧ s.getD j false = false) :
    ∀ x, k < x → x < max (nextFalse s k) (firstTrue s) →
      s.getD x false ≠ (!contSide s k) := by
  intro x hkx hx hxb
  have hnf := nextFalse_spec hpost
  have hft := firstTrue_spec htrue
  have hne := nfk_ne_ft htrue hpost
  rcases Nat.lt_trichotomy x (min (nextFalse s k) (firstTrue s)) with hl | he | hl
  · have h1 := hnf.2.2.2 x hkx (by omega)
    have h2 := hft.2.2 x (by omega)
    rw [h1] at h2
    exact Bool.noConfusion h2
  · rw [he] at hxb
    have h2 : contSide s k = !contSide s k := hxb
    simp at h2
  · rcases Nat.lt_or_ge (nextFalse s k) (firstTrue s) with hcase | hcase
    · have h2 := hft.2.2 x (by omega)
      have hb0 : contSide s k = false := by
        unfold contSide
        rw [min_eq_left (le_of_lt hcase)]
        exact hnf.2.2.1
      rw [h2, hb0] at hxb
      exact Bool.noConfusion hxb
    · have hlt2 : firstTrue s < nextFalse s k := by omega
      have h2 := hnf.2.2.2 x hkx (by omega)
      have hb0 : contSide s k = true := by
        unfold contSide
        rw [min_eq_right (le_of_lt hlt2)]
        exact hft.2.1
      rw [h2, hb0] at hxb
      exact Bool.noConfusion hxb

theorem sideAfter_b1_head {s : List Bool} {k : Nat}
    (hpre : ∀ i, i ≤ k → s.getD i false = false) (htrue : true ∈ s)
    (hpost : ∃ j, k < j ∧ j < s.length ∧ s.getD j false = false) :
    (sideAfter s (!contSide s k) k).head? =
      some (max (nextFalse s k) (firstTrue s)) := by
  have hnf := nextFalse_spec hpost
  have hft := firstTrue_spec htrue
  have hkft := k_lt_firstTrue htrue hpre
  apply head?_eq_of_min (sideAfter_sorted s (!contSide s k) k)
  · exact mem_sideAfter.mpr ⟨by omega, side_max htrue hpost, by omega⟩
  · intro x hx
    obtain ⟨hx1, hx2, hx3⟩ := mem_sideAfter.mp hx
    by_contra hlt
    push_neg at hlt
    exact no_b1_between hpre htrue hpost x hx3 hlt hx2

theorem sideAfter_getLast {s : List Bool} {b : Bool} {k i : Nat}
    (hi : i ∈ sideAfter s b k) :
    (sideAfter s b k).getLast? = some (sideLast s b) := by
  obtain ⟨hi1, hi2, hi3⟩ := mem_sideAfter.mp hi
  have hsl := sideLast_spec hi1 hi2
  apply getLast?_eq_of_max (sideAfter_sorted s b k)
  · apply mem_sideAfter.mpr
    refine ⟨hsl.1, hsl.2.1, ?_⟩
    have := hsl.2.2.1
    omega
  · intro x hx
    obtain ⟨hx1, hx2, hx3⟩ := mem_sideAfter.mp hx
    by_contra hgt
    push_neg at hgt
    exact hsl.2.2.2 x (by omega) hx1 hx2

theorem getLastD_append_right {α : Type} (l₁ : List α) {l₂ : List α} {m : α} (d : α)
    (h : l₂.getLast? = some m) : (l₁ ++ l₂).getLastD d = m := by
  rw [List.getLastD_eq_getLast?, List.getLast?_append, h]
  rfl

theorem path0_pairwise {s : List Bool} {k : Nat} :
    (((List.range k).map (fun i => i + 1)) ++ sideAfter s (contSide s k) k).Pairwise
      (· < ·) := by
  apply List.pairwise_append.mpr
  refine ⟨?_, sideAfter_sorted s _ k, ?_⟩
  · rw [List.pairwise_map]
    exact (List.pairwise_lt_range k).imp (by omega)
  · intro x hx y hy
    obtain ⟨i, hi, rfl⟩ := List.mem_map.mp hx
    have h1 := mem_sideAfter.mp hy
    have h2 := List.mem_range.mp hi
    omega

theorem mem_path0 {s : List Bool} {k : Nat} {x : Nat} :
    (x ∈ ((List.range k).map (fun i => i + 1)) ++ sideAfter s (contSide s k) k) ↔
      ((1 ≤ x ∧ x ≤ k) ∨
        (x < s.length ∧ s.getD x false = contSide s k ∧ k < x)) := by
  rw [List.mem_append, List.mem_map]
  constructor
  · rintro (⟨i, hi, rfl⟩ | h)
    · have := List.mem_range.mp hi
      exact Or.inl ⟨by omega, by omega⟩
    · exact Or.inr (mem_sideAfter.mp h)
  · rintro (⟨h1, h2⟩ | h)
    · exact Or.inl ⟨x - 1, List.mem_range.mpr (by omega), by omega⟩
    · exact Or.inr (mem_sideAfter.mpr h)

theorem twoT_walk0 {V : List ℤ} {s : List Bool} {k : Nat}
    (hs : V.Pairwise (· < ·)) (hlen : s.length = V.length)
    (hpre : ∀ i, i ≤ k → s.getD i false = false) (htrue : true ∈ s)
    (hpost : ∃ j, k < j ∧ j < s.length ∧ s.getD j false = false) :
    walkChain (V.map (fun x : ℤ => (x : F)))
      (twoThreadBirths (V.zip s) ⊥ ((V.getD k 0 : ℤ) : F)) 0 (V.length + 1)
      ((List.replicate V.length (none : Option Nat)).set 0 (some 0)) 0 =
      some ((((List.range k).map (fun i => i + 1)) ++
          sideAfter s (contSide s k) k).foldl
        (fun ls b => ls.set b (some 0))
        ((List.replicate V.length (none : Option Nat)).set 0 (some 0))) := by
  have hnf := nextFalse_spec hpost
  have hft := firstTrue_spec htrue
  have hkft := k_lt_firstTrue htrue hpre
  have hkV : k < V.length := by omega
  have hminS : min (nextFalse s k) (firstTrue s) < s.length := by omega
  have hmn_mem : min (nextFalse s k) (firstTrue s) ∈ sideAfter s (contSide s k) k :=
    mem_sideAfter.mpr ⟨hminS, rfl, by omega⟩
  have hsl := @sideLast_spec s (contSide s k)
    (min (nextFalse s k) (firstTrue s)) hminS rfl
  have hpathlt : ∀ x ∈ ((List.range k).map (fun i => i + 1)) ++
      sideAfter s (contSide s k) k, x < V.length := by
    intro x hx
    rcases mem_path0.mp hx with h | h
    · omega
    · omega
  have hpathnd : (((List.range k).map (fun i => i + 1)) ++
      sideAfter s (contSide s k) k).Nodup :=
    path0_pairwise.imp ne_of_lt
  apply walkChain_path
  · have := length_le_of_nodup_lt hpathnd hpathlt
    omega
  · apply chain'_of_sorted_complete (l := 0 ::
      (((List.range k).map (fun i => i + 1)) ++ sideAfter s (contSide s k) k))
      (List.pairwise_cons.mpr ⟨?_, path0_pairwise⟩)
      (P := fun x => x < s.length ∧ (x ≤ k ∨ s.getD x false = contSide s k))
      ?_ ?_
    · intro y hy
      rcases mem_path0.mp hy with h | h
      · omega
      · omega
    · intro x
      rw [List.mem_cons, mem_path0]
      constructor
      · rintro (rfl | ⟨h1, h2⟩ | ⟨h1, h2, h3⟩)
        · exact ⟨by omega, Or.inl (Nat.zero_le k)⟩
        · exact ⟨by omega, Or.inl h2⟩
        · exact ⟨h1, Or.inr h2⟩
      · rintro ⟨h1, h2 | h2⟩
        · by_cases h0 : x = 0
          · exact Or.inl h0
          · exact Or.inr (Or.inl ⟨by omega, h2⟩)
        · by_cases hxk : x ≤ k
          · by_cases h0 : x = 0
            · exact Or.inl h0
            · exact Or.inr (Or.inl ⟨by omega, hxk⟩)
          · exact Or.inr (Or.inr ⟨h1, h2, by omega⟩)
    · intro a b hPa hPb hab hno
      obtain ⟨haS, hcasea⟩ := hPa
      obtain ⟨hbS, hcaseb⟩ := hPb
      have haV : a < V.length := by omega
      have hbV : b < V.length := by omega
      rw [twoT_logl_getD haV]
      rcases Nat.lt_trichotomy a k with hak | hak | hak
      · have hb : b = a + 1 := by
          by_contra hne2
          exact hno (a + 1) (by omega) (by omega) ⟨by omega, Or.inl (by omega)⟩
        subst hb
        apply twoB_findIdx_next hs hlen hkV haV (by omega) (by omega) (by omega)
        · rw [hpre a (by omega), hpre (a + 1) (by omega)]
        · intro u h1 h2
          exact absurd h1 (by omega)
      · subst hak
        have hb : b = min (nextFalse s a) (firstTrue s) := by
          rcases Nat.lt_trichotomy b (min (nextFalse s a) (firstTrue s)) with hl | he | hl
          · exfalso
            rcases hcaseb with hbk | hbs
            · omega
            · have h1 := hnf.2.2.2 b hab (by omega)
              have h2 := hft.2.2 b (by omega)
              rw [h1] at h2
              exact Bool.noConfusion h2
          · exact he
          · exact absurd (hno (min (nextFalse s a) (firstTrue s)) (by omega) hl
              ⟨hminS, Or.inr rfl⟩) (fun h => h)
        subst hb
        exact twoB_findIdx_ck hs hlen hpre htrue hpost
      · have hsa : s.getD a false = contSide s k := by
          rcases hcasea with h | h
          · exact absurd h (by omega)
          · exact h
        have hsb : s.getD b false = contSide s k := by
          rcases hcaseb with h | h
          · exact absurd h (by omega)
          · exact h
        apply twoB_findIdx_next hs hlen hkV haV hbV hab (by omega)
        · rw [hsa, hsb]
        · intro u h1 h2 hu
          rw [hsa] at hu
          exact hno u h1 h2 ⟨by omega, Or.inr hu⟩
  · rw [getLastD_append_right _ 0 (sideAfter_getLast hmn_mem)]
    have hd0V : sideLast s (contSide s k) < V.length := by
      have := hsl.1
      omega
    rw [twoT_logl_getD hd0V]
    apply twoB_findIdx_none hs hlen hkV hd0V (by
      have := hsl.2.2.1
      omega)
    intro u hu huV
    rw [hsl.2.1]
    exact hsl.2.2.2 u hu (by omega)
  · intro b hb
    rw [List.length_set, List.length_replicate]
    exact hpathlt b hb
  · intro b hb
    have hb0 : b ≠ 0 := by
      rcases mem_path0.mp hb with h | h
      · omega
      · omega
    rw [getD_set_ne _ _ _ (fun h => hb0 h.symm),
      getD_replicate _ _ _ _ (hpathlt b hb)]
  · exact hpathnd

theorem twoT_labels0_getD {V : List ℤ} {s : List Bool} {k : Nat}
    (hlen : s.length = V.length) (hk : k < s.length) {i : Nat} (hi : i < V.length) :
    ((((List.range k).map (fun i => i + 1)) ++ sideAfter s (contSide s k) k).foldl
        (fun (ls : List (Option Nat)) b => ls.set b (some 0))
        ((List.replicate V.length (none : Option Nat)).set 0 (some 0))).getD i none =
      if i ≤ k ∨ (s.getD i false = contSide s k ∧ k < i) then some 0 else none := by
  rw [foldl_set_getD _ _ _ _ i (by rw [List.length_set, List.length_replicate]; exact hi)]
  by_cases hc : i ≤ k ∨ (s.getD i false = contSide s k ∧ k < i)
  · rw [if_pos hc]
    by_cases h0 : i = 0
    · subst h0
      by_cases hmem : (0 : Nat) ∈ ((List.range k).map (fun i => i + 1)) ++
          sideAfter s (contSide s k) k
      · rw [if_pos hmem]
      · rw [if_neg hmem,
          getD_set_self _ _ _ _ (by rw [List.length_replicate]; exact hi)]
    · have hmem : i ∈ ((List.range k).map (fun i => i + 1)) ++
          sideAfter s (contSide s k) k := by
        apply mem_path0.mpr
        rcases hc with h | h
        · exact Or.inl ⟨by omega, h⟩
        · exact Or.inr ⟨by omega, h.1, h.2⟩
      rw [if_pos hmem]
  · rw [if_neg hc]
    have hmem : ¬ i ∈ ((List.range k).map (fun i => i + 1)) ++
        sideAfter s (contSide s k) k := by
      intro h
      rcases mem_path0.mp h with h | h
      · exact hc (Or.inl h.2)
      · exact hc (Or.inr ⟨h.2.1, h.2.2⟩)
    rw [if_neg hmem, getD_set_ne _ _ _ (fun h => hc (Or.inl (by omega))),
      getD_replicate _ _ _ _ hi]

theorem twoT_walk1 {V : List ℤ} {s : List Bool} {k : Nat}
    (hs : V.Pairwise (· < ·)) (hlen : s.length = V.length)
    (hpre : ∀ i, i ≤ k → s.getD i false = false) (htrue : true ∈ s)
    (hpost : ∃ j, k < j ∧ j < s.length ∧ s.getD j false = false)
    {t : List Nat}
    (ht : sideAfter s (!contSide s k) k = max (nextFalse s k) (firstTrue s) :: t) :
    walkChain (V.map (fun x : ℤ => (x : F)))
      (twoThreadBirths (V.zip s) ⊥ ((V.getD k 0 : ℤ) : F)) 1 (V.length + 1)
      (((((List.range k).map (fun i => i + 1)) ++ sideAfter s (contSide s k) k).foldl
          (fun (ls : List (Option Nat)) b => ls.set b (some 0))
          ((List.replicate V.length (none : Option Nat)).set 0 (some 0))).set
        (max (nextFalse s k) (firstTrue s)) (some 1))
      (max (nextFalse s k) (firstTrue s)) =
      some (t.foldl (fun (ls : List (Option Nat)) b => ls.set b (some 1))
        (((((List.range k).map (fun i => i + 1)) ++ sideAfter s (contSide s k) k).foldl
            (fun (ls : List (Option Nat)) b => ls.set b (some 0))
            ((List.replicate V.length (none : Option Nat)).set 0 (some 0))).set
          (max (nextFalse s k) (firstTrue s)) (some 1))) := by
  have hnf := nextFalse_spec hpost
  have hft := firstTrue_spec htrue
  have hkft := k_lt_firstTrue htrue hpre
  have hkV : k < V.length := by omega
  have hkS : k < s.length := by omega
  have hmxS : max (nextFalse s k) (firstTrue s) < s.length := by omega
  have hmxk : k < max (nextFalse s k) (firstTrue s) := by omega
  have hsa_pw : (sideAfter s (!contSide s k) k).Pairwise (· < ·) :=
    sideAfter_sorted s (!contSide s k) k
  have hmemt : ∀ x ∈ t, x < s.length ∧ s.getD x false = !contSide s k ∧ k < x ∧
      max (nextFalse s k) (firstTrue s) < x := by
    intro x hx
    have hmem := mem_sideAfter.mp
      (show x ∈ sideAfter s (!contSide s k) k from by
        rw [ht]
        exact List.mem_cons_of_mem _ hx)
    have hpw := hsa_pw
    rw [ht] at hpw
    exact ⟨hmem.1, hmem.2.1, hmem.2.2, List.rel_of_pairwise_cons hpw hx⟩
  have hsl1 := @sideLast_spec s (!contSide s k) (max (nextFalse s k) (firstTrue s))
    hmxS (side_max htrue hpost)
  have htnd : t.Nodup := by
    have hpw := hsa_pw
    rw [ht] at hpw
    exact ((List.pairwise_cons.mp hpw).2).imp ne_of_lt
  apply walkChain_path
  · have h1 : t.length ≤ V.length := length_le_of_nodup_lt htnd (fun x hx => by
      have := (hmemt x hx).1
      omega)
    omega
  · have hchain : List.Chain' (fun a b =>
        (twoThreadBirths (V.zip s) ⊥ ((V.getD k 0 : ℤ) : F)).findIdx?
          (fun x => x == (V.map (fun x : ℤ => (x : F))).getD a ⊥) = some b)
        (sideAfter s (!contSide s k) k) := by
      apply chain'_of_sorted_complete hsa_pw
        (P := fun x => x < s.length ∧ s.getD x false = !contSide s k ∧ k < x)
        (fun x => mem_sideAfter)
      intro a b hPa hPb hab hno
      obtain ⟨haS, hsa2, hka⟩ := hPa
      obtain ⟨hbS, hsb2, hkb⟩ := hPb
      have haV : a < V.length := by omega
      have hbV : b < V.length := by omega
      rw [twoT_logl_getD haV]
      apply twoB_findIdx_next hs hlen hkV haV hbV hab (by omega)
      · rw [hsa2, hsb2]
      · intro u h1 h2 hu
        rw [hsa2] at hu
        exact hno u h1 h2 ⟨by omega, hu, by omega⟩
    rw [ht] at hchain
    exact hchain
  · have hlastT : t.getLastD (max (nextFalse s k) (firstTrue s)) =
        sideLast s (!contSide s k) := by
      have hgl := sideAfter_getLast (show max (nextFalse s k) (firstTrue s) ∈
          sideAfter s (!contSide s k) k from by
        rw [ht]
        exact List.mem_cons_self _ _)
      rw [ht] at hgl
      rw [show (max (nextFalse s k) (firstTrue s) :: t).getLast? =
          some (t.getLast?.getD (max (nextFalse s k) (firstTrue s))) from
        List.getLast?_cons] at hgl
      rw [List.getLastD_eq_getLast?]
      exact Option.some_injective _ hgl
    rw [hlastT]
    have hd1V : sideLast s (!contSide s k) < V.length := by
      have := hsl1.1
      omega
    rw [twoT_logl_getD hd1V]
    apply twoB_findIdx_none hs hlen hkV hd1V (by
      have := hsl1.2.2.1
      omega)
    intro u hu huV
    rw [hsl1.2.1]
    exact hsl1.2.2.2 u hu (by omega)
  · intro b hb
    rw [List.length_set, foldl_set_length, List.length_set, List.length_replicate]
    have := (hmemt b hb).1
    omega
  · intro b hb
    obtain ⟨hbS, hb2, hb3, hb4⟩ := hmemt b hb
    rw [getD_set_ne _ _ _ (fun h => by omega),
      twoT_labels0_getD hlen hkS (by omega)]
    rw [if_neg (by
      rintro (h | h)
      · omega
      · rw [hb2] at h
        have h2 := h.1
        simp at h2)]
  · exact htnd

theorem twoT_labelsF_getD {V : List ℤ} {s : List Bool} {k : Nat}
    (hlen : s.length = V.length)
    (hpre : ∀ i, i ≤ k → s.getD i false = false) (htrue : true ∈ s)
    (hpost : ∃ j, k < j ∧ j < s.length ∧ s.getD j false = false)
    {t : List Nat}
    (ht : sideAfter s (!contSide s k) k = max (nextFalse s k) (firstTrue s) :: t)
    {i : Nat} (hi : i < V.length) :
    (t.foldl (fun (ls : List (Option Nat)) b => ls.set b (some 1))
        (((((List.range k).map (fun i => i + 1)) ++ sideAfter s (contSide s k) k).foldl
            (fun (ls : List (Option Nat)) b => ls.set b (some 0))
            ((List.replicate V.length (none : Option Nat)).set 0 (some 0))).set
          (max (nextFalse s k) (firstTrue s)) (some 1))).getD i none =
      some (if i ≤ k then 0 else if s.getD i false = contSide s k then 0 else 1) := by
  have hnf := nextFalse_spec hpost
  have hft := firstTrue_spec htrue
  have hkft := k_lt_firstTrue htrue hpre
  have hkS : k < s.length := by omega
  have hmxk : k < max (nextFalse s k) (firstTrue s) := by omega
  have hmemt : ∀ x ∈ t, x < s.length ∧ s.getD x false = !contSide s k ∧ k < x := by
    intro x hx
    have hmem := mem_sideAfter.mp
      (show x ∈ sideAfter s (!contSide s k) k from by
        rw [ht]
        exact List.mem_cons_of_mem _ hx)
    exact ⟨hmem.1, hmem.2.1, hmem.2.2⟩
  rw [foldl_set_getD _ _ _ _ i (by
    rw [List.length_set, foldl_set_length, List.length_set, List.length_replicate]
    exact hi)]
  by_cases hik : i ≤ k
  · rw [if_neg (fun h => by
      have := (hmemt i h).2.2
      omega)]
    rw [getD_set_ne _ _ _ (fun h => by omega),
      twoT_labels0_getD hlen hkS hi, if_pos (Or.inl hik), if_pos hik]
  · push_neg at hik
    by_cases hb0 : s.getD i false = contSide s k
    · rw [if_neg (fun h => by
        have h2 := (hmemt i h).2.1
        rw [hb0] at h2
        simp at h2)]
      rw [getD_set_ne _ _ _ (by
        intro h
        have h2 := side_max htrue hpost
        rw [h, hb0] at h2
        simp at h2)]
      rw [twoT_labels0_getD hlen hkS hi, if_pos (Or.inr ⟨hb0, hik⟩),
        if_neg (by omega), if_pos hb0]
    · have hib1 : s.getD i false = !contSide s k := by
        cases hsd : s.getD i false
        · cases hcs : contSide s k
          · exact absurd (show s.getD i false = contSide s k by rw [hsd, hcs]) hb0
          · rfl
        · cases hcs : contSide s k
          · rfl
          · exact absurd (show s.getD i false = contSide s k by rw [hsd, hcs]) hb0
      have himem : i ∈ sideAfter s (!contSide s k) k :=
        mem_sideAfter.mpr ⟨by omega, hib1, hik⟩
      rw [ht] at himem
      by_cases hti : i ∈ t
      · rw [if_pos hti, if_neg (by omega), if_neg hb0]
      · rw [if_neg hti]
        have he : i = max (nextFalse s k) (firstTrue s) := by
          rcases List.mem_cons.mp himem with he | h2
          · exact he
          · exact absurd h2 hti
        rw [he, getD_set_self _ _ _ _ (by
          rw [foldl_set_length, List.length_set, List.length_replicate]
          omega)]
        rw [if_neg (by omega), if_neg (by rw [← he]; exact hb0)]

theorem threads_twoThread {V : List ℤ} {s : List Bool} {k : Nat}
    (hs : V.Pairwise (· < ·)) (hlen : s.length = V.length)
    (hpre : ∀ i, i ≤ k → s.getD i false = false) (htrue : true ∈ s)
    (hpost : ∃ j, k < j ∧ j < s.length ∧ s.getD j false = false) :
    threads_given_birth_contours (V.map (fun x : ℤ => (x : F)))
      (twoThreadBirths (V.zip s) ⊥ ((V.getD k 0 : ℤ) : F)) =
      some ((List.range V.length).map
        (fun i => if i ≤ k then 0 else
          if s.getD i false = contSide s k then 0 else 1)) := by
  have hnf := nextFalse_spec hpost
  have hft := firstTrue_spec htrue
  have hkft := k_lt_firstTrue htrue hpre
  have hN : 0 < V.length := by omega
  have hkV : k < V.length := by omega
  have hkS : k < s.length := by omega
  have hpre0 := hpre 0 (Nat.zero_le k)
  have hmxS : max (nextFalse s k) (firstTrue s) < s.length := by omega
  have hmxk : k < max (nextFalse s k) (firstTrue s) := by omega
  obtain ⟨t, ht⟩ : ∃ t, sideAfter s (!contSide s k) k =
      max (nextFalse s k) (firstTrue s) :: t := by
    have hh := sideAfter_b1_head hpre htrue hpost
    cases hsa : sideAfter s (!contSide s k) k with
    | nil =>
      rw [hsa] at hh
      cases hh
    | cons x xs =>
      rw [hsa, List.head?_cons] at hh
      refine ⟨xs, ?_⟩
      injection hh with hx
      rw [hx]
  have hBlen : (twoThreadBirths (V.zip s) ⊥ ((V.getD k 0 : ℤ) : F)).length =
      V.length := by
    rw [twoThreadBirths_length, List.length_zip]
    omega
  have hLlen : (V.map (fun x : ℤ => (x : F))).length = V.length :=
    List.length_map _ _
  have hlab0len : ((((List.range k).map (fun i => i + 1)) ++
      sideAfter s (contSide s k) k).foldl
      (fun (ls : List (Option Nat)) b => ls.set b (some 0))
      ((List.replicate V.length (none : Option Nat)).set 0 (some 0))).length =
      V.length := by
    rw [foldl_set_length, List.length_set, List.length_replicate]
  unfold threads_given_birth_contours
  rw [if_neg (by
    intro h
    have h2 := congrArg List.length h
    rw [hBlen] at h2
    rw [List.length_nil] at h2
    omega)]
  rw [if_neg (by rw [hBlen, hLlen]; omega)]
  rw [if_neg (by rw [twoB_birthsOK hs hlen hpre htrue hpost]; exact fun h => h rfl)]
  have hassign0 : assignFrom (V.map (fun x : ℤ => (x : F)))
      (twoThreadBirths (V.zip s) ⊥ ((V.getD k 0 : ℤ) : F))
      (List.replicate V.length none) 0 0 =
      some ((((List.range k).map (fun i => i + 1)) ++
          sideAfter s (contSide s k) k).foldl
        (fun (ls : List (Option Nat)) b => ls.set b (some 0))
        ((List.replicate V.length (none : Option Nat)).set 0 (some 0))) := by
    unfold assignFrom
    rw [List.length_replicate]
    rw [if_pos hN]
    rw [show (List.replicate V.length (none : Option Nat)).getD 0 none = none from
      getD_replicate _ _ _ _ hN]
    exact twoT_walk0 hs hlen hpre htrue hpost
  have hproc1 : processContour (V.map (fun x : ℤ => (x : F)))
      (twoThreadBirths (V.zip s) ⊥ ((V.getD k 0 : ℤ) : F)) true (⊥ : F)
      (List.replicate V.length none, 0) =
      some ((((List.range k).map (fun i => i + 1)) ++
          sideAfter s (contSide s k) k).foldl
        (fun (ls : List (Option Nat)) b => ls.set b (some 0))
        ((List.replicate V.length (none : Option Nat)).set 0 (some 0)), 1) := by
    have h1 : processContour (V.map (fun x : ℤ => (x : F)))
        (twoThreadBirths (V.zip s) ⊥ ((V.getD k 0 : ℤ) : F)) true (⊥ : F)
        (List.replicate V.length none, 0) =
        (indicesWhere (fun b => b == (⊥ : F))
            (twoThreadBirths (V.zip s) ⊥ ((V.getD k 0 : ℤ) : F))).foldlM
          (fun (st : List (Option Nat) × Nat) idx =>
            (assignFrom (V.map (fun x : ℤ => (x : F)))
              (twoThreadBirths (V.zip s) ⊥ ((V.getD k 0 : ℤ) : F)) st.1 st.2 idx).map
              (fun ls => (ls, st.2 + 1)))
          (List.replicate V.length none, 0) := rfl
    rw [h1, twoB_indicesWhere_bot hlen hN hpre0]
    simp only [List.foldlM_cons, List.foldlM_nil, Option.bind_eq_bind, Option.some_bind,
      hassign0, Option.map_some']
    rfl
  have hassign1 : assignFrom (V.map (fun x : ℤ => (x : F)))
      (twoThreadBirths (V.zip s) ⊥ ((V.getD k 0 : ℤ) : F))
      ((((List.range k).map (fun i => i + 1)) ++ sideAfter s (contSide s k) k).foldl
        (fun (ls : List (Option Nat)) b => ls.set b (some 0))
        ((List.replicate V.length (none : Option Nat)).set 0 (some 0))) 1
      (max (nextFalse s k) (firstTrue s)) =
      some (t.foldl (fun (ls : List (Option Nat)) b => ls.set b (some 1))
        (((((List.range k).map (fun i => i + 1)) ++ sideAfter s (contSide s k) k).foldl
            (fun (ls : List (Option Nat)) b => ls.set b (some 0))
            ((List.replicate V.length (none : Option Nat)).set 0 (some 0))).set
          (max (nextFalse s k) (firstTrue s)) (some 1))) := by
    have hgd0 : ((((List.range k).map (fun i => i + 1)) ++
        sideAfter s (contSide s k) k).foldl
        (fun (ls : List (Option Nat)) b => ls.set b (some 0))
        ((List.replicate V.length (none : Option Nat)).set 0 (some 0))).getD
        (max (nextFalse s k) (firstTrue s)) none = none := by
      rw [@twoT_labels0_getD V s k hlen hkS (max (nextFalse s k) (firstTrue s))
        (by omega)]
      rw [if_neg (by
        rintro (h | h)
        · omega
        · have h2 := side_max htrue hpost
          rw [h.1] at h2
          simp at h2)]
    unfold assignFrom
    rw [hlab0len]
    rw [if_pos (by omega)]
    rw [hgd0]
    exact twoT_walk1 hs hlen hpre htrue hpost ht
  have hproc2 : processContour (V.map (fun x : ℤ => (x : F)))
      (twoThreadBirths (V.zip s) ⊥ ((V.getD k 0 : ℤ) : F)) false
      ((V.getD k 0 : ℤ) : F)
      ((((List.range k).map (fun i => i + 1)) ++ sideAfter s (contSide s k) k).foldl
        (fun (ls : List (Option Nat)) b => ls.set b (some 0))
        ((List.replicate V.length (none : Option Nat)).set 0 (some 0)), 1) =
      some (t.foldl (fun (ls : List (Option Nat)) b => ls.set b (some 1))
        (((((List.range k).map (fun i => i + 1)) ++ sideAfter s (contSide s k) k).foldl
            (fun (ls : List (Option Nat)) b => ls.set b (some 0))
            ((List.replicate V.length (none : Option Nat)).set 0 (some 0))).set
          (max (nextFalse s k) (firstTrue s)) (some 1)), 2) := by
    have h1 : processContour (V.map (fun x : ℤ => (x : F)))
        (twoThreadBirths (V.zip s) ⊥ ((V.getD k 0 : ℤ) : F)) false
        ((V.getD k 0 : ℤ) : F)
        ((((List.range k).map (fun i => i + 1)) ++ sideAfter s (contSide s k) k).foldl
          (fun (ls : List (Option Nat)) b => ls.set b (some 0))
          ((List.replicate V.length (none : Option Nat)).set 0 (some 0)), 1) =
        ((indicesWhere (fun b => b == ((V.getD k 0 : ℤ) : F))
            (twoThreadBirths (V.zip s) ⊥ ((V.getD k 0 : ℤ) : F))).drop 1).foldlM
          (fun (st : List (Option Nat) × Nat) idx =>
            (assignFrom (V.map (fun x : ℤ => (x : F)))
              (twoThreadBirths (V.zip s) ⊥ ((V.getD k 0 : ℤ) : F)) st.1 st.2 idx).map
              (fun ls => (ls, st.2 + 1)))
          ((((List.range k).map (fun i => i + 1)) ++
              sideAfter s (contSide s k) k).foldl
            (fun (ls : List (Option Nat)) b => ls.set b (some 0))
            ((List.replicate V.length (none : Option Nat)).set 0 (some 0)), 1) := rfl
    rw [h1, twoB_indicesWhere_ck hs hlen hpre htrue hpost]
    rw [show ([min (nextFalse s k) (firstTrue s),
        max (nextFalse s k) (firstTrue s)] : List Nat).drop 1 =
      [max (nextFalse s k) (firstTrue s)] from rfl]
    simp only [List.foldlM_cons, List.foldlM_nil, Option.bind_eq_bind, Option.some_bind,
      hassign1, Option.map_some']
    rfl
  have hrs : runStarts (V.map (fun x : ℤ => (x : F)))
      (twoThreadBirths (V.zip s) ⊥ ((V.getD k 0 : ℤ) : F)) =
      some (t.foldl (fun (ls : List (Option Nat)) b => ls.set b (some 1))
        (((((List.range k).map (fun i => i + 1)) ++ sideAfter s (contSide s k) k).foldl
            (fun (ls : List (Option Nat)) b => ls.set b (some 0))
            ((List.replicate V.length (none : Option Nat)).set 0 (some 0))).set
          (max (nextFalse s k) (firstTrue s)) (some 1)), 2) := by
    unfold runStarts
    rw [twoB_initBirth hlen hN hpre0,
      twoB_multiStartContours hs hlen hpre htrue hpost, hLlen, hproc1]
    simp only [Option.bind_eq_bind, Option.some_bind, List.foldlM_cons, List.foldlM_nil,
      hproc2]
    rfl
  rw [hrs]
  have hlabFlen : (t.foldl (fun (ls : List (Option Nat)) b => ls.set b (some 1))
      (((((List.range k).map (fun i => i + 1)) ++ sideAfter s (contSide s k) k).foldl
          (fun (ls : List (Option Nat)) b => ls.set b (some 0))
          ((List.replicate V.length (none : Option Nat)).set 0 (some 0))).set
        (max (nextFalse s k) (firstTrue s)) (some 1))).length = V.length := by
    rw [foldl_set_length, List.length_set, foldl_set_length, List.length_set,
      List.length_replicate]
  have hmapfin : (t.foldl (fun (ls : List (Option Nat)) b => ls.set b (some 1))
      (((((List.range k).map (fun i => i + 1)) ++ sideAfter s (contSide s k) k).foldl
          (fun (ls : List (Option Nat)) b => ls.set b (some 0))
          ((List.replicate V.length (none : Option Nat)).set 0 (some 0))).set
        (max (nextFalse s k) (firstTrue s)) (some 1))).map (fun o => o.getD 0) =
      (List.range V.length).map
        (fun i => if i ≤ k then 0 else
          if s.getD i false = contSide s k then 0 else 1) := by
    apply list_ext_getD 0
    · rw [List.length_map, hlabFlen, List.length_map, List.length_range]
    · intro i hi
      rw [List.length_map, hlabFlen] at hi
      rw [getD_map _ _ i none 0 (by rw [hlabFlen]; exact hi)]
      rw [twoT_labelsF_getD hlen hpre htrue hpost ht hi]
      rw [getD_map _ _ i 0 0 (by rw [List.length_range]; exact hi), getD_range 0 hi]
      rfl
  have hall : (t.foldl (fun (ls : List (Option Nat)) b => ls.set b (some 1))
      (((((List.range k).map (fun i => i + 1)) ++ sideAfter s (contSide s k) k).foldl
          (fun (ls : List (Option Nat)) b => ls.set b (some 0))
          ((List.replicate V.length (none : Option Nat)).set 0 (some 0))).set
        (max (nextFalse s k) (firstTrue s)) (some 1))).all (fun o => o.isSome) = true := by
    apply List.all_eq_true.mpr
    intro o ho
    obtain ⟨i, hi, hio⟩ := exists_getD_of_mem none ho
    rw [hlabFlen] at hi
    rw [twoT_labelsF_getD hlen hpre htrue hpost ht hi] at hio
    rw [← hio]
    rfl
  have hus2 : uniqueSorted ((List.range V.length).map
      (fun i => if i ≤ k then 0 else
        if s.getD i false = contSide s k then 0 else 1)) = [0, 1] := by
    apply eq_pair_of_sorted_nodup (show (0 : Nat) < 1 by omega)
    · exact sortByKey_sorted id _
    · exact uniqueSorted_nodup _
    · intro x
      rw [mem_uniqueSorted]
      constructor
      · intro hx
        obtain ⟨i, hi, rfl⟩ := List.mem_map.mp hx
        by_cases h1 : i ≤ k
        · rw [if_pos h1]
          exact Or.inl rfl
        · by_cases h2 : s.getD i false = contSide s k
          · rw [if_neg h1, if_pos h2]
            exact Or.inl rfl
          · rw [if_neg h1, if_neg h2]
            exact Or.inr rfl
      · rintro (rfl | rfl)
        · refine List.mem_map.mpr ⟨0, List.mem_range.mpr hN, ?_⟩
          rw [if_pos (Nat.zero_le k)]
        · refine List.mem_map.mpr ⟨max (nextFalse s k) (firstTrue s),
            List.mem_range.mpr (by omega), ?_⟩
          rw [if_neg (by omega)]
          rw [if_neg (by
            intro h
            have h2 := side_max htrue hpost
            rw [h] at h2
            simp at h2)]
  simp only [Option.bind_eq_bind, Option.some_bind]
  unfold finishLabels
  rw [if_pos (by rw [hall])]
  rw [twoB_startTotal hs hlen hpre htrue hpost]
  rw [hmapfin]
  rw [if_pos (by rw [hus2]; rfl)]

theorem twoB_getD_mx {V : List ℤ} {s : List Bool} {k : Nat}
    (hlen : s.length = V.length)
    (hpre : ∀ i, i ≤ k → s.getD i false = false) (htrue : true ∈ s)
    (hpost : ∃ j, k < j ∧ j < s.length ∧ s.getD j false = false) :
    (twoThreadBirths (V.zip s) ⊥ ((V.getD k 0 : ℤ) : F)).getD
      (max (nextFalse s k) (firstTrue s)) ⊥ = ((V.getD k 0 : ℤ) : F) := by
  rcases Nat.lt_or_ge (nextFalse s k) (firstTrue s) with hl | hg
  · rw [max_eq_right (le_of_lt hl)]
    exact twoB_getD_firstTrue hlen htrue
  · rw [max_eq_left hg]
    exact twoB_getD_nextFalse hlen hpre hpost

theorem twoT_uniqueSorted_labels {V : List ℤ} {s : List Bool} {k : Nat}
    (hlen : s.length = V.length)
    (hpre : ∀ i, i ≤ k → s.getD i false = false) (htrue : true ∈ s)
    (hpost : ∃ j, k < j ∧ j < s.length ∧ s.getD j false = false) :
    uniqueSorted ((List.range V.length).map
      (fun i => if i ≤ k then 0 else
        if s.getD i false = contSide s k then 0 else 1)) = [0, 1] := by
  have hnf := nextFalse_spec hpost
  have hft := firstTrue_spec htrue
  have hkft := k_lt_firstTrue htrue hpre
  have hN : 0 < V.length := by omega
  apply eq_pair_of_sorted_nodup (show (0 : Nat) < 1 by omega)
  · exact sortByKey_sorted id _
  · exact uniqueSorted_nodup _
  · intro x
    rw [mem_uniqueSorted]
    constructor
    · intro hx
      obtain ⟨i, hi, rfl⟩ := List.mem_map.mp hx
      by_cases h1 : i ≤ k
      · rw [if_pos h1]
        exact Or.inl rfl
      · by_cases h2 : s.getD i false = contSide s k
        · rw [if_neg h1, if_pos h2]
          exact Or.inl rfl
        · rw [if_neg h1, if_neg h2]
          exact Or.inr rfl
    · rintro (rfl | rfl)
      · refine List.mem_map.mpr ⟨0, List.mem_range.mpr hN, ?_⟩
        rw [if_pos (Nat.zero_le k)]
      · refine List.mem_map.mpr ⟨max (nextFalse s k) (firstTrue s),
          List.mem_range.mpr (by omega), ?_⟩
        rw [if_neg (by omega)]
        rw [if_neg (by
          intro h
          have h2 := side_max htrue hpost
          rw [h] at h2
          simp at h2)]

theorem twoT_label_mem {V : List ℤ} {s : List Bool} {k : Nat} {lab u : Nat} :
    u ∈ indicesWhere (fun x => x == lab) ((List.range V.length).map
      (fun i => if i ≤ k then 0 else
        if s.getD i false = contSide s k then 0 else 1)) ↔
      u < V.length ∧
        (if u ≤ k then 0 else
          if s.getD u false = contSide s k then 0 else 1) = lab := by
  rw [mem_indicesWhere _ 0]
  constructor
  · rintro ⟨h1, h2⟩
    rw [List.length_map, List.length_range] at h1
    rw [getD_map _ _ u 0 0 (by rw [List.length_range]; exact h1),
      getD_range 0 h1] at h2
    exact ⟨h1, eq_of_beq h2⟩
  · rintro ⟨h1, h2⟩
    refine ⟨by rw [List.length_map, List.length_range]; exact h1, ?_⟩
    rw [getD_map _ _ u 0 0 (by rw [List.length_range]; exact h1),
      getD_range 0 h1, h2]
    exact beq_self_eq_true lab

theorem twoT_label0_head {V : List ℤ} {s : List Bool} {k : Nat} (hN : 0 < V.length) :
    (indicesWhere (fun x => x == (0 : Nat)) ((List.range V.length).map
      (fun i => if i ≤ k then 0 else
        if s.getD i false = contSide s k then 0 else 1))).head? = some 0 := by
  apply head?_eq_of_min (indicesWhere_sorted _ _)
  · exact twoT_label_mem.mpr ⟨hN, by rw [if_pos (Nat.zero_le k)]⟩
  · intro x hx
    exact Nat.zero_le x

theorem twoT_label0_last {V : List ℤ} {s : List Bool} {k : Nat}
    (hlen : s.length = V.length)
    (hpre : ∀ i, i ≤ k → s.getD i false = false) (htrue : true ∈ s)
    (hpost : ∃ j, k < j ∧ j < s.length ∧ s.getD j false = false) :
    (indicesWhere (fun x => x == (0 : Nat)) ((List.range V.length).map
      (fun i => if i ≤ k then 0 else
        if s.getD i false = contSide s k then 0 else 1))).getLast? =
      some (sideLast s (contSide s k)) := by
  have hnf := nextFalse_spec hpost
  have hft := firstTrue_spec htrue
  have hkft := k_lt_firstTrue htrue hpre
  have hminS : min (nextFalse s k) (firstTrue s) < s.length := by omega
  have hsl0 := @sideLast_spec s (contSide s k)
    (min (nextFalse s k) (firstTrue s)) hminS rfl
  have hkd0 : k < sideLast s (contSide s k) := by
    have := hsl0.2.2.1
    omega
  apply getLast?_eq_of_max (indicesWhere_sorted _ _)
  · apply twoT_label_mem.mpr
    refine ⟨by omega, ?_⟩
    rw [if_neg (by omega), if_pos hsl0.2.1]
  · intro x hx
    obtain ⟨hx1, hx2⟩ := twoT_label_mem.mp hx
    by_cases hxk : x ≤ k
    · omega
    · rw [if_neg hxk] at hx2
      by_cases hxb : s.getD x false = contSide s k
      · by_contra hgt
        push_neg at hgt
        exact hsl0.2.2.2 x hgt (by omega) hxb
      · rw [if_neg hxb] at hx2
        exact absurd hx2 (by omega)

theorem twoT_label1_head {V : List ℤ} {s : List Bool} {k : Nat}
    (hlen : s.length = V.length)
    (hpre : ∀ i, i ≤ k → s.getD i false = false) (htrue : true ∈ s)
    (hpost : ∃ j, k < j ∧ j < s.length ∧ s.getD j false = false) :
    (indicesWhere (fun x => x == (1 : Nat)) ((List.range V.length).map
      (fun i => if i ≤ k then 0 else
        if s.getD i false = contSide s k then 0 else 1))).head? =
      some (max (nextFalse s k) (firstTrue s)) := by
  have hnf := nextFalse_spec hpost
  have hft := firstTrue_spec htrue
  have hkft := k_lt_firstTrue htrue hpre
  have hmxk : k < max (nextFalse s k) (firstTrue s) := by omega
  apply head?_eq_of_min (indicesWhere_sorted _ _)
  · apply twoT_label_mem.mpr
    refine ⟨by omega, ?_⟩
    rw [if_neg (by omega), if_neg (by
      intro h
      have h2 := side_max htrue hpost
      rw [h] at h2
      simp at h2)]
  · intro x hx
    obtain ⟨hx1, hx2⟩ := twoT_label_mem.mp hx
    by_cases hxk : x ≤ k
    · rw [if_pos hxk] at hx2
      exact absurd hx2 (by omega)
    · rw [if_neg hxk] at hx2
      by_cases hxb : s.getD x false = contSide s k
      · rw [if_pos hxb] at hx2
        exact absurd hx2 (by omega)
      · have hxb1 : s.getD x false = !contSide s k := by
          cases hsd : s.getD x false
          · cases hcs : contSide s k
            · exact absurd (show s.getD x false = contSide s k by rw [hsd, hcs]) hxb
            · rfl
          · cases hcs : contSide s k
            · rfl
            · exact absurd (show s.getD x false = contSide s k by rw [hsd, hcs]) hxb
        by_contra hlt
        push_neg at hlt
        exact no_b1_between hpre htrue hpost x (by omega) hlt hxb1

theorem twoT_label1_last {V : List ℤ} {s : List Bool} {k : Nat}
    (hlen : s.length = V.length)
    (hpre : ∀ i, i ≤ k → s.getD i false = false) (htrue : true ∈ s)
    (hpost : ∃ j, k < j ∧ j < s.length ∧ s.getD j false = false) :
    (indicesWhere (fun x => x == (1 : Nat)) ((List.range V.length).map
      (fun i => if i ≤ k then 0 else
        if s.getD i false = contSide s k then 0 else 1))).getLast? =
      some (sideLast s (!contSide s k)) := by
  have hnf := nextFalse_spec hpost
  have hft := firstTrue_spec htrue
  have hkft := k_lt_firstTrue htrue hpre
  have hmxS : max (nextFalse s k) (firstTrue s) < s.length := by omega
  have hmxk : k < max (nextFalse s k) (firstTrue s) := by omega
  have hsl1 := @sideLast_spec s (!contSide s k)
    (max (nextFalse s k) (firstTrue s)) hmxS (side_max htrue hpost)
  have hkd1 : k < sideLast s (!contSide s k) := by
    have := hsl1.2.2.1
    omega
  apply getLast?_eq_of_max (indicesWhere_sorted _ _)
  · apply twoT_label_mem.mpr
    refine ⟨by omega, ?_⟩
    rw [if_neg (by omega), if_neg (by
      intro h
      rw [hsl1.2.1] at h
      simp at h)]
  · intro x hx
    obtain ⟨hx1, hx2⟩ := twoT_label_mem.mp hx
    by_cases hxk : x ≤ k
    · rw [if_pos hxk] at hx2
      exact absurd hx2 (by omega)
    · rw [if_neg hxk] at hx2
      by_cases hxb : s.getD x false = contSide s k
      · rw [if_pos hxb] at hx2
        exact absurd hx2 (by omega)
      · have hxb1 : s.getD x false = !contSide s k := by
          cases hsd : s.getD x false
          · cases hcs : contSide s k
            · exact absurd (show s.getD x false = contSide s k by rw [hsd, hcs]) hxb
            · rfl
          · cases hcs : contSide s k
            · rfl
            · exact absurd (show s.getD x false = contSide s k by rw [hsd, hcs]) hxb
        by_contra hgt
        push_neg at hgt
        exact hsl1.2.2.2 x hgt (by omega) hxb1

theorem twoT_last_max {s : List Bool} {k : Nat}
    (hpre : ∀ i, i ≤ k → s.getD i false = false) (htrue : true ∈ s)
    (hpost : ∃ j, k < j ∧ j < s.length ∧ s.getD j false = false) :
    max (sideLast s (contSide s k)) (sideLast s (!contSide s k)) = s.length - 1 := by
  have hnf := nextFalse_spec hpost
  have hft := firstTrue_spec htrue
  have hkft := k_lt_firstTrue htrue hpre
  have hminS : min (nextFalse s k) (firstTrue s) < s.length := by omega
  have hmxS : max (nextFalse s k) (firstTrue s) < s.length := by omega
  have hsl0 := @sideLast_spec s (contSide s k)
    (min (nextFalse s k) (firstTrue s)) hminS rfl
  have hsl1 := @sideLast_spec s (!contSide s k)
    (max (nextFalse s k) (firstTrue s)) hmxS (side_max htrue hpost)
  have hN1 : s.length - 1 < s.length := by omega
  by_cases hb : s.getD (s.length - 1) false = contSide s k
  · have h2 := @sideLast_spec s (contSide s k) (s.length - 1) hN1 hb
    have h3 := h2.2.2.1
    have h4 := hsl0.1
    have h5 := hsl1.1
    omega
  · have hb1 : s.getD (s.length - 1) false = !contSide s k := by
      cases hsd : s.getD (s.length - 1) false
      · cases hcs : contSide s k
        · exact absurd (show s.getD (s.length - 1) false = contSide s k by
            rw [hsd, hcs]) hb
        · rfl
      · cases hcs : contSide s k
        · rfl
        · exact absurd (show s.getD (s.length - 1) false = contSide s k by
            rw [hsd, hcs]) hb
    have h2 := @sideLast_spec s (!contSide s k) (s.length - 1) hN1 hb1
    have h3 := h2.2.2.1
    have h4 := hsl0.1
    have h5 := hsl1.1
    omega

theorem twoT_threadDelta_zero {V : List ℤ} {s : List Bool} {k : Nat}
    (hlen : s.length = V.length)
    (hpre : ∀ i, i ≤ k → s.getD i false = false) (htrue : true ∈ s)
    (hpost : ∃ j, k < j ∧ j < s.length ∧ s.getD j false = false) :
    threadDelta (V.map (fun x : ℤ => (x : F)))
      (twoThreadBirths (V.zip s) ⊥ ((V.getD k 0 : ℤ) : F))
      ((List.range V.length).map
        (fun i => if i ≤ k then 0 else
          if s.getD i false = contSide s k then 0 else 1))
      ([], List.replicate (V.length + 1) 0) 0 =
      some ([((⊥ : F), ((V.getD (sideLast s (contSide s k)) 0 : ℤ) : F))],
        listAddAt (listAddAt (List.replicate (V.length + 1) 0)
          (sideLast s (contSide s k) + 1) (-1)) 0 1) := by
  have hnf := nextFalse_spec hpost
  have hft := firstTrue_spec htrue
  have hkft := k_lt_firstTrue htrue hpre
  have hN : 0 < V.length := by omega
  have hpre0 := hpre 0 (Nat.zero_le k)
  have hminS : min (nextFalse s k) (firstTrue s) < s.length := by omega
  have hsl0 := @sideLast_spec s (contSide s k)
    (min (nextFalse s k) (firstTrue s)) hminS rfl
  have hd0V : sideLast s (contSide s k) < V.length := by
    have := hsl0.1
    omega
  unfold threadDelta
  simp only [twoT_label0_head hN, twoT_label0_last hlen hpre htrue hpost]
  rw [twoB_getD_zero hN (by omega) hpre0]
  rw [if_pos (beq_self_eq_true _)]
  rw [twoT_logl_getD hd0V]
  rfl

theorem twoT_threadDelta_one {V : List ℤ} {s : List Bool} {k : Nat}
    (hs : V.Pairwise (· < ·)) (hlen : s.length = V.length)
    (hpre : ∀ i, i ≤ k → s.getD i false = false) (htrue : true ∈ s)
    (hpost : ∃ j, k < j ∧ j < s.length ∧ s.getD j false = false)
    (tmm : List (F × F)) (delta : List ℤ) :
    threadDelta (V.map (fun x : ℤ => (x : F)))
      (twoThreadBirths (V.zip s) ⊥ ((V.getD k 0 : ℤ) : F))
      ((List.range V.length).map
        (fun i => if i ≤ k then 0 else
          if s.getD i false = contSide s k then 0 else 1))
      (tmm, delta) 1 =
      some (tmm ++ [(((V.getD k 0 : ℤ) : F),
          ((V.getD (sideLast s (!contSide s k)) 0 : ℤ) : F))],
        listAddAt (listAddAt delta (sideLast s (!contSide s k) + 1) (-1)) (k + 1) 1) := by
  have hnf := nextFalse_spec hpost
  have hft := firstTrue_spec htrue
  have hkft := k_lt_firstTrue htrue hpre
  have hN : 0 < V.length := by omega
  have hkV : k < V.length := by omega
  have hpre0 := hpre 0 (Nat.zero_le k)
  have hmxS : max (nextFalse s k) (firstTrue s) < s.length := by omega
  have hsl1 := @sideLast_spec s (!contSide s k)
    (max (nextFalse s k) (firstTrue s)) hmxS (side_max htrue hpost)
  have hd1V : sideLast s (!contSide s k) < V.length := by
    have := hsl1.1
    omega
  have hsing : indicesWhere (fun x => x == ((V.getD k 0 : ℤ) : F))
      (V.map (fun x : ℤ => (x : F))) = [k] := by
    rw [show ((V.getD k 0 : ℤ) : F) = (V.map (fun x : ℤ => (x : F))).getD k ⊥ from
      (getD_map _ _ k 0 ⊥ hkV).symm]
    exact indicesWhere_singleton_of_nodup ⊥ (twoT_logl_nodup hs)
      (by rw [List.length_map]; exact hkV)
  unfold threadDelta
  simp only [twoT_label1_head hlen hpre htrue hpost,
    twoT_label1_last hlen hpre htrue hpost]
  rw [twoB_getD_mx hlen hpre htrue hpost, twoB_getD_zero hN (by omega) hpre0]
  rw [if_neg (by simp)]
  rw [hsing, twoT_logl_getD hd1V]

theorem twoT_nlive {N k d0 d1 : Nat} (hk0 : k < d0) (hk1 : k < d1)
    (hd0 : d0 < N) (hd1 : d1 < N) (hmax : max d0 d1 = N - 1) :
    (cumsum (listAddAt (listAddAt (listAddAt (listAddAt
        (List.replicate (N + 1) (0 : ℤ)) (d0 + 1) (-1)) 0 1)
        (d1 + 1) (-1)) (k + 1) 1)).dropLast =
      (List.range N).map
        (fun i : ℕ => if i ≤ k then (1 : ℤ) else if i ≤ min d0 d1 then 2 else 1) := by
  have hlen4 : (listAddAt (listAddAt (listAddAt (listAddAt
      (List.replicate (N + 1) (0 : ℤ)) (d0 + 1) (-1)) 0 1)
      (d1 + 1) (-1)) (k + 1) 1).length = N + 1 := by
    rw [listAddAt_length, listAddAt_length, listAddAt_length, listAddAt_length,
      List.length_replicate]
  apply list_ext_getD 0
  · rw [List.length_dropLast]
    unfold cumsum
    rw [cumsumFrom_length, hlen4, List.length_map, List.length_range]
    omega
  · intro i hi
    have hi' : i < N := by
      rw [List.length_dropLast] at hi
      unfold cumsum at hi
      rw [cumsumFrom_length, hlen4] at hi
      omega
    rw [getD_dropLast _ _ _ (by
      unfold cumsum
      rw [cumsumFrom_length, hlen4]
      omega)]
    unfold cumsum
    rw [cumsumFrom_getD 0 _ 0 i (by rw [hlen4]; omega)]
    rw [take_sum_listAddAt _ _ _ (by
      rw [listAddAt_length, listAddAt_length, listAddAt_length, List.length_replicate]
      omega)]
    rw [take_sum_listAddAt _ _ _ (by
      rw [listAddAt_length, listAddAt_length, List.length_replicate]
      omega)]
    rw [take_sum_listAddAt _ _ _ (by
      rw [listAddAt_length, List.length_replicate]
      omega)]
    rw [take_sum_listAddAt _ _ _ (by
      rw [List.length_replicate]
      omega)]
    rw [sum_take_replicate_zero]
    rw [getD_map _ _ i 0 0 (by simpa using hi'), getD_range 0 hi']
    split_ifs <;> omega

theorem assemble_twoThread {V : List ℤ} {s : List Bool} {k : Nat}
    (hs : V.Pairwise (· < ·)) (hlen : s.length = V.length)
    (hpre : ∀ i, i ≤ k → s.getD i false = false) (htrue : true ∈ s)
    (hpost : ∃ j, k < j ∧ j < s.length ∧ s.getD j false = false) :
    assembleRun (twoThreadRows V s k)
      ((List.range V.length).map
        (fun i => if i ≤ k then 0 else
          if s.getD i false = contSide s k then 0 else 1)) =
      .ok { logl := V.map (fun x : ℤ => (x : F)),
            theta := List.replicate V.length [(0 : F)],
            thread_labels := (List.range V.length).map
              (fun i => if i ≤ k then 0 else
                if s.getD i false = contSide s k then 0 else 1),
            thread_min_max := [((⊥ : F),
                ((V.getD (sideLast s (contSide s k)) 0 : ℤ) : F)),
              (((V.getD k 0 : ℤ) : F),
                ((V.getD (sideLast s (!contSide s k)) 0 : ℤ) : F))],
            nlive_array := (List.range V.length).map
              (fun i : ℕ => if i ≤ k then (1 : ℤ)
                else if i ≤ min (sideLast s (contSide s k))
                    (sideLast s (!contSide s k)) then 2 else 1) } := by
  have hnf := nextFalse_spec hpost
  have hft := firstTrue_spec htrue
  have hkft := k_lt_firstTrue htrue hpre
  have hN : 0 < V.length := by omega
  have hminS : min (nextFalse s k) (firstTrue s) < s.length := by omega
  have hmxS : max (nextFalse s k) (firstTrue s) < s.length := by omega
  have hsl0 := @sideLast_spec s (contSide s k)
    (min (nextFalse s k) (firstTrue s)) hminS rfl
  have hsl1 := @sideLast_spec s (!contSide s k)
    (max (nextFalse s k) (firstTrue s)) hmxS (side_max htrue hpost)
  have hdedup2 : ((List.range V.length).map
      (fun i => if i ≤ k then 0 else
        if s.getD i false = contSide s k then 0 else 1)).dedup.length = 2 := by
    have h := uniqueSorted_length ((List.range V.length).map
      (fun i => if i ≤ k then 0 else
        if s.getD i false = contSide s k then 0 else 1))
    rw [twoT_uniqueSorted_labels hlen hpre htrue hpost] at h
    simpa using h.symm
  unfold assembleRun
  rw [hdedup2]
  rw [if_neg (by
    rw [twoT_uniqueSorted_labels hlen hpre htrue hpost]
    exact fun h => h rfl)]
  rw [twoThreadRows_map_rowLogl hlen, twoThreadRows_map_rowBirth hlen,
    twoThreadRows_map_rowTheta hlen, twoThreadRows_length hlen]
  rw [show List.range 2 = [0, 1] from rfl]
  simp only [List.foldlM_cons, List.foldlM_nil, Option.bind_eq_bind, Option.some_bind,
    twoT_threadDelta_zero hlen hpre htrue hpost,
    twoT_threadDelta_one hs hlen hpre htrue hpost]
  rw [twoT_nlive (by have := hsl0.2.2.1; omega) (by have := hsl1.2.2.1; omega)
    (by have := hsl0.1; omega) (by have := hsl1.1; omega)
    (by rw [twoT_last_max hpre htrue hpost]; omega)]
  rfl

/-- Claim C2 counterexample: in the claimed family with the second
thread born at the LAST point of the initial thread (log-likelihoods
1, 2, 3, side mask [false, false, true], k = 1), the pipeline
reconstructs a single merged thread — thread_min_max has one row, not
two — because the new point simply continues thread 0's replacement
chain instead of starting a contour with two births. -/
theorem second_thread_at_last_point_merges :
    twoThreadRows [(1 : ℤ), 2, 3] [false, false, true] 1 =
      [[(0 : F), ((1 : ℤ) : F), (⊥ : F)], [(0 : F), ((2 : ℤ) : F), ((1 : ℤ) : F)],
       [(0 : F), ((3 : ℤ) : F), ((2 : ℤ) : F)]] ∧
    process_samples_array (twoThreadRows [(1 : ℤ), 2, 3] [false, false, true] 1) =
      .ok { logl := [((1 : ℤ) : F), ((2 : ℤ) : F), ((3 : ℤ) : F)],
            theta := [[(0 : F)], [(0 : F)], [(0 : F)]],
            thread_labels := [0, 0, 0],
            thread_min_max := [((⊥ : F), ((3 : ℤ) : F))],
            nlive_array := [1, 1, 1] } ∧
    ¬ ([((⊥ : F), ((3 : ℤ) : F))].length = 2) := by
  refine ⟨rfl, rfl, by decide⟩

/-- Claim C2 (amended): for every two-thread run presented in sorted
order — log-likelihood column `V` strictly increasing, side mask `s`
marking the second thread's samples, every sample up to index `k` on
the initial thread, the second thread nonempty (each of its samples
born on its predecessor, the first on the `k`-th log-likelihood), and
the initial thread continuing past `k` — the pipeline produces exactly
the two thread labels 0 and 1 (thread 1 being the side whose first
post-`k` sample comes later), records thread 1's birth contour
(`thread_min_max[1].1`) as the `k`-th log-likelihood, and produces an
nlive_array equal to 1 up to index `k`, 2 from index `k + 1` to the
earlier of the two threads' final samples, and 1 after — in particular
it steps from 1 at index `k` to 2 at index `k + 1`.  When the second
thread is instead born at the initial thread's last point, the run is
reconstructed as one merged thread (see the counterexample). -/
theorem second_thread_pipeline (V : List ℤ) (s : List Bool) (k : Nat)
    (hs : V.Pairwise (· < ·)) (hlen : s.length = V.length)
    (hpre : ∀ i, i ≤ k → s.getD i false = false)
    (htrue : true ∈ s)
    (hpost : ∃ j, k < j ∧ j < s.length ∧ s.getD j false = false) :
    process_samples_array (twoThreadRows V s k) =
      .ok { logl := V.map (fun x : ℤ => (x : F)),
            theta := List.replicate V.length [(0 : F)],
            thread_labels := (List.range V.length).map
              (fun i => if i ≤ k then 0 else
                if s.getD i false = contSide s k then 0 else 1),
            thread_min_max := [((⊥ : F),
                ((V.getD (sideLast s (contSide s k)) 0 : ℤ) : F)),
              (((V.getD k 0 : ℤ) : F),
                ((V.getD (sideLast s (!contSide s k)) 0 : ℤ) : F))],
            nlive_array := (List.range V.length).map
              (fun i : ℕ => if i ≤ k then (1 : ℤ)
                else if i ≤ min (sideLast s (contSide s k))
                    (sideLast s (!contSide s k)) then 2 else 1) } ∧
    uniqueSorted ((List.range V.length).map
      (fun i => if i ≤ k then 0 else
        if s.getD i false = contSide s k then 0 else 1)) = [0, 1] ∧
    ((List.range V.length).map
      (fun i : ℕ => if i ≤ k then (1 : ℤ)
        else if i ≤ min (sideLast s (contSide s k))
            (sideLast s (!contSide s k)) then 2 else 1)).getD k 0 = 1 ∧
    ((List.range V.length).map
      (fun i : ℕ => if i ≤ k then (1 : ℤ)
        else if i ≤ min (sideLast s (contSide s k))
            (sideLast s (!contSide s k)) then 2 else 1)).getD (k + 1) 0 = 2 := by
  have hnf := nextFalse_spec hpost
  have hft := firstTrue_spec htrue
  have hkft := k_lt_firstTrue htrue hpre
  have hkV : k < V.length := by omega
  have hminS : min (nextFalse s k) (firstTrue s) < s.length := by omega
  have hmxS : max (nextFalse s k) (firstTrue s) < s.length := by omega
  have hmnk : k < min (nextFalse s k) (firstTrue s) := by omega
  have hmxk : k < max (nextFalse s k) (firstTrue s) := by omega
  have hsl0 := @sideLast_spec s (contSide s k)
    (min (nextFalse s k) (firstTrue s)) hminS rfl
  have hsl1 := @sideLast_spec s (!contSide s k)
    (max (nextFalse s k) (firstTrue s)) hmxS (side_max htrue hpost)
  have hk1V : k + 1 < V.length := by
    have h1 := hsl1.1
    have h2 := hsl1.2.2.1
    omega
  refine ⟨?_, twoT_uniqueSorted_labels hlen hpre htrue hpost, ?_, ?_⟩
  · unfold process_samples_array
    rw [sortRows_twoThreadRows hs hlen, twoThreadRows_map_rowLogl hlen,
      twoThreadRows_map_rowBirth hlen]
    rw [if_neg (by
      rw [List.Nodup.dedup (twoT_logl_nodup hs)]
      exact fun h => h rfl)]
    have hth := threads_twoThread hs hlen hpre htrue hpost
    simp only [hth]
    exact assemble_twoThread hs hlen hpre htrue hpost
  · rw [getD_map _ _ k 0 0 (by rw [List.length_range]; exact hkV), getD_range 0 hkV,
      if_pos (le_refl k)]
  · rw [getD_map _ _ (k + 1) 0 0 (by rw [List.length_range]; exact hk1V),
      getD_range 0 hk1V, if_neg (by omega), if_pos (by
        have h1 := hsl0.2.2.1
        have h2 := hsl1.2.2.1
        omega)]

/-- Witness for the two-thread pipeline theorem at the interleaved run
with log-likelihoods 1..5, second-thread samples at positions 2 and 4,
and the second thread born on the contour of sample 1: labels come out
[0, 0, 0, 1, 0] (the second thread continues thread 0 past the shared
contour) and nlive_array steps 1 → 2 right after index 1. -/
theorem second_thread_pipeline_witness :
    ([(1 : ℤ), 2, 3, 4, 5].Pairwise (· < ·)) ∧
    (([false, false, true, false, true] : List Bool).length =
      [(1 : ℤ), 2, 3, 4, 5].length) ∧
    (∀ i, i ≤ 1 → ([false, false, true, false, true] : List Bool).getD i false = false) ∧
    (true ∈ ([false, false, true, false, true] : List Bool)) ∧
    (∃ j, 1 < j ∧ j < ([false, false, true, false, true] : List Bool).length ∧
      ([false, false, true, false, true] : List Bool).getD j false = false) ∧
    (process_samples_array (twoThreadRows [(1 : ℤ), 2, 3, 4, 5]
        [false, false, true, false, true] 1) =
      .ok { logl := [((1 : ℤ) : F), ((2 : ℤ) : F), ((3 : ℤ) : F), ((4 : ℤ) : F),
              ((5 : ℤ) : F)],
            theta := [[(0 : F)], [(0 : F)], [(0 : F)], [(0 : F)], [(0 : F)]],
            thread_labels := [0, 0, 0, 1, 0],
            thread_min_max := [((⊥ : F), ((5 : ℤ) : F)), (((2 : ℤ) : F), ((4 : ℤ) : F))],
            nlive_array := [1, 1, 2, 2, 1] } ∧
      uniqueSorted ([0, 0, 0, 1, 0] : List Nat) = [0, 1] ∧
      ([1, 1, 2, 2, 1] : List ℤ).getD 1 0 = 1 ∧
      ([1, 1, 2, 2, 1] : List ℤ).getD 2 0 = 2) :=
  ⟨by decide, by decide, by decide, by decide, ⟨3, by decide⟩,
    second_thread_pipeline [(1 : ℤ), 2, 3, 4, 5] [false, false, true, false, true] 1
      (by decide) (by decide) (by decide) (by decide) ⟨3, by decide⟩⟩

end Nestcheck
